import Mathlib

/-!
# FlowForge execution engine — verification development

Shallow embedding of the FlowForge workflow execution engine
(`packages/server/src/core/executor.ts`, second/current `WorkflowExecutor`
class, and `packages/server/src/utils/variable-utils.ts`,
`packages/server/src/ai/ollama-node.ts`), together with proofs about it.

Modelling conventions:
* JavaScript runtime values that can appear in run data are modelled by the
  inductive type `Value` (JSON-style values; numbers are modelled as integers
  plus a separate NaN constructor, which covers every number the claims
  mention; prototype-inherited properties such as `toString` are treated as
  absent).
* JavaScript numbers used as in-degrees are modelled as `Int` (they can go
  negative in the source).
* The cooperative single-threaded concurrency of the source is modelled by
  the canonical deterministic interleaving: all per-level readiness checks
  happen against the state at the start of the level (they run in the
  synchronous prefix of the `Promise.all` callbacks in the source), and node
  completions are then applied in list order.
* Wall-clock time is abstracted to a counter; only facts the source fixes
  exactly (the literal zero duration of skipped-node metrics, and the backoff
  wait amounts) are claimed about time.
* Capability behaviour is abstracted by an oracle assigning to every node id
  and attempt index an outcome; theorems quantify over all oracles.
-/

namespace FlowForge

/-! ## JavaScript values -/

/-- JSON-style JavaScript runtime value. -/
inductive Value where
  | vNull : Value
  | vBool (b : Bool) : Value
  | vNum (n : Int) : Value
  | vNaN : Value
  | vStr (s : String) : Value
  | vArr (elts : List Value) : Value
  | vObj (fields : List (String × Value)) : Value

mutual
def Value.decEqV : (a b : Value) → Decidable (a = b)
  | .vNull, .vNull => isTrue rfl
  | .vNaN, .vNaN => isTrue rfl
  | .vBool a, .vBool b =>
      match Bool.decEq a b with
      | isTrue h => isTrue (by rw [h])
      | isFalse h => isFalse (fun he => h (Value.vBool.inj he))
  | .vNum a, .vNum b =>
      match Int.instDecidableEq a b with
      | isTrue h => isTrue (by rw [h])
      | isFalse h => isFalse (fun he => h (Value.vNum.inj he))
  | .vStr a, .vStr b =>
      match String.decEq a b with
      | isTrue h => isTrue (by rw [h])
      | isFalse h => isFalse (fun he => h (Value.vStr.inj he))
  | .vArr xs, .vArr ys =>
      match Value.decEqListV xs ys with
      | isTrue h => isTrue (by rw [h])
      | isFalse h => isFalse (fun he => h (Value.vArr.inj he))
  | .vObj fs, .vObj gs =>
      match Value.decEqFieldsV fs gs with
      | isTrue h => isTrue (by rw [h])
      | isFalse h => isFalse (fun he => h (Value.vObj.inj he))
  | .vNull, .vBool _ => isFalse (fun h => Value.noConfusion h)
  | .vNull, .vNum _ => isFalse (fun h => Value.noConfusion h)
  | .vNull, .vNaN => isFalse (fun h => Value.noConfusion h)
  | .vNull, .vStr _ => isFalse (fun h => Value.noConfusion h)
  | .vNull, .vArr _ => isFalse (fun h => Value.noConfusion h)
  | .vNull, .vObj _ => isFalse (fun h => Value.noConfusion h)
  | .vBool _, .vNull => isFalse (fun h => Value.noConfusion h)
  | .vBool _, .vNum _ => isFalse (fun h => Value.noConfusion h)
  | .vBool _, .vNaN => isFalse (fun h => Value.noConfusion h)
  | .vBool _, .vStr _ => isFalse (fun h => Value.noConfusion h)
  | .vBool _, .vArr _ => isFalse (fun h => Value.noConfusion h)
  | .vBool _, .vObj _ => isFalse (fun h => Value.noConfusion h)
  | .vNum _, .vNull => isFalse (fun h => Value.noConfusion h)
  | .vNum _, .vBool _ => isFalse (fun h => Value.noConfusion h)
  | .vNum _, .vNaN => isFalse (fun h => Value.noConfusion h)
  | .vNum _, .vStr _ => isFalse (fun h => Value.noConfusion h)
  | .vNum _, .vArr _ => isFalse (fun h => Value.noConfusion h)
  | .vNum _, .vObj _ => isFalse (fun h => Value.noConfusion h)
  | .vNaN, .vNull => isFalse (fun h => Value.noConfusion h)
  | .vNaN, .vBool _ => isFalse (fun h => Value.noConfusion h)
  | .vNaN, .vNum _ => isFalse (fun h => Value.noConfusion h)
  | .vNaN, .vStr _ => isFalse (fun h => Value.noConfusion h)
  | .vNaN, .vArr _ => isFalse (fun h => Value.noConfusion h)
  | .vNaN, .vObj _ => isFalse (fun h => Value.noConfusion h)
  | .vStr _, .vNull => isFalse (fun h => Value.noConfusion h)
  | .vStr _, .vBool _ => isFalse (fun h => Value.noConfusion h)
  | .vStr _, .vNum _ => isFalse (fun h => Value.noConfusion h)
  | .vStr _, .vNaN => isFalse (fun h => Value.noConfusion h)
  | .vStr _, .vArr _ => isFalse (fun h => Value.noConfusion h)
  | .vStr _, .vObj _ => isFalse (fun h => Value.noConfusion h)
  | .vArr _, .vNull => isFalse (fun h => Value.noConfusion h)
  | .vArr _, .vBool _ => isFalse (fun h => Value.noConfusion h)
  | .vArr _, .vNum _ => isFalse (fun h => Value.noConfusion h)
  | .vArr _, .vNaN => isFalse (fun h => Value.noConfusion h)
  | .vArr _, .vStr _ => isFalse (fun h => Value.noConfusion h)
  | .vArr _, .vObj _ => isFalse (fun h => Value.noConfusion h)
  | .vObj _, .vNull => isFalse (fun h => Value.noConfusion h)
  | .vObj _, .vBool _ => isFalse (fun h => Value.noConfusion h)
  | .vObj _, .vNum _ => isFalse (fun h => Value.noConfusion h)
  | .vObj _, .vNaN => isFalse (fun h => Value.noConfusion h)
  | .vObj _, .vStr _ => isFalse (fun h => Value.noConfusion h)
  | .vObj _, .vArr _ => isFalse (fun h => Value.noConfusion h)

def Value.decEqListV : (xs ys : List Value) → Decidable (xs = ys)
  | [], [] => isTrue rfl
  | [], _ :: _ => isFalse (fun h => List.noConfusion h)
  | _ :: _, [] => isFalse (fun h => List.noConfusion h)
  | x :: xs, y :: ys =>
      match Value.decEqV x y, Value.decEqListV xs ys with
      | isTrue h1, isTrue h2 => isTrue (by rw [h1, h2])
      | isFalse h1, _ => isFalse (fun h => h1 (List.cons.inj h).1)
      | _, isFalse h2 => isFalse (fun h => h2 (List.cons.inj h).2)

def Value.decEqFieldsV : (fs gs : List (String × Value)) → Decidable (fs = gs)
  | [], [] => isTrue rfl
  | [], _ :: _ => isFalse (fun h => List.noConfusion h)
  | _ :: _, [] => isFalse (fun h => List.noConfusion h)
  | (k1, v1) :: fs, (k2, v2) :: gs =>
      match String.decEq k1 k2, Value.decEqV v1 v2, Value.decEqFieldsV fs gs with
      | isTrue hk, isTrue hv, isTrue ht => isTrue (by rw [hk, hv, ht])
      | isFalse hk, _, _ => isFalse (fun h => hk (congrArg Prod.fst (List.cons.inj h).1))
      | _, isFalse hv, _ => isFalse (fun h => hv (congrArg Prod.snd (List.cons.inj h).1))
      | _, _, isFalse ht => isFalse (fun h => ht (List.cons.inj h).2)
end

instance : DecidableEq Value := Value.decEqV

/-- Decimal digits of a natural number (kernel-reducible fuel variant; the
fuel `n+1` always suffices since `n / 10 < n` for `n > 0`). -/
def natDigitsGo (fuel n : Nat) (acc : List Char) : List Char :=
  match fuel with
  | 0 => acc
  | fuel + 1 =>
      let d := Char.ofNat (48 + n % 10)
      let n' := n / 10
      if n' = 0 then d :: acc else natDigitsGo fuel n' (d :: acc)

def natToString (n : Nat) : String := String.mk (natDigitsGo (n + 1) n [])

/-- JavaScript `String(n)` for an integral number. -/
def intToString : Int → String
  | .ofNat n => natToString n
  | .negSucc m => String.mk ('-' :: natDigitsGo (m + 2) (m + 1) [])

/-- JavaScript truthiness: `null`, `false`, `0`, `NaN` and `""` are falsy;
objects and arrays are always truthy. -/
def Value.falsy : Value → Bool
  | .vNull => true
  | .vBool b => !b
  | .vNum n => n == 0
  | .vNaN => true
  | .vStr s => s == ""
  | .vArr _ => false
  | .vObj _ => false

mutual
/-- JavaScript `String(v)` coercion: objects render as `[object Object]`,
arrays comma-join their elements (with `null` rendering as the empty
string inside an array, per `Array.prototype.toString`). -/
def Value.jsString : Value → String
  | .vNull => "null"
  | .vBool b => cond b "true" "false"
  | .vNum n => intToString n
  | .vNaN => "NaN"
  | .vStr s => s
  | .vArr xs => Value.jsStringElems xs
  | .vObj _ => "[object Object]"

def Value.jsStringElems : List Value → String
  | [] => ""
  | [x] => Value.jsStringElem x
  | x :: y :: rest => Value.jsStringElem x ++ "," ++ Value.jsStringElems (y :: rest)

def Value.jsStringElem : Value → String
  | .vNull => ""
  | .vBool b => cond b "true" "false"
  | .vNum n => intToString n
  | .vNaN => "NaN"
  | .vStr s => s
  | .vArr xs => Value.jsStringElems xs
  | .vObj _ => "[object Object]"
end

/-! ## variable-utils.ts -/

/-- Canonical decimal array index: the strings JavaScript treats as array
indices ("0", "1", ..., with no leading zeros). -/
def canonIndex (cs : List Char) : Option Nat :=
  match cs with
  | [] => none
  | ['0'] => some 0
  | c :: rest =>
      if c.isDigit && c != '0' && rest.all (·.isDigit) then
        some ((c :: rest).foldl (fun acc d => acc * 10 + (d.toNat - 48)) 0)
      else none

/-- JavaScript property access `current[key]` on a run-data value (own
properties only; prototype-inherited members are treated as absent). -/
def jsIndex : Value → String → Option Value
  | .vObj fs, k => (fs.find? (fun f => f.1 = k)).map (·.2)
  | .vArr xs, k =>
      if k = "length" then some (.vNum xs.length)
      else match canonIndex k.data with
        | some i => xs.get? i
        | none => none
  | .vStr s, k =>
      if k = "length" then some (.vNum s.length)
      else match canonIndex k.data with
        | some i => (s.data.get? i).map (fun c => .vStr (String.mk [c]))
        | none => none
  | _, _ => none

def getNestedStep (current : Option Value) (key : String) : Option Value :=
  match current with
  | none => none
  | some c => if c.falsy then none else jsIndex c key

/-- `path.split('.')` (single-character separator, JavaScript semantics:
the empty string splits to one empty segment). -/
def splitDotGo (cur : List Char) : List Char → List String
  | [] => [String.mk cur.reverse]
  | c :: rest =>
      if c = '.' then String.mk cur.reverse :: splitDotGo [] rest
      else splitDotGo (c :: cur) rest

def splitDot (s : String) : List String := splitDotGo [] s.data

/-- `getNestedValue(obj, path)`: follow the dot-separated path through the
value; `none` models JavaScript `undefined`. -/
def getNestedValue (obj : Value) (path : String) : Option Value :=
  (splitDot path).foldl getNestedStep (some obj)

/-- State of the left-to-right scan for the regex `\x24\x7b[^\x7d]+\x7d`
used by `replaceVariables` (global match). -/
inductive ScanState where
  | outside : ScanState
  | seenDollar : ScanState
  | inBody (bodyRev : List Char) : ScanState
deriving DecidableEq

/-- Global scan of `template.match(...)`: returns the list of variable
bodies (the text between the dollar-brace and the closing brace) of the
non-overlapping matches, left to right. -/
def scanGo : ScanState → List Char → List (List Char)
  | _, [] => []
  | .outside, c :: rest =>
      if c = '$' then scanGo .seenDollar rest else scanGo .outside rest
  | .seenDollar, c :: rest =>
      if c = '\x7b' then scanGo (.inBody []) rest
      else if c = '$' then scanGo .seenDollar rest
      else scanGo .outside rest
  | .inBody acc, c :: rest =>
      if c = '\x7d' then
        match acc with
        | [] => scanGo .outside rest
        | _ => acc.reverse :: scanGo .outside rest
      else scanGo (.inBody (c :: acc)) rest

/-- The full matched text for a variable body: dollar, open brace, body,
close brace. -/
def matchText (body : List Char) : List Char :=
  '$' :: '\x7b' :: (body ++ ['\x7d'])

/-- `result.replace(variable, replacement)` with a string pattern: replace
the first occurrence only. (The JavaScript replacement-pattern escapes
`$$`, `$&` etc. are not modelled; no replacement used in the theorems
below contains such an escape.) -/
def replaceFirst : List Char → List Char → List Char → List Char
  | [], _, _ => []
  | c :: rest, pat, repl =>
      if pat.isPrefixOf (c :: rest) then repl ++ (c :: rest).drop pat.length
      else c :: replaceFirst rest pat repl

/-- The rendering applied to one resolved variable in `replaceVariables`:
`String(getNestedValue(contextData, varName) || '')`. A missing path or a
falsy value renders as the empty string. -/
def renderVar (data : Value) (body : List Char) : List Char :=
  match getNestedValue data (String.mk body) with
  | none => []
  | some v => if v.falsy then [] else (Value.jsString v).data

/-- `replaceVariables(template, contextData)` from variable-utils.ts:
collect all matches, then for each match replace its first occurrence in
the working string with the rendered value. -/
def replaceVariables (template : String) (data : Value) : String :=
  let vars := scanGo .outside template.data
  String.mk (vars.foldl
    (fun res body => replaceFirst res (matchText body) (renderVar data body))
    template.data)

/-! ## ollama-node.ts prompt variable replacement -/

def spaces (n : Nat) : List Char := List.replicate n ' '

def jsonEscapeChar (c : Char) : List Char :=
  if c = '"' then ['\\', '"']
  else if c = '\\' then ['\\', '\\']
  else if c = '\n' then ['\\', 'n']
  else if c = '\t' then ['\\', 't']
  else if c = '\r' then ['\\', 'r']
  else [c]

def jsonQuote (s : String) : List Char :=
  '"' :: s.data.foldr (fun c acc => jsonEscapeChar c ++ acc) ['"']

mutual
/-- `JSON.stringify(v, null, 2)` (two-space indentation; `lvl` is the
current nesting depth; `NaN` serializes as `null`). -/
def Value.jstr (lvl : Nat) : Value → List Char
  | .vNull => "null".data
  | .vNaN => "null".data
  | .vBool b => (cond b "true" "false").data
  | .vNum n => (intToString n).data
  | .vStr s => jsonQuote s
  | .vArr [] => "[]".data
  | .vArr (x :: xs) =>
      '[' :: '\n' :: (Value.jstrItems (lvl + 1) (x :: xs) ++ '\n' :: spaces (2 * lvl) ++ [']'])
  | .vObj [] => ['\x7b', '\x7d']
  | .vObj (f :: fs) =>
      '\x7b' :: '\n' :: (Value.jstrFields (lvl + 1) (f :: fs) ++ '\n' :: spaces (2 * lvl) ++ ['\x7d'])

def Value.jstrItems (lvl : Nat) : List Value → List Char
  | [] => []
  | x :: xs =>
      spaces (2 * lvl) ++ Value.jstr lvl x ++
        (match xs with | [] => [] | _ :: _ => [',', '\n']) ++ Value.jstrItems lvl xs

def Value.jstrFields (lvl : Nat) : List (String × Value) → List Char
  | [] => []
  | (k, v) :: fs =>
      spaces (2 * lvl) ++ jsonQuote k ++ ':' :: ' ' :: Value.jstr lvl v ++
        (match fs with | [] => [] | _ :: _ => [',', '\n']) ++ Value.jstrFields lvl fs
end

def jsonStringifyPretty (v : Value) : String := String.mk (Value.jstr 0 v)

/-- ollama-node.ts: rendering of one resolved prompt variable.
`undefined` renders as the empty string, a non-null object or array as
pretty-printed JSON (`JSON.stringify(value, null, 2)`), anything else via
`String(value)`. -/
def ollamaRender (resolved : Option Value) : String :=
  match resolved with
  | none => ""
  | some v =>
      match v with
      | .vObj _ => jsonStringifyPretty v
      | .vArr _ => jsonStringifyPretty v
      | _ => v.jsString

def replaceAllGo (fuel : Nat) (s pat repl : List Char) : List Char :=
  match fuel, s with
  | 0, s => s
  | _ + 1, [] => []
  | fuel + 1, c :: rest =>
      if pat.isPrefixOf (c :: rest) then
        repl ++ replaceAllGo fuel ((c :: rest).drop pat.length) pat repl
      else c :: replaceAllGo fuel rest pat repl

/-- `processedPrompt.split(variable).join(replacement)`: replace every
occurrence of `pat` (always non-empty in our uses, so the fuel
`s.length + 1` suffices). -/
def replaceAll (s pat repl : List Char) : List Char :=
  replaceAllGo (s.length + 1) s pat repl

/-- The prompt variable-replacement loop of `OllamaNodeExecutor.execute`. -/
def ollamaProcessPrompt (prompt : String) (data : Value) : String :=
  let vars := scanGo .outside prompt.data
  String.mk (vars.foldl
    (fun res body => replaceAll res (matchText body)
      (ollamaRender (getNestedValue data (String.mk body))).data)
    prompt.data)

/-! ## Template shapes for reasoning about `replaceVariables`

A template built from alternating plain segments and variable references,
with all plain text and variable bodies free of the three special
characters, is the well-behaved shape on which sequential first-occurrence
replacement agrees with occurrence-wise substitution. -/

/-- `true` when none of dollar, open brace, close brace occurs. -/
def cleanChars (cs : List Char) : Bool :=
  cs.all (fun c => c != '$' && c != '\x7b' && c != '\x7d')

/-- Rebuild a template out of (plain text, variable body) segments and a
final plain tail. -/
def buildTemplate (segs : List (List Char × List Char)) (last : List Char) : List Char :=
  segs.foldr (fun pb acc => pb.1 ++ matchText pb.2 ++ acc) last

/-- Occurrence-wise substitution over the same shape: each variable
reference is replaced in place by `render` of its body. -/
def substTemplate (render : List Char → List Char)
    (segs : List (List Char × List Char)) (last : List Char) : List Char :=
  segs.foldr (fun pb acc => pb.1 ++ render pb.2 ++ acc) last

/-! ## executor.ts — data model -/

/-- A workflow node: id and type tag (display label and configuration are
not consulted by the scheduler logic modelled here; capability behaviour,
which is what consumes them, is abstracted by the oracle). -/
structure WNode where
  id : String
  ntype : String
deriving DecidableEq

/-- A workflow edge (the optional handles are ignored by the executor). -/
structure WEdge where
  source : String
  target : String
deriving DecidableEq

structure Workflow where
  id : String
  nodes : List WNode
  edges : List WEdge
deriving DecidableEq

def Workflow.ids (w : Workflow) : List String := w.nodes.map (·.id)

/-- `buildDependencyGraph`, in-degree half: the in-degree map assigns to
every key the number of edges targeting it (node ids start at zero; edge
targets are incremented per edge). -/
def inDeg (w : Workflow) (v : String) : Int :=
  ((w.edges.filter (fun e => e.target = v)).length : Int)

/-- `buildDependencyGraph`, adjacency half: ordered list of direct
successors (one entry per edge, in edge order). -/
def adjacency (w : Workflow) (u : String) : List String :=
  (w.edges.filter (fun e => e.source = u)).map (·.target)

/-- Number of edges in the list targeting `v` whose source lies in `S`. -/
def countFromEdges (S : List String) (v : String) : List WEdge → Int
  | [] => 0
  | e :: es => (if e.target = v ∧ e.source ∈ S then 1 else 0) + countFromEdges S v es

/-- Number of edges in the list targeting `v`. -/
def countToEdges (v : String) : List WEdge → Int
  | [] => 0
  | e :: es => (if e.target = v then 1 else 0) + countToEdges v es

/-- Number of in-edges of `v` whose source lies in `S` (counted per edge). -/
def countFrom (w : Workflow) (S : List String) (v : String) : Int :=
  countFromEdges S v w.edges

/-- Reachability along one or more edges (the transitive closure the spec
describes for branch pruning). -/
inductive Reach (w : Workflow) (c : String) : String → Prop
  | base {e : WEdge} : e ∈ w.edges → e.source = c → Reach w c e.target
  | snoc {y : String} {e : WEdge} : Reach w c y → e ∈ w.edges → e.source = y →
      Reach w c e.target

/-! ## Retry/timeout wrapper (`executeNodeWithRetry`) -/

/-- Outcome of one capability invocation attempt. A timeout is a failed
attempt (the race in the source turns it into a rejection whose message is
the timeout message). -/
inductive Attempt where
  | succ (v : Value) : Attempt
  | fail (msg : String) : Attempt
deriving DecidableEq

structure RetryPolicy where
  maxRetries : Nat
  backoffMs : Nat
deriving DecidableEq

structure ExecutionOptions where
  continueOnError : Bool := false
  retryPolicy : Option RetryPolicy := none
  timeout : Option Nat := none
deriving DecidableEq

inductive MStatus where
  | success : MStatus
  | failed : MStatus
  | skipped : MStatus
deriving DecidableEq

structure Metric where
  startTime : Nat
  endTime : Nat
  duration : Nat
  retries : Nat
  status : MStatus
deriving DecidableEq

/-- `options.retryPolicy?.maxRetries || 0`. -/
def effMaxRetries (o : ExecutionOptions) : Nat :=
  match o.retryPolicy with
  | none => 0
  | some p => p.maxRetries

/-- `options.retryPolicy?.backoffMs || 1000`: a zero backoff is falsy and
falls back to the default 1000. -/
def effBackoff (o : ExecutionOptions) : Nat :=
  match o.retryPolicy with
  | none => 1000
  | some p => if p.backoffMs = 0 then 1000 else p.backoffMs

/-- `options.timeout || 30000`. -/
def effTimeout (o : ExecutionOptions) : Nat :=
  match o.timeout with
  | none => 30000
  | some t => if t = 0 then 30000 else t

/-- The node type tags registered by `registerBuiltInExecutors`. -/
def builtinTypes : List String :=
  ["trigger", "action", "condition", "http", "ai", "ollama", "slack", "email", "sheets"]

/-- One attempt of `executeSingleNode` raced against the timeout: when the
node's type tag has no registered capability the attempt fails with the
dispatch error; otherwise the oracle decides the outcome of this attempt. -/
def nodeAttempt (registered : List String) (oracle : String → Nat → Attempt)
    (node : WNode) (i : Nat) : Attempt :=
  if node.ntype ∈ registered then oracle node.id i
  else .fail ("No executor found for node type: " ++ node.ntype)

/-- The `for (attempt = 0; attempt <= maxRetries; attempt++)` loop: returns
the final outcome, the index of the last attempt made (the source's
`retries`), and the list of backoff waits performed, in order
(`backoffMs * (attempt + 1)` after each failed attempt that still has
retries left). `left` is the number of attempts remaining after the
current one. -/
def attemptLoop (att : Nat → Attempt) (backoff : Nat) :
    Nat → Nat → Except String Value × Nat × List Nat
  | 0, attempt =>
      match att attempt with
      | .succ v => (.ok v, attempt, [])
      | .fail m => (.error m, attempt, [])
  | left + 1, attempt =>
      match att attempt with
      | .succ v => (.ok v, attempt, [])
      | .fail _ =>
          let r := attemptLoop att backoff left (attempt + 1)
          (r.1, r.2.1, backoff * (attempt + 1) :: r.2.2)

mutual
/-- `safeSerialize`: the JSON round trip applied before storing a result in
the run data (`NaN` becomes `null`; self-references cannot arise in the
inductive value model, so the circular-reference marker never fires). -/
def safeSerialize : Value → Value
  | .vNull => .vNull
  | .vBool b => .vBool b
  | .vNum n => .vNum n
  | .vNaN => .vNull
  | .vStr s => .vStr s
  | .vArr xs => .vArr (safeSerializeList xs)
  | .vObj fs => .vObj (safeSerializeFields fs)

def safeSerializeList : List Value → List Value
  | [] => []
  | x :: xs => safeSerialize x :: safeSerializeList xs

def safeSerializeFields : List (String × Value) → List (String × Value)
  | [] => []
  | (k, v) :: fs => (k, safeSerialize v) :: safeSerializeFields fs
end

/-- The sentinel stored for a failed node under `continueOnError`:
`{ error: lastError.message, skipped: true }`. -/
def sentinelValue (msg : String) : Value :=
  .vObj [("error", .vStr msg), ("skipped", .vBool true)]

/-- Result of one `executeNodeWithRetry` call: the returned value or the
thrown error, the value written to `context.data[node.id]`, the metrics
record written for the node, the backoff waits, the number of attempts
made, and the clock after the call (the abstract clock advances by one per
attempt plus the waits). -/
instance : DecidableEq (Except String Value) := fun a b =>
  match a, b with
  | .ok x, .ok y =>
      match decEq x y with
      | isTrue h => isTrue (by rw [h])
      | isFalse h => isFalse (fun he => h (Except.ok.inj he))
  | .error x, .error y =>
      match decEq x y with
      | isTrue h => isTrue (by rw [h])
      | isFalse h => isFalse (fun he => h (Except.error.inj he))
  | .ok _, .error _ => isFalse (fun h => Except.noConfusion h)
  | .error _, .ok _ => isFalse (fun h => Except.noConfusion h)

structure NodeRun where
  outcome : Except String Value
  stored : Option Value
  metric : Metric
  delays : List Nat
  attemptsMade : Nat
  endClock : Nat
deriving DecidableEq

/-- `executeNodeWithRetry`: run the attempt loop; on success store the
serialized result and record success metrics; once retries are exhausted,
under `continueOnError` store and return the sentinel with failed metrics,
otherwise record failed metrics and propagate the error. -/
def executeNodeWithRetry (registered : List String) (oracle : String → Nat → Attempt)
    (opts : ExecutionOptions) (node : WNode) (startTime : Nat) : NodeRun :=
  let r := attemptLoop (nodeAttempt registered oracle node) (effBackoff opts)
    (effMaxRetries opts) 0
  let retries := r.2.1
  let delays := r.2.2
  let endTime := startTime + (retries + 1) + delays.sum
  match r.1 with
  | .ok v =>
      { outcome := .ok v, stored := some (safeSerialize v),
        metric := ⟨startTime, endTime, endTime - startTime, retries, .success⟩,
        delays := delays, attemptsMade := retries + 1, endClock := endTime }
  | .error m =>
      if opts.continueOnError then
        { outcome := .ok (sentinelValue m), stored := some (sentinelValue m),
          metric := ⟨startTime, endTime, endTime - startTime, retries, .failed⟩,
          delays := delays, attemptsMade := retries + 1, endClock := endTime }
      else
        { outcome := .error m, stored := none,
          metric := ⟨startTime, endTime, endTime - startTime, retries, .failed⟩,
          delays := delays, attemptsMade := retries + 1, endClock := endTime }

/-! ## Level scheduler (`executeTopologically`) and `executeWorkflow` -/

/-- Update-or-append on an insertion-ordered association list (JavaScript
object / `Map` assignment keeps the original key position). -/
def setKey {α : Type} : List (String × α) → String → α → List (String × α)
  | [], k, v => [(k, v)]
  | (k', v') :: rest, k, v =>
      if k' = k then (k, v) :: rest else (k', v') :: setKey rest k v

def getKey {α : Type} : List (String × α) → String → Option α
  | [], _ => none
  | (k', v') :: rest, k => if k' = k then some v' else getKey rest k

/-- `shouldContinueExecution`: booleans stand for themselves; a non-null
object (arrays included) continues only when its `continue` property is
strictly `true`; anything else is coerced by truthiness. -/
def shouldContinueExecution : Value → Bool
  | .vBool b => b
  | .vObj fs =>
      match getKey fs "continue" with
      | some (.vBool true) => true
      | _ => false
  | .vArr _ => false
  | v => !v.falsy

inductive RunError where
  | cycle (named : List String) : RunError
  | nodeFailure (nodeId : String) (msg : String) : RunError
  | outOfFuel : RunError
deriving DecidableEq

/-- Scheduler state. `deg` is the scheduler's working copy of the
in-degree map, `executed` and `skipped` the two bookkeeping sets (insertion
order; JavaScript `Set`), `data` the run data map, `metrics` the metrics
map, `calls` counts capability invocations per node id, `wraps` counts
`executeNodeWithRetry` calls per node id (`executed` is in completion
order). The run logger is not modelled. -/
structure SchedState where
  deg : String → Int
  executed : List String
  skipped : List String
  data : List (String × Value)
  metrics : List (String × Metric)
  calls : String → Nat
  wraps : String → Nat
  clock : Nat

/-- The BFS worklist of `getDownstreamNodes`: pops the queue head, skips
visited ids, otherwise marks visited and adds and enqueues every direct
successor. Fuel-based for kernel reducibility; `downstreamFuel` always
suffices (each iteration pops one element, and at most
`1 + (edges+1) * edges` elements are ever enqueued). -/
def downstreamGo (w : Workflow) : Nat → List String → List String → List String → List String
  | 0, _, _, downstream => downstream
  | _ + 1, [], _, downstream => downstream
  | fuel + 1, current :: queue, visited, downstream =>
      if current ∈ visited then downstreamGo w fuel queue visited downstream
      else
        let targets := adjacency w current
        downstreamGo w fuel (queue ++ targets) (current :: visited)
          (targets.foldl (fun d t => if t ∈ d then d else d ++ [t]) downstream)

def downstreamFuel (w : Workflow) : Nat :=
  (w.edges.length + 1) * (w.edges.length + 1) + 2

/-- `getDownstreamNodes(nodeId, adjacency, workflow)`: every node reachable
from `nodeId` via the adjacency list. -/
def getDownstreamNodes (w : Workflow) (nodeId : String) : List String :=
  downstreamGo w (downstreamFuel w) [nodeId] [] []

/-- `workflow.nodes.find(n => n.id === nodeId)`. -/
def findNode (w : Workflow) (v : String) : Option WNode :=
  w.nodes.find? (fun n => n.id = v)

/-- Branch pruning: add every downstream node to the skipped set and give
it a zero-duration skipped metrics entry. -/
def applySkips (st : SchedState) (ds : List String) : SchedState :=
  ds.foldl (fun st d =>
    { st with
        skipped := if d ∈ st.skipped then st.skipped else st.skipped ++ [d],
        metrics := setKey st.metrics d ⟨st.clock, st.clock, 0, 0, .skipped⟩ }) st

/-- Execute the filtered nodes of one level (canonical interleaving: list
order). Per node: look it up (silently skip unknown ids), run the
retry/timeout wrapper, record data, metrics and counters; on a thrown
error abort with the state so far; otherwise mark executed and, for a
condition node whose result does not continue, prune its downstream
closure. -/
def runLevelNodes (w : Workflow) (registered : List String)
    (oracle : String → Nat → Attempt) (opts : ExecutionOptions) :
    List String → SchedState → Except (RunError × SchedState) SchedState
  | [], st => .ok st
  | nid :: rest, st =>
      match findNode w nid with
      | none => runLevelNodes w registered oracle opts rest st
      | some node =>
          let nr := executeNodeWithRetry registered oracle opts node st.clock
          let st1 : SchedState :=
            { st with
                data := match nr.stored with
                  | some v => setKey st.data nid v
                  | none => st.data,
                metrics := setKey st.metrics nid nr.metric,
                calls := fun x =>
                  if x = nid then
                    st.calls x + (if node.ntype ∈ registered then nr.attemptsMade else 0)
                  else st.calls x,
                wraps := fun x => if x = nid then st.wraps x + 1 else st.wraps x,
                clock := nr.endClock }
          match nr.outcome with
          | .error msg => .error (.nodeFailure nid msg, st1)
          | .ok v =>
              let st2 : SchedState :=
                { st1 with executed := st1.executed ++ [nid] }
              let st3 : SchedState :=
                if node.ntype = "condition" ∧ shouldContinueExecution v = false then
                  applySkips st2 (getDownstreamNodes w nid)
                else st2
              runLevelNodes w registered oracle opts rest st3

/-- One target update of the next-level computation: skip settled targets,
decrement the rest, and enqueue a target whose degree reaches exactly
zero and is not already enqueued. -/
def levelStep (executed skipped : List String)
    (p : (String → Int) × List String) (t : String) : (String → Int) × List String :=
  if t ∈ executed ∨ t ∈ skipped then p
  else
    let d := p.1 t - 1
    let deg2 : String → Int := fun x => if x = t then d else p.1 x
    if d = 0 ∧ t ∉ p.2 then (deg2, p.2 ++ [t]) else (deg2, p.2)

/-- The next-level computation: for every node of the (unfiltered) current
level, decrement the working in-degree of each direct successor that is
not yet executed or skipped; a successor reaching exactly zero joins the
next level once. -/
def nextLevelPhase (w : Workflow) (executed skipped : List String) :
    List String → (String → Int) → List String → ((String → Int) × List String)
  | [], deg, acc => (deg, acc)
  | nid :: rest, deg, acc =>
      let p := (adjacency w nid).foldl (levelStep executed skipped) (deg, acc)
      nextLevelPhase w executed skipped rest p.1 p.2

/-- The level loop of `executeTopologically`. The readiness filter models
the check each `Promise.all` callback makes against the state as the level
starts. The fuel `schedFuel` suffices for every workflow whose edges join
declared nodes (each non-empty level executes at least one new node). -/
def schedLoop (w : Workflow) (registered : List String)
    (oracle : String → Nat → Attempt) (opts : ExecutionOptions) :
    Nat → List String → SchedState → Except (RunError × SchedState) SchedState
  | 0, level, st => if level = [] then .ok st else .error (.outOfFuel, st)
  | fuel + 1, level, st =>
      if level = [] then .ok st
      else
        let toRun := level.filter (fun nid => nid ∉ st.executed ∧ nid ∉ st.skipped)
        match runLevelNodes w registered oracle opts toRun st with
        | .error e => .error e
        | .ok st' =>
            let p := nextLevelPhase w st'.executed st'.skipped level st'.deg []
            schedLoop w registered oracle opts fuel p.2 { st' with deg := p.1 }

def schedFuel (w : Workflow) : Nat := w.nodes.length + 1

/-! ## `detectCycles` (Kahn reduction) -/

/-- One decrement of the Kahn reduction: decrement the edge's target and
enqueue it when its working degree reaches exactly zero. -/
def kahnStep (p : (String → Int) × List String) (e : WEdge) : (String → Int) × List String :=
  let d := p.1 e.target - 1
  let deg2 : String → Int := fun x => if x = e.target then d else p.1 x
  if d = 0 then (deg2, p.2 ++ [e.target]) else (deg2, p.2)

/-- The Kahn queue loop: pop, append to processed, and when the id names a
declared node decrement each outgoing edge's target, enqueuing targets
whose working degree reaches exactly zero. Fuel-based; `kahnFuel`
suffices (total enqueues never exceed nodes + edges). -/
def kahnLoop (w : Workflow) : Nat → (String → Int) → List String → List String → List String
  | 0, _, _, processed => processed
  | fuel + 1, deg, queue, processed =>
      match queue with
      | [] => processed
      | nid :: queue' =>
          let processed' := processed ++ [nid]
          match findNode w nid with
          | none => kahnLoop w fuel deg queue' processed'
          | some _ =>
              let p := (w.edges.filter (fun e => e.source = nid)).foldl kahnStep (deg, queue')
              kahnLoop w fuel p.1 p.2 processed'

def kahnFuel (w : Workflow) : Nat := w.nodes.length + w.edges.length + 1

/-- The ids with initial in-degree zero, in node order (edge-created map
keys always have positive degree, so iterating the map's entries yields
exactly these). -/
def initialLevel (w : Workflow) : List String :=
  (w.nodes.map (·.id)).filter (fun v => inDeg w v = 0)

def kahnProcessed (w : Workflow) : List String :=
  kahnLoop w (kahnFuel w) (inDeg w) (initialLevel w) []

/-- `detectCycles`: when the reduction removes fewer ids than there are
nodes, fail naming the nodes that were not removed. -/
def detectCycles (w : Workflow) : Except RunError Unit :=
  let processed := kahnProcessed w
  if processed.length ≠ w.nodes.length then
    .error (.cycle ((w.nodes.filter (fun n => n.id ∉ processed)).map (·.id)))
  else .ok ()

/-- The initial run state. -/
def initialState (w : Workflow) (inputData : List (String × Value)) : SchedState :=
  { deg := inDeg w, executed := [], skipped := [], data := inputData,
    metrics := [], calls := fun _ => 0, wraps := fun _ => 0, clock := 0 }

/-- `executeWorkflow`: build the dependency graph, run the cycle check,
then the level scheduler. An error carries the state at the throw (in the
source the throw abandons the context object but its side effects — log
entries, capability calls — have happened; the state records them). -/
def executeWorkflow (w : Workflow) (registered : List String)
    (oracle : String → Nat → Attempt) (opts : ExecutionOptions)
    (inputData : List (String × Value)) : Except (RunError × SchedState) SchedState :=
  match detectCycles w with
  | .error e => .error (e, initialState w inputData)
  | .ok _ =>
      schedLoop w registered oracle opts (schedFuel w) (initialLevel w)
        (initialState w inputData)

/-- Projections of a run result (state at normal return or at the throw). -/
def runState : Except (RunError × SchedState) SchedState → SchedState
  | .ok st => st
  | .error (_, st) => st

def runErr : Except (RunError × SchedState) SchedState → Option RunError
  | .ok _ => none
  | .error (e, _) => some e

/-- The clock-independent part of a wrapper call (the outcome, the stored
value and the status/retry fields depend only on the oracle, options and
node, not on the start time). -/
def nodeOutcome (registered : List String) (oracle : String → Nat → Attempt)
    (opts : ExecutionOptions) (node : WNode) : Except String Value :=
  (executeNodeWithRetry registered oracle opts node 0).outcome

def nodeStored (registered : List String) (oracle : String → Nat → Attempt)
    (opts : ExecutionOptions) (node : WNode) : Option Value :=
  (executeNodeWithRetry registered oracle opts node 0).stored

def nodeStatus (registered : List String) (oracle : String → Nat → Attempt)
    (opts : ExecutionOptions) (node : WNode) : MStatus :=
  (executeNodeWithRetry registered oracle opts node 0).metric.status

def nodeRetries (registered : List String) (oracle : String → Nat → Attempt)
    (opts : ExecutionOptions) (node : WNode) : Nat :=
  (executeNodeWithRetry registered oracle opts node 0).metric.retries

/-- Whether node `c` of workflow `w` is an executed false condition in the
given run configuration: its capability result (or failure sentinel) does
not indicate continuation. -/
def condFalse (w : Workflow) (registered : List String)
    (oracle : String → Nat → Attempt) (opts : ExecutionOptions) (c : String) : Prop :=
  ∃ node, findNode w c = some node ∧ node.ntype = "condition" ∧
    ∃ v, nodeOutcome registered oracle opts node = .ok v ∧
      shouldContinueExecution v = false

/-- Graph well-formedness, the Graph invariant of the data model: node ids
are unique and every edge joins declared nodes. -/
def WF (w : Workflow) : Prop :=
  (w.nodes.map (·.id)).Nodup ∧
  ∀ e ∈ w.edges, e.source ∈ w.ids ∧ e.target ∈ w.ids

/-- Acceptance by the §4.2 validation: the Kahn reduction removes as many
ids as there are nodes. -/
def accepted (w : Workflow) : Prop :=
  (kahnProcessed w).length = w.nodes.length

/-! ### Concrete runs used by the claims -/

def alwaysOk : String → Nat → Attempt := fun _ _ => .succ (.vBool true)

def noOptions : ExecutionOptions := ⟨false, none, none⟩

/-- The diamond graph of the spec's testable properties. -/
def diamondWorkflow : Workflow :=
  ⟨"wf-diamond",
    [⟨"A", "trigger"⟩, ⟨"B", "action"⟩, ⟨"C", "action"⟩, ⟨"D", "action"⟩],
    [⟨"A", "B"⟩, ⟨"A", "C"⟩, ⟨"B", "D"⟩, ⟨"C", "D"⟩]⟩

/-- A workflow with a two-node cycle unreachable from the trigger plus two
edges whose target ids name no declared node. The Kahn reduction processes
and counts the two undeclared ids, so validation passes; the scheduler
then strands X and Y. -/
def strandedWorkflow : Workflow :=
  ⟨"wf-stranded",
    [⟨"A", "trigger"⟩, ⟨"X", "action"⟩, ⟨"Y", "action"⟩],
    [⟨"X", "Y"⟩, ⟨"Y", "X"⟩, ⟨"A", "F1"⟩, ⟨"A", "F2"⟩]⟩

/-- A trigger followed by a node whose type tag has no registered
capability. -/
def unknownTypeWorkflow : Workflow :=
  ⟨"wf-unknown", [⟨"T", "trigger"⟩, ⟨"U", "mystery"⟩], [⟨"T", "U"⟩]⟩

/-- Trigger, then a failing action, then a downstream action. -/
def lineWorkflow : Workflow :=
  ⟨"wf-line", [⟨"A", "trigger"⟩, ⟨"B", "action"⟩, ⟨"D", "action"⟩],
    [⟨"A", "B"⟩, ⟨"B", "D"⟩]⟩

/-- Oracle that fails every attempt of node B and succeeds elsewhere. -/
def failBOracle : String → Nat → Attempt := fun nid _ =>
  if nid = "B" then .fail "boom" else .succ (.vBool true)

/-- A trigger feeding both a condition and a merge node that the condition
also feeds: the merge node is reachable around the condition. -/
def mergeWorkflow : Workflow :=
  ⟨"wf-merge", [⟨"T", "trigger"⟩, ⟨"C", "condition"⟩, ⟨"X", "action"⟩],
    [⟨"T", "C"⟩, ⟨"T", "X"⟩, ⟨"C", "X"⟩]⟩

/-- Oracle under which the condition C decides not to continue. -/
def condFalseOracle : String → Nat → Attempt := fun nid _ =>
  if nid = "C" then .succ (.vObj [("continue", .vBool false)]) else .succ (.vBool true)

/-- A four-node cycle workflow: trigger A feeds a three-node cycle X, Y, Z. -/
def cycleWorkflow : Workflow :=
  ⟨"wf-cycle",
    [⟨"A", "trigger"⟩, ⟨"X", "action"⟩, ⟨"Y", "action"⟩, ⟨"Z", "action"⟩],
    [⟨"A", "X"⟩, ⟨"X", "Y"⟩, ⟨"Y", "Z"⟩, ⟨"Z", "X"⟩]⟩

/-! ### Proof infrastructure -/

/-- Candidate pool of the BFS worklist: the start id and every edge
target. -/
def bfsCands (w : Workflow) (c : String) : List String :=
  c :: w.edges.map (·.target)

/-- Termination measure of the BFS worklist. -/
def bfsMeasure (w : Workflow) (c : String) (queue visited : List String) : Nat :=
  queue.length
    + ((bfsCands w c).filter (fun x => x ∉ visited)).length * (w.edges.length + 1)

/-- The state part of the level scheduler invariant (facts that do not
mention the current level or the working degree map). -/
structure StInv (w : Workflow) (registered : List String)
    (oracle : String → Nat → Attempt) (opts : ExecutionOptions)
    (st : SchedState) : Prop where
  exec_nodup : st.executed.Nodup
  exec_ids : ∀ v ∈ st.executed, v ∈ w.ids
  skip_ids : ∀ v ∈ st.skipped, v ∈ w.ids
  disj : ∀ v ∈ st.executed, v ∉ st.skipped
  exec_closed : ∀ v ∈ st.executed, ∀ e ∈ w.edges, e.target = v → e.source ∈ st.executed
  skip_closed : ∀ u ∈ st.skipped, ∀ e ∈ w.edges, e.source = u → e.target ∈ st.skipped
  skip_origin : ∀ v ∈ st.skipped, ∃ c, c ∈ st.executed ∧
      condFalse w registered oracle opts c ∧ Reach w c v
  pruned : ∀ c ∈ st.executed, condFalse w registered oracle opts c →
      ∀ v, Reach w c v → v ∈ st.skipped
  exec_records : ∀ v ∈ st.executed, ∃ n, findNode w v = some n ∧
      (∃ val, nodeOutcome registered oracle opts n = .ok val) ∧
      getKey st.data v = nodeStored registered oracle opts n ∧
      (∃ m, getKey st.metrics v = some m ∧ m.status = nodeStatus registered oracle opts n ∧
        m.retries = nodeRetries registered oracle opts n)
  skip_records : ∀ v ∈ st.skipped, ∃ m, getKey st.metrics v = some m ∧
      m.status = .skipped ∧ m.duration = 0 ∧ m.retries = 0
  metrics_dom : ∀ v, (getKey st.metrics v).isSome → v ∈ st.executed ∨ v ∈ st.skipped
  wraps_spec : ∀ v, st.wraps v = if v ∈ st.executed then 1 else 0
  calls_exec : ∀ v, v ∉ st.executed → st.calls v = 0
  calls_bound : ∀ v, st.calls v ≤ effMaxRetries opts + 1

/-- The loop invariant of the level scheduler, stated at the entry of each
iteration for the pair (state, current level). -/
structure SchedInv (w : Workflow) (registered : List String)
    (oracle : String → Nat → Attempt) (opts : ExecutionOptions)
    (st : SchedState) (level : List String) : Prop where
  stInv : StInv w registered oracle opts st
  level_nodup : level.Nodup
  level_ids : ∀ v ∈ level, v ∈ w.ids
  level_fresh : ∀ v ∈ level, v ∉ st.executed ∧ v ∉ st.skipped
  level_ready : ∀ v ∈ level, ∀ e ∈ w.edges, e.target = v → e.source ∈ st.executed
  deg_acct : ∀ v ∈ w.ids, v ∉ st.executed → v ∉ st.skipped → v ∉ level →
      st.deg v = inDeg w v - countFrom w st.executed v ∧ st.deg v ≠ 0

/-- Loop invariant of the Kahn reduction, at the entry of each `kahnLoop`
iteration. -/
structure KInv (w : Workflow) (deg : String → Int) (queue processed : List String) : Prop where
  nodup : (processed ++ queue).Nodup
  deg_eq : ∀ v, deg v = inDeg w v - countFrom w processed v
  deg_zero : ∀ v ∈ processed ++ queue, deg v = 0
  mem_ids : ∀ v ∈ processed ++ queue, v ∈ w.ids
  closed : ∀ v ∈ processed, ∀ e ∈ w.edges, e.target = v →
      e.source ∈ processed ∧ processed.indexOf e.source < processed.indexOf v
  deg_nonzero : ∀ v ∈ w.ids, v ∉ processed → v ∉ queue → deg v ≠ 0

/-! ## Lemmas about the scanner and sequential replacement -/

lemma cleanChars_cons {c : Char} {p : List Char} (h : cleanChars (c :: p) = true) :
    c ≠ '$' ∧ c ≠ '\x7b' ∧ c ≠ '\x7d' ∧ cleanChars p = true := by
  simp only [cleanChars, List.all_cons, Bool.and_eq_true, bne_iff_ne, ne_eq] at h
  exact ⟨h.1.1.1, h.1.1.2, h.1.2, h.2⟩

lemma cleanChars_append {p q : List Char} (hp : cleanChars p = true)
    (hq : cleanChars q = true) : cleanChars (p ++ q) = true := by
  simp only [cleanChars, List.all_append, Bool.and_eq_true]
  exact ⟨hp, hq⟩

/-- Scanning skips over special-free text. -/
lemma scanGo_clean_outside (p : List Char) (hp : cleanChars p = true) (cs : List Char) :
    scanGo .outside (p ++ cs) = scanGo .outside cs := by
  induction p with
  | nil => rfl
  | cons c p ih =>
      obtain ⟨h1, _, _, hrest⟩ := cleanChars_cons hp
      simp only [List.cons_append, scanGo, if_neg h1]
      exact ih hrest

/-- Scanning a body run: special-free body characters accumulate until the
closing brace. -/
lemma scanGo_body (b : List Char) (hb : cleanChars b = true) :
    ∀ acc cs, acc ≠ [] →
      scanGo (.inBody acc) (b ++ '\x7d' :: cs)
        = (acc.reverse ++ b) :: scanGo .outside cs := by
  induction b with
  | nil =>
      intro acc cs hacc
      match acc, hacc with
      | a :: acc, _ => simp [scanGo]
  | cons c b ih =>
      intro acc cs hacc
      obtain ⟨_, _, h3, hrest⟩ := cleanChars_cons hb
      simp only [List.cons_append, scanGo, if_neg h3, List.append_eq]
      rw [ih hrest (c :: acc) cs (by simp)]
      simp

lemma scanGo_outside_dollar (rest : List Char) :
    scanGo .outside ('$' :: rest) = scanGo .seenDollar rest := by
  simp [scanGo]

lemma scanGo_seenDollar_open (rest : List Char) :
    scanGo .seenDollar ('\x7b' :: rest) = scanGo (.inBody []) rest := by
  simp [scanGo]

lemma scanGo_inBody_char (acc : List Char) (c : Char) (rest : List Char)
    (h : c ≠ '\x7d') :
    scanGo (.inBody acc) (c :: rest) = scanGo (.inBody (c :: acc)) rest := by
  simp [scanGo, h]

/-- The scanner recovers exactly the bodies of a well-shaped template. -/
lemma scanGo_buildTemplate (segs : List (List Char × List Char)) (last : List Char)
    (hsegs : ∀ pb ∈ segs, cleanChars pb.1 = true ∧ cleanChars pb.2 = true ∧ pb.2 ≠ [])
    (hlast : cleanChars last = true) :
    scanGo .outside (buildTemplate segs last) = segs.map (·.2) := by
  induction segs with
  | nil =>
      have := scanGo_clean_outside last hlast []
      simpa [buildTemplate] using this
  | cons pb segs ih =>
      obtain ⟨p, b2⟩ := pb
      obtain ⟨hp, hb, hbne⟩ := hsegs (p, b2) (by simp)
      cases b2 with
      | nil => exact absurd rfl hbne
      | cons c b =>
      obtain ⟨hc1, hc2, hc3, hbrest⟩ := cleanChars_cons hb
      have e0 : buildTemplate ((p, c :: b) :: segs) last
          = p ++ (matchText (c :: b) ++ buildTemplate segs last) := by
        simp [buildTemplate]
      rw [e0, scanGo_clean_outside p hp]
      have e1 : matchText (c :: b) ++ buildTemplate segs last
          = '$' :: '\x7b' :: c :: (b ++ '\x7d' :: buildTemplate segs last) := by
        simp [matchText]
      rw [e1, scanGo_outside_dollar, scanGo_seenDollar_open,
        scanGo_inBody_char _ _ _ hc3, scanGo_body b hbrest [c] _ (by simp)]
      simp only [List.reverse_singleton, List.singleton_append, List.map_cons]
      rw [ih (fun q hq => hsegs q (by simp [hq]))]

/-- First-occurrence replacement passes through a dollar-free prefix when
the pattern starts with a dollar. -/
lemma replaceFirst_through (q : List Char) (hq : cleanChars q = true)
    (s ps repl : List Char) :
    replaceFirst (q ++ s) ('$' :: ps) repl = q ++ replaceFirst s ('$' :: ps) repl := by
  induction q with
  | nil => rfl
  | cons c q ih =>
      obtain ⟨h1, _, _, hrest⟩ := cleanChars_cons hq
      simp only [List.cons_append, replaceFirst, List.append_eq]
      rw [if_neg ?_, ih hrest]
      simp only [List.isPrefixOf, Bool.and_eq_true, beq_iff_eq]
      rintro ⟨h, -⟩
      exact h1 h.symm

/-- Replacing the pattern at its own position. -/
lemma replaceFirst_exact (pat r repl : List Char) (hne : pat ≠ []) :
    replaceFirst (pat ++ r) pat repl = repl ++ r := by
  match pat, hne with
  | p0 :: ps, _ =>
      show replaceFirst (p0 :: (ps ++ r)) (p0 :: ps) repl = repl ++ r
      rw [replaceFirst, if_pos ?_]
      · show repl ++ (p0 :: (ps ++ r)).drop (p0 :: ps).length = repl ++ r
        have : (p0 :: (ps ++ r)) = (p0 :: ps) ++ r := by simp
        rw [this, List.drop_left]
      · have : (p0 :: (ps ++ r)) = (p0 :: ps) ++ r := by simp
        rw [this, List.isPrefixOf_iff_prefix]
        exact List.prefix_append _ _

/-- The sequential fold of first-occurrence replacements agrees with
occurrence-wise substitution on well-shaped templates with special-free
renderings. -/
lemma foldl_replaceFirst_subst (render : List Char → List Char) :
    ∀ (segs : List (List Char × List Char)) (last A : List Char),
      (∀ pb ∈ segs, cleanChars pb.1 = true ∧ cleanChars pb.2 = true ∧ pb.2 ≠ []) →
      cleanChars last = true →
      (∀ pb ∈ segs, cleanChars (render pb.2) = true) →
      cleanChars A = true →
      (segs.map (·.2)).foldl
          (fun res b => replaceFirst res (matchText b) (render b))
          (A ++ buildTemplate segs last)
        = A ++ substTemplate render segs last := by
  intro segs
  induction segs with
  | nil => intro last A _ _ _ _; simp [buildTemplate, substTemplate]
  | cons pb segs ih =>
      intro last A hsegs hlast hrender hA
      obtain ⟨hp, hb, hbne⟩ := hsegs pb (by simp)
      have hr := hrender pb (by simp)
      simp only [List.map_cons, List.foldl_cons]
      have hshape : A ++ buildTemplate (pb :: segs) last
          = (A ++ pb.1) ++ (matchText pb.2 ++ buildTemplate segs last) := by
        simp [buildTemplate]
      have hmt : ∃ ts, matchText pb.2 = '$' :: ts := ⟨_, rfl⟩
      obtain ⟨ts, hts⟩ := hmt
      rw [hshape, hts, replaceFirst_through _ (cleanChars_append hA hp), ← hts,
        replaceFirst_exact _ _ _ (by simp [matchText])]
      have hstep : (A ++ pb.1) ++ (render pb.2 ++ buildTemplate segs last)
          = ((A ++ pb.1) ++ render pb.2) ++ buildTemplate segs last := by simp
      rw [hstep, ih last ((A ++ pb.1) ++ render pb.2)
        (fun q hq => hsegs q (by simp [hq])) hlast
        (fun q hq => hrender q (by simp [hq]))
        (cleanChars_append (cleanChars_append hA hp) hr)]
      simp [substTemplate]

/-! ## Claims C8, C9, C10 — the variable resolver -/

/-- C8, counterexample. The claim states that every resolved occurrence is
replaced "with the value found by following the dot-separated path" and
only missing paths become the empty string. Two concrete refutations:
(1) the path `n1.v` resolves to the number `0`, whose string rendering is
`"0"`, yet the resolver produces the empty string (the implementation
coalesces falsy values before rendering); (2) with data
`a = "$\x7bb\x7d"`, `b = "2"`, occurrence-wise replacement would produce
`"$\x7bb\x7d2"`, but the sequential first-occurrence algorithm produces
`"2$\x7bb\x7d"`: the second replacement hits the text just inserted for
the first occurrence instead of the second occurrence itself. -/
theorem C8_variable_resolution_counterexample :
    replaceVariables "$\x7bn1.v\x7d" (.vObj [("n1", .vObj [("v", .vNum 0)])]) = "" ∧
    getNestedValue (.vObj [("n1", .vObj [("v", .vNum 0)])]) "n1.v" = some (.vNum 0) ∧
    Value.jsString (.vNum 0) = "0" ∧
    ("" : String) ≠ "0" ∧
    replaceVariables "$\x7ba\x7d$\x7bb\x7d"
      (.vObj [("a", .vStr "$\x7bb\x7d"), ("b", .vStr "2")]) = "2$\x7bb\x7d" ∧
    getNestedValue (.vObj [("a", .vStr "$\x7bb\x7d"), ("b", .vStr "2")]) "a"
      = some (.vStr "$\x7bb\x7d") ∧
    getNestedValue (.vObj [("a", .vStr "$\x7bb\x7d"), ("b", .vStr "2")]) "b"
      = some (.vStr "2") ∧
    ("2$\x7bb\x7d" : String) ≠ "$\x7bb\x7d2" := by
  refine ⟨by decide, by decide, by decide, by decide, by decide, by decide, by decide, by decide⟩

/-- C8, amended. On templates made of alternating special-free plain text
and non-empty special-free variable bodies, and when every rendered value
is itself special-free, `replaceVariables` replaces each occurrence in
place with `String(value)` of the resolved value when it is truthy and
with the empty string when the path is missing or resolves to a falsy
value; in particular the spec's example yields `"Title: Hi"`. -/
theorem C8_variable_resolution_amended :
    (∀ (segs : List (List Char × List Char)) (last : List Char) (data : Value),
      (∀ pb ∈ segs, cleanChars pb.1 = true ∧ cleanChars pb.2 = true ∧ pb.2 ≠ []) →
      cleanChars last = true →
      (∀ pb ∈ segs, cleanChars (renderVar data pb.2) = true) →
      replaceVariables (String.mk (buildTemplate segs last)) data
        = String.mk (substTemplate (renderVar data) segs last)) ∧
    replaceVariables "Title: $\x7bn1.data.title\x7d"
      (.vObj [("n1", .vObj [("data", .vObj [("title", .vStr "Hi")])])]) = "Title: Hi" := by
  constructor
  · intro segs last data hsegs hlast hrender
    show String.mk _ = _
    rw [show (String.mk (buildTemplate segs last)).data = buildTemplate segs last from rfl,
      scanGo_buildTemplate segs last hsegs hlast]
    have h0 := foldl_replaceFirst_subst (renderVar data) segs last [] hsegs hlast
      (fun q hq => hrender q hq) rfl
    simp only [List.nil_append] at h0
    exact congrArg String.mk h0
  · decide

/-- C8 witness: the general part applied to the spec's example template
(one plain segment `"Title: "`, one variable body `n1.data.title`). -/
theorem C8_variable_resolution_witness :
    replaceVariables
        (String.mk (buildTemplate [("Title: ".data, "n1.data.title".data)] []))
        (.vObj [("n1", .vObj [("data", .vObj [("title", .vStr "Hi")])])])
      = String.mk (substTemplate
          (renderVar (.vObj [("n1", .vObj [("data", .vObj [("title", .vStr "Hi")])])]))
          [("Title: ".data, "n1.data.title".data)] []) :=
  C8_variable_resolution_amended.1 [("Title: ".data, "n1.data.title".data)] []
    (.vObj [("n1", .vObj [("data", .vObj [("title", .vStr "Hi")])])])
    (by decide) (by decide) (by decide)

/-- C9, counterexample. The shared resolver (`replaceVariables` in
variable-utils.ts) renders a non-scalar resolved value via `String(value)`,
producing the opaque `[object Object]`, not a pretty-printed structured
representation. -/
theorem C9_nonscalar_rendering_counterexample :
    replaceVariables "Data: $\x7bn1\x7d" (.vObj [("n1", .vObj [("title", .vStr "Hi")])])
      = "Data: [object Object]" ∧
    getNestedValue (.vObj [("n1", .vObj [("title", .vStr "Hi")])]) "n1"
      = some (.vObj [("title", .vStr "Hi")]) ∧
    ("Data: [object Object]" : String)
      ≠ "Data: " ++ jsonStringifyPretty (.vObj [("title", .vStr "Hi")]) := by
  refine ⟨by decide, by decide, by decide⟩

/-- C9, amended. Only the Ollama node's own prompt replacement loop
pretty-prints non-scalar resolved values (via `JSON.stringify(value, null,
2)`); the shared `replaceVariables` utility renders them with
`String(value)`, i.e. `[object Object]` for objects. -/
theorem C9_nonscalar_rendering_amended :
    (∀ fs, ollamaRender (some (.vObj fs)) = jsonStringifyPretty (.vObj fs)) ∧
    (∀ xs, ollamaRender (some (.vArr xs)) = jsonStringifyPretty (.vArr xs)) ∧
    ollamaProcessPrompt "Data: $\x7bn1\x7d" (.vObj [("n1", .vObj [("title", .vStr "Hi")])])
      = "Data: \x7b\n  \"title\": \"Hi\"\n\x7d" ∧
    replaceVariables "Data: $\x7bn1\x7d" (.vObj [("n1", .vObj [("title", .vStr "Hi")])])
      = "Data: [object Object]" :=
  ⟨fun _ => rfl, fun _ => rfl, by decide, by decide⟩

/-- C10, confirmed. A defined but falsy resolved value (the number 0,
`false`, `null`, `NaN`, or the empty string) renders exactly like a
missing path: the empty string, because the implementation coalesces the
resolved value with the empty string before rendering. -/
theorem C10_falsy_resolution :
    (∀ (data : Value) (body : List Char) (v : Value),
      getNestedValue data (String.mk body) = some v → v.falsy = true →
      renderVar data body = []) ∧
    (∀ (data : Value) (body : List Char),
      getNestedValue data (String.mk body) = none → renderVar data body = []) ∧
    replaceVariables "x$\x7ba\x7dy" (.vObj [("a", .vNum 0)]) = "xy" ∧
    replaceVariables "x$\x7ba\x7dy" (.vObj [("a", .vBool false)]) = "xy" ∧
    replaceVariables "x$\x7ba\x7dy" (.vObj [("a", .vNull)]) = "xy" ∧
    replaceVariables "x$\x7ba\x7dy" (.vObj [("a", .vNaN)]) = "xy" ∧
    replaceVariables "x$\x7ba\x7dy" (.vObj [("a", .vStr "")]) = "xy" ∧
    replaceVariables "x$\x7ba\x7dy" (.vObj []) = "xy" := by
  refine ⟨?_, ?_, by decide, by decide, by decide, by decide, by decide, by decide⟩
  · intro data body v hsome hfal
    simp [renderVar, hsome, hfal]
  · intro data body hnone
    simp [renderVar, hnone]

/-- C10 witness: the general falsy-value part applied at the number 0. -/
theorem C10_falsy_resolution_witness :
    renderVar (.vObj [("a", .vNum 0)]) "a".data = [] :=
  C10_falsy_resolution.1 (.vObj [("a", .vNum 0)]) "a".data (.vNum 0)
    (by decide) (by decide)


/-! ## Lemmas about the retry wrapper -/

lemma attemptLoop_retries_ge (att : Nat → Attempt) (backoff : Nat) :
    ∀ left attempt, attempt ≤ (attemptLoop att backoff left attempt).2.1 := by
  intro left
  induction left with
  | zero => intro attempt; cases h : att attempt <;> simp [attemptLoop, h]
  | succ left ih =>
      intro attempt
      cases h : att attempt with
      | succ v => simp [attemptLoop, h]
      | fail m =>
          have hge := ih (attempt + 1)
          simp only [attemptLoop, h]
          omega

lemma attemptLoop_delays (att : Nat → Attempt) (backoff : Nat) :
    ∀ left attempt,
      (attemptLoop att backoff left attempt).2.2
        = (List.range ((attemptLoop att backoff left attempt).2.1 - attempt)).map
            (fun i => backoff * (attempt + i + 1)) := by
  intro left
  induction left with
  | zero => intro attempt; cases h : att attempt <;> simp [attemptLoop, h]
  | succ left ih =>
      intro attempt
      cases h : att attempt with
      | succ v => simp [attemptLoop, h]
      | fail m =>
          have hge := attemptLoop_retries_ge att backoff left (attempt + 1)
          have hd := ih (attempt + 1)
          simp only [attemptLoop, h]
          have hk : (attemptLoop att backoff left (attempt + 1)).2.1 - attempt
              = ((attemptLoop att backoff left (attempt + 1)).2.1 - (attempt + 1)) + 1 := by
            omega
          rw [hk, List.range_succ_eq_map, List.map_cons, List.map_map]
          have hfun : ((fun i => backoff * (attempt + i + 1)) ∘ Nat.succ)
              = (fun i => backoff * ((attempt + 1) + i + 1)) := by
            funext i
            simp only [Function.comp_apply, Nat.succ_eq_add_one]
            ring
          rw [hfun, ← hd]

lemma attemptLoop_allFail (att : Nat → Attempt) (backoff : Nat) (msg : Nat → String)
    (hf : ∀ i, att i = .fail (msg i)) :
    ∀ left attempt,
      (attemptLoop att backoff left attempt).1 = .error (msg (attempt + left)) ∧
      (attemptLoop att backoff left attempt).2.1 = attempt + left := by
  intro left
  induction left with
  | zero => intro attempt; simp [attemptLoop, hf attempt]
  | succ left ih =>
      intro attempt
      have h1 := (ih (attempt + 1)).1
      have h2 := (ih (attempt + 1)).2
      have harith : attempt + 1 + left = attempt + (left + 1) := by omega
      simp only [attemptLoop, hf attempt]
      rw [harith] at h1 h2
      exact ⟨h1, h2⟩

lemma nodeAttempt_registered {registered : List String} {oracle : String → Nat → Attempt}
    {node : WNode} (hreg : node.ntype ∈ registered) :
    nodeAttempt registered oracle node = fun i => oracle node.id i := by
  funext i
  simp [nodeAttempt, hreg]

lemma nodeAttempt_unregistered {registered : List String} {oracle : String → Nat → Attempt}
    {node : WNode} (hreg : node.ntype ∉ registered) :
    nodeAttempt registered oracle node
      = fun _ => .fail ("No executor found for node type: " ++ node.ntype) := by
  funext i
  simp [nodeAttempt, hreg]

/-- Wrapper behaviour when every attempt of a registered capability fails
and `continueOnError` is set: the sentinel is returned and stored, with
failed metrics recording `maxRetries` retries. -/
lemma executeNodeWithRetry_allFail_continue {registered : List String}
    {oracle : String → Nat → Attempt} {opts : ExecutionOptions} {node : WNode}
    {t0 : Nat} (msg : Nat → String)
    (hreg : node.ntype ∈ registered) (hcont : opts.continueOnError = true)
    (hf : ∀ i, oracle node.id i = .fail (msg i)) :
    (executeNodeWithRetry registered oracle opts node t0).outcome
        = .ok (sentinelValue (msg (effMaxRetries opts))) ∧
    (executeNodeWithRetry registered oracle opts node t0).stored
        = some (sentinelValue (msg (effMaxRetries opts))) ∧
    (executeNodeWithRetry registered oracle opts node t0).metric.status = .failed ∧
    (executeNodeWithRetry registered oracle opts node t0).metric.retries
        = effMaxRetries opts := by
  have hall := attemptLoop_allFail (nodeAttempt registered oracle node) (effBackoff opts)
    msg (by rw [nodeAttempt_registered hreg]; exact hf) (effMaxRetries opts) 0
  rcases hr : attemptLoop (nodeAttempt registered oracle node) (effBackoff opts)
      (effMaxRetries opts) 0 with ⟨res, retries, delays⟩
  rw [hr] at hall
  simp only at hall
  obtain ⟨h1, h2⟩ := hall
  simp only [executeNodeWithRetry, hr, h1, Nat.zero_add, hcont, if_true]
  subst h2
  simp [Nat.zero_add]

/-- Wrapper behaviour when every attempt of a registered capability fails
and `continueOnError` is not set: the last error propagates (the wrapper
throws), nothing is stored, and failed metrics are still recorded. -/
lemma executeNodeWithRetry_allFail_abort {registered : List String}
    {oracle : String → Nat → Attempt} {opts : ExecutionOptions} {node : WNode}
    {t0 : Nat} (msg : Nat → String)
    (hreg : node.ntype ∈ registered) (hcont : opts.continueOnError = false)
    (hf : ∀ i, oracle node.id i = .fail (msg i)) :
    (executeNodeWithRetry registered oracle opts node t0).outcome
        = .error (msg (effMaxRetries opts)) ∧
    (executeNodeWithRetry registered oracle opts node t0).stored = none ∧
    (executeNodeWithRetry registered oracle opts node t0).metric.status = .failed := by
  have hall := attemptLoop_allFail (nodeAttempt registered oracle node) (effBackoff opts)
    msg (by rw [nodeAttempt_registered hreg]; exact hf) (effMaxRetries opts) 0
  rcases hr : attemptLoop (nodeAttempt registered oracle node) (effBackoff opts)
      (effMaxRetries opts) 0 with ⟨res, retries, delays⟩
  rw [hr] at hall
  simp only at hall
  obtain ⟨h1, h2⟩ := hall
  simp [executeNodeWithRetry, hr, h1, hcont]

lemma executeNodeWithRetry_delays (registered : List String)
    (oracle : String → Nat → Attempt) (opts : ExecutionOptions) (node : WNode) (t0 : Nat) :
    (executeNodeWithRetry registered oracle opts node t0).delays
      = (List.range (executeNodeWithRetry registered oracle opts node t0).metric.retries).map
          (fun i => effBackoff opts * (i + 1)) := by
  have hd := attemptLoop_delays (nodeAttempt registered oracle node) (effBackoff opts)
    (effMaxRetries opts) 0
  rcases hr : attemptLoop (nodeAttempt registered oracle node) (effBackoff opts)
      (effMaxRetries opts) 0 with ⟨res, retries, delays⟩
  rw [hr] at hd
  simp only [Nat.sub_zero] at hd
  have hfun : (fun i => effBackoff opts * (0 + i + 1)) = (fun i => effBackoff opts * (i + 1)) := by
    funext i
    simp
  rw [hfun] at hd
  cases res with
  | ok v => simp [executeNodeWithRetry, hr, hd]
  | error m =>
      cases hc : opts.continueOnError <;> simp [executeNodeWithRetry, hr, hd, hc]

lemma executeNodeWithRetry_metric_frame (registered : List String)
    (oracle : String → Nat → Attempt) (opts : ExecutionOptions) (node : WNode) (t0 : Nat) :
    (executeNodeWithRetry registered oracle opts node t0).metric.startTime = t0 ∧
    (executeNodeWithRetry registered oracle opts node t0).metric.endTime
      = (executeNodeWithRetry registered oracle opts node t0).endClock ∧
    (executeNodeWithRetry registered oracle opts node t0).metric.duration
      = (executeNodeWithRetry registered oracle opts node t0).metric.endTime - t0 ∧
    ((executeNodeWithRetry registered oracle opts node t0).metric.status = .success ∨
     (executeNodeWithRetry registered oracle opts node t0).metric.status = .failed) := by
  rcases hr : attemptLoop (nodeAttempt registered oracle node) (effBackoff opts)
      (effMaxRetries opts) 0 with ⟨res, retries, delays⟩
  cases res with
  | ok v => simp [executeNodeWithRetry, hr]
  | error m =>
      cases hc : opts.continueOnError <;> simp [executeNodeWithRetry, hr, hc]


/-! ## Frame and provenance lemmas for the scheduler -/

lemma executeNodeWithRetry_clock_free (registered : List String)
    (oracle : String → Nat → Attempt) (opts : ExecutionOptions) (node : WNode) (t0 : Nat) :
    (executeNodeWithRetry registered oracle opts node t0).outcome
        = nodeOutcome registered oracle opts node ∧
    (executeNodeWithRetry registered oracle opts node t0).stored
        = nodeStored registered oracle opts node ∧
    (executeNodeWithRetry registered oracle opts node t0).metric.status
        = nodeStatus registered oracle opts node ∧
    (executeNodeWithRetry registered oracle opts node t0).metric.retries
        = nodeRetries registered oracle opts node ∧
    (executeNodeWithRetry registered oracle opts node t0).attemptsMade
        = (executeNodeWithRetry registered oracle opts node 0).attemptsMade := by
  rcases hr : attemptLoop (nodeAttempt registered oracle node) (effBackoff opts)
      (effMaxRetries opts) 0 with ⟨res, retries, delays⟩
  cases res with
  | ok v =>
      simp [executeNodeWithRetry, nodeOutcome, nodeStored, nodeStatus, nodeRetries, hr]
  | error m =>
      cases hc : opts.continueOnError <;>
        simp [executeNodeWithRetry, nodeOutcome, nodeStored, nodeStatus, nodeRetries, hr, hc]

lemma executeNodeWithRetry_unregistered {registered : List String}
    {oracle : String → Nat → Attempt} {opts : ExecutionOptions} {node : WNode}
    {t0 : Nat} (hreg : node.ntype ∉ registered) (hcont : opts.continueOnError = false) :
    (executeNodeWithRetry registered oracle opts node t0).outcome
      = .error ("No executor found for node type: " ++ node.ntype) := by
  have hall := attemptLoop_allFail (nodeAttempt registered oracle node) (effBackoff opts)
    (fun _ => "No executor found for node type: " ++ node.ntype)
    (by rw [nodeAttempt_unregistered hreg]; intro i; rfl) (effMaxRetries opts) 0
  rcases hr : attemptLoop (nodeAttempt registered oracle node) (effBackoff opts)
      (effMaxRetries opts) 0 with ⟨res, retries, delays⟩
  rw [hr] at hall
  simp only at hall
  simp [executeNodeWithRetry, hr, hall.1, hcont]

lemma applySkips_frame (ds : List String) (st : SchedState) :
    (applySkips st ds).executed = st.executed ∧ (applySkips st ds).deg = st.deg ∧
    (applySkips st ds).data = st.data ∧ (applySkips st ds).calls = st.calls ∧
    (applySkips st ds).wraps = st.wraps ∧ (applySkips st ds).clock = st.clock := by
  induction ds generalizing st with
  | nil => exact ⟨rfl, rfl, rfl, rfl, rfl, rfl⟩
  | cons d ds ih =>
      simpa [applySkips, List.foldl_cons] using ih _

section SchedLemmas

variable {w : Workflow} {registered : List String} {oracle : String → Nat → Attempt}
variable {opts : ExecutionOptions}

lemma runLevelNodes_executed_from :
    ∀ (toRun : List String) (st st' : SchedState),
      runLevelNodes w registered oracle opts toRun st = .ok st' →
      ∀ v, v ∈ st'.executed → v ∈ st.executed ∨
        (v ∈ toRun ∧ ∃ n, findNode w v = some n ∧
          ∃ val, nodeOutcome registered oracle opts n = .ok val) := by
  intro toRun
  induction toRun with
  | nil =>
      intro st st' h v hv
      simp only [runLevelNodes] at h
      cases h
      exact Or.inl hv
  | cons nid rest ih =>
      intro st st' h v hv
      rw [runLevelNodes] at h
      cases hfind : findNode w nid with
      | none =>
          rw [hfind] at h
          rcases ih st st' h v hv with h1 | ⟨hmem, hrest⟩
          · exact Or.inl h1
          · exact Or.inr ⟨List.mem_cons_of_mem _ hmem, hrest⟩
      | some node =>
          rw [hfind] at h
          simp only at h
          cases houtcome : (executeNodeWithRetry registered oracle opts node st.clock).outcome with
          | error msg => rw [houtcome] at h; cases h
          | ok val =>
              rw [houtcome] at h
              rcases ih _ st' h v hv with h1 | ⟨hmem, hrest⟩
              · by_cases hcond : node.ntype = "condition" ∧ shouldContinueExecution val = false
                · rw [if_pos hcond] at h1
                  rw [(applySkips_frame _ _).1] at h1
                  simp only [List.mem_append, List.mem_singleton] at h1
                  rcases h1 with h1 | rfl
                  · exact Or.inl h1
                  · refine Or.inr ⟨List.mem_cons_self _ _, node, hfind, val, ?_⟩
                    rw [← (executeNodeWithRetry_clock_free registered oracle opts node st.clock).1]
                    exact houtcome
                · rw [if_neg hcond] at h1
                  simp only [List.mem_append, List.mem_singleton] at h1
                  rcases h1 with h1 | rfl
                  · exact Or.inl h1
                  · refine Or.inr ⟨List.mem_cons_self _ _, node, hfind, val, ?_⟩
                    rw [← (executeNodeWithRetry_clock_free registered oracle opts node st.clock).1]
                    exact houtcome
              · exact Or.inr ⟨List.mem_cons_of_mem _ hmem, hrest⟩

lemma schedLoop_executed_from :
    ∀ (fuel : Nat) (level : List String) (st st' : SchedState),
      schedLoop w registered oracle opts fuel level st = .ok st' →
      ∀ v, v ∈ st'.executed → v ∈ st.executed ∨
        ∃ n, findNode w v = some n ∧ ∃ val, nodeOutcome registered oracle opts n = .ok val := by
  intro fuel
  induction fuel with
  | zero =>
      intro level st st' h v hv
      simp only [schedLoop] at h
      by_cases hl : level = []
      · rw [if_pos hl] at h; cases h; exact Or.inl hv
      · rw [if_neg hl] at h; cases h
  | succ fuel ih =>
      intro level st st' h v hv
      rw [schedLoop] at h
      by_cases hl : level = []
      · rw [if_pos hl] at h; cases h; exact Or.inl hv
      · rw [if_neg hl] at h
        simp only at h
        cases hrun : runLevelNodes w registered oracle opts
            (level.filter (fun nid => nid ∉ st.executed ∧ nid ∉ st.skipped)) st with
        | error e => rw [hrun] at h; cases h
        | ok stm =>
            rw [hrun] at h
            rcases ih _ _ _ h v hv with h1 | h1
            · rcases runLevelNodes_executed_from _ _ _ hrun v h1 with h2 | ⟨_, h2⟩
              · exact Or.inl h2
              · exact Or.inr h2
            · exact Or.inr h1

end SchedLemmas


/-! ## Claims C5, C6, C7 -/

/-- C5, counterexample. With policy maxRetries = 1, backoffMs = 0 and a
capability failing every attempt, the single wait performed is 1000
(`backoffMs` is read with a truthiness default, so the falsy 0 becomes
1000), not backoffMs × (attemptIndex + 1) = 0. -/
theorem C5_retry_backoff_counterexample :
    (executeNodeWithRetry builtinTypes (fun _ _ => .fail "boom")
      ⟨false, some ⟨1, 0⟩, none⟩ ⟨"n", "action"⟩ 0).delays = [1000] ∧
    ([1000] : List Nat) ≠ [0 * (0 + 1)] := by
  exact ⟨by decide, by decide⟩

/-- C5, amended. After each failed attempt with retries remaining the
wrapper waits effectiveBackoff × (attemptIndex + 1), where the effective
backoff is the policy's backoffMs except that a zero (falsy) value falls
back to the default 1000; the spec's retry scenario (maxRetries = 2,
backoffMs = 100, failures on attempts 1 and 2, success on attempt 3)
records final status success with retries = 2 and waits [100, 200]; and a
metrics record (start, end, duration, retries, status) is produced
whatever the outcome — in particular a run that aborts on a failed node
still stores that node's failed metrics entry. -/
theorem C5_retry_backoff_amended :
    (∀ (registered : List String) (oracle : String → Nat → Attempt)
        (opts : ExecutionOptions) (node : WNode) (t0 : Nat),
      (executeNodeWithRetry registered oracle opts node t0).delays
        = (List.range (executeNodeWithRetry registered oracle opts node t0).metric.retries).map
            (fun i => effBackoff opts * (i + 1))) ∧
    (∀ (p : RetryPolicy), p.backoffMs ≠ 0 →
      effBackoff ⟨false, some p, none⟩ = p.backoffMs) ∧
    (effBackoff ⟨false, some ⟨1, 0⟩, none⟩ = 1000) ∧
    ((executeNodeWithRetry builtinTypes
        (fun _ i => if i < 2 then .fail "transient" else .succ (.vBool true))
        ⟨false, some ⟨2, 100⟩, none⟩ ⟨"n", "action"⟩ 0).metric.status = .success ∧
      (executeNodeWithRetry builtinTypes
        (fun _ i => if i < 2 then .fail "transient" else .succ (.vBool true))
        ⟨false, some ⟨2, 100⟩, none⟩ ⟨"n", "action"⟩ 0).metric.retries = 2 ∧
      (executeNodeWithRetry builtinTypes
        (fun _ i => if i < 2 then .fail "transient" else .succ (.vBool true))
        ⟨false, some ⟨2, 100⟩, none⟩ ⟨"n", "action"⟩ 0).delays = [100, 200]) ∧
    (∀ (registered : List String) (oracle : String → Nat → Attempt)
        (opts : ExecutionOptions) (node : WNode) (t0 : Nat),
      (executeNodeWithRetry registered oracle opts node t0).metric.startTime = t0 ∧
      (executeNodeWithRetry registered oracle opts node t0).metric.duration
        = (executeNodeWithRetry registered oracle opts node t0).metric.endTime - t0 ∧
      ((executeNodeWithRetry registered oracle opts node t0).metric.status = .success ∨
       (executeNodeWithRetry registered oracle opts node t0).metric.status = .failed)) ∧
    (getKey (runState (executeWorkflow lineWorkflow builtinTypes failBOracle
        noOptions [])).metrics "B").map (fun m => m.status) = some .failed ∧
    runErr (executeWorkflow lineWorkflow builtinTypes failBOracle noOptions [])
      = some (.nodeFailure "B" "boom") := by
  refine ⟨executeNodeWithRetry_delays, ?_, by decide, ⟨by decide, by decide, by decide⟩,
    ?_, by decide, by decide⟩
  · intro p hp
    simp [effBackoff, hp]
  · intro registered oracle opts node t0
    have h := executeNodeWithRetry_metric_frame registered oracle opts node t0
    exact ⟨h.1, h.2.2.1, h.2.2.2⟩

/-- C5 witness: the nonzero-backoff conjunct applied at backoffMs = 100. -/
theorem C5_retry_backoff_witness :
    effBackoff ⟨false, some ⟨2, 100⟩, none⟩ = 100 :=
  C5_retry_backoff_amended.2.1 ⟨2, 100⟩ (by decide)

/-- C6, counterexample. The claim asserts that whenever the ready set
empties with executed + skipped below the node count the engine raises a
deadlock error. The stranded workflow passes validation (the Kahn
reduction counts the two undeclared edge targets), and its run returns
normally — no error of any kind — with only A executed, nothing skipped,
and X and Y left without any status, refuting the claim: the scheduler
has no deadlock check at all (spec section 4.3 step 3 describes code that
does not exist). -/
theorem C6_deadlock_counterexample :
    runErr (executeWorkflow strandedWorkflow builtinTypes alwaysOk noOptions []) = none ∧
    (runState (executeWorkflow strandedWorkflow builtinTypes alwaysOk noOptions [])).executed
      = ["A"] ∧
    (runState (executeWorkflow strandedWorkflow builtinTypes alwaysOk noOptions [])).skipped
      = [] ∧
    strandedWorkflow.nodes.length = 3 := by
  exact ⟨by decide, by decide, by decide, by decide⟩

/-- C6, amended. The engine performs no deadlock check: when the ready set
empties while executed + skipped is below the node count, `executeWorkflow`
returns normally and the unfinished nodes simply receive no status — the
stranded run completes with metrics and data entries for A only and
nothing recorded for X or Y. -/
theorem C6_no_deadlock_amended :
    runErr (executeWorkflow strandedWorkflow builtinTypes alwaysOk noOptions []) = none ∧
    (runState (executeWorkflow strandedWorkflow builtinTypes alwaysOk noOptions [])).executed.length
        + (runState (executeWorkflow strandedWorkflow builtinTypes alwaysOk
            noOptions [])).skipped.length < strandedWorkflow.nodes.length ∧
    getKey (runState (executeWorkflow strandedWorkflow builtinTypes alwaysOk
        noOptions [])).metrics "X" = none ∧
    getKey (runState (executeWorkflow strandedWorkflow builtinTypes alwaysOk
        noOptions [])).metrics "Y" = none ∧
    getKey (runState (executeWorkflow strandedWorkflow builtinTypes alwaysOk
        noOptions [])).data "X" = none := by
  exact ⟨by decide, by decide, by decide, by decide, by decide⟩

/-- C7, counterexample. The claim asserts a pre-execution dry dispatch
check: the unknown-type error should abort the run before any capability
runs. In the unknown-type workflow the trigger T executes (its capability
is invoked once) before the run aborts on U, refuting the pre-execution
part. -/
theorem C7_unknown_type_counterexample :
    runErr (executeWorkflow unknownTypeWorkflow builtinTypes alwaysOk noOptions [])
      = some (.nodeFailure "U" "No executor found for node type: mystery") ∧
    (runState (executeWorkflow unknownTypeWorkflow builtinTypes alwaysOk noOptions [])).calls "T"
      = 1 ∧
    (runState (executeWorkflow unknownTypeWorkflow builtinTypes alwaysOk
        noOptions [])).executed = ["T"] := by
  exact ⟨by decide, by decide, by decide⟩

/-- C7, amended. A node whose type tag has no registered capability fails
when it is reached: the wrapper throws the dispatch error naming the type
(and, without `continueOnError`, the run aborts with it), so no node with
an unregistered type is ever among the executed nodes of a normally
completed run; but there is no pre-execution dry dispatch check — nodes
scheduled earlier execute normally first, as the unknown-type workflow
shows. -/
theorem C7_unknown_type_amended :
    (∀ (registered : List String) (oracle : String → Nat → Attempt)
        (opts : ExecutionOptions) (node : WNode) (t0 : Nat),
      node.ntype ∉ registered → opts.continueOnError = false →
      (executeNodeWithRetry registered oracle opts node t0).outcome
        = .error ("No executor found for node type: " ++ node.ntype)) ∧
    (∀ (w : Workflow) (registered : List String) (oracle : String → Nat → Attempt)
        (opts : ExecutionOptions) (input : List (String × Value)) (st : SchedState),
      opts.continueOnError = false →
      executeWorkflow w registered oracle opts input = .ok st →
      ∀ v ∈ st.executed, ∃ n, findNode w v = some n ∧ n.ntype ∈ registered) ∧
    runErr (executeWorkflow unknownTypeWorkflow builtinTypes alwaysOk noOptions [])
      = some (.nodeFailure "U" "No executor found for node type: mystery") ∧
    (runState (executeWorkflow unknownTypeWorkflow builtinTypes alwaysOk
        noOptions [])).executed = ["T"] := by
  refine ⟨?_, ?_, by decide, by decide⟩
  · intro registered oracle opts node t0 hreg hcont
    exact executeNodeWithRetry_unregistered hreg hcont
  · intro w registered oracle opts input st hcont hrun v hv
    unfold executeWorkflow at hrun
    cases hdet : detectCycles w with
    | error e => rw [hdet] at hrun; cases hrun
    | ok u =>
        rw [hdet] at hrun
        rcases schedLoop_executed_from _ _ _ _ hrun v hv with h1 | ⟨n, hfind, val, hval⟩
        · simp [initialState] at h1
        · refine ⟨n, hfind, ?_⟩
          by_cases hreg : n.ntype ∈ registered
          · exact hreg
          · have := @executeNodeWithRetry_unregistered registered oracle opts n 0
              hreg hcont
            rw [show (executeNodeWithRetry registered oracle opts n 0).outcome
                = nodeOutcome registered oracle opts n from rfl] at this
            rw [hval] at this
            cases this

/-- C7 witness: the normally-completed diamond run applied to the general
conjunct: every executed node of that run has a registered type. -/
theorem C7_unknown_type_witness :
    ∃ n, findNode diamondWorkflow "A" = some n ∧ n.ntype ∈ builtinTypes :=
  C7_unknown_type_amended.2.1 diamondWorkflow builtinTypes alwaysOk noOptions []
    (runState (executeWorkflow diamondWorkflow builtinTypes alwaysOk noOptions []))
    rfl rfl "A" (by decide)


/-! ## Counting and lookup helper lemmas -/

lemma countFromEdges_nonneg (S : List String) (v : String) :
    ∀ es, 0 ≤ countFromEdges S v es := by
  intro es
  induction es with
  | nil => simp [countFromEdges]
  | cons e es ih =>
      by_cases h : e.target = v ∧ e.source ∈ S <;> simp [countFromEdges, h] <;> omega

lemma countFromEdges_le_countTo (S : List String) (v : String) :
    ∀ es, countFromEdges S v es ≤ countToEdges v es := by
  intro es
  induction es with
  | nil => simp [countFromEdges, countToEdges]
  | cons e es ih =>
      by_cases ht : e.target = v
      · by_cases hs : e.source ∈ S <;>
          simp [countFromEdges, countToEdges, ht, hs] <;> omega
      · have : ¬(e.target = v ∧ e.source ∈ S) := fun hc => ht hc.1
        simp [countFromEdges, countToEdges, ht, this]
        omega

lemma inDeg_eq_countTo (w : Workflow) (v : String) :
    inDeg w v = countToEdges v w.edges := by
  simp only [inDeg]
  induction w.edges with
  | nil => simp [countToEdges]
  | cons e es ih =>
      by_cases ht : e.target = v <;>
        simp [countToEdges, List.filter_cons, ht, ← ih] <;> push_cast <;> omega

lemma countFrom_le_inDeg (w : Workflow) (S : List String) (v : String) :
    countFrom w S v ≤ inDeg w v := by
  rw [countFrom, inDeg_eq_countTo]
  exact countFromEdges_le_countTo S v w.edges

lemma countFrom_nonneg (w : Workflow) (S : List String) (v : String) :
    0 ≤ countFrom w S v := countFromEdges_nonneg S v w.edges

lemma countFromEdges_sources {S : List String} {v : String} :
    ∀ es, countFromEdges S v es = countToEdges v es →
      ∀ e ∈ es, e.target = v → e.source ∈ S := by
  intro es
  induction es with
  | nil => intro _ e he; cases he
  | cons e0 es ih =>
      intro heq e he htv
      have hle := countFromEdges_le_countTo S v es
      rcases List.mem_cons.mp he with rfl | hmem
      · by_cases hs : e.source ∈ S
        · exact hs
        · exfalso
          have hnot : ¬(e.target = v ∧ e.source ∈ S) := fun hc => hs hc.2
          simp only [countFromEdges, countToEdges, if_neg hnot, if_pos htv] at heq
          omega
      · refine ih ?_ e hmem htv
        by_cases ht0 : e0.target = v
        · by_cases hs0 : e0.source ∈ S
          · simp [countFromEdges, countToEdges, ht0, hs0] at heq
            omega
          · have hnot : ¬(e0.target = v ∧ e0.source ∈ S) := fun hc => hs0 hc.2
            simp [countFromEdges, countToEdges, hnot, ht0] at heq
            omega
        · have hnot : ¬(e0.target = v ∧ e0.source ∈ S) := fun hc => ht0 hc.1
          simp [countFromEdges, countToEdges, hnot, ht0] at heq
          omega

lemma countFrom_eq_inDeg_sources {w : Workflow} {S : List String} {v : String}
    (h : countFrom w S v = inDeg w v) :
    ∀ e ∈ w.edges, e.target = v → e.source ∈ S := by
  rw [countFrom, inDeg_eq_countTo] at h
  exact countFromEdges_sources w.edges h

lemma countFromEdges_append (A B : List String) (v : String)
    (hdisj : ∀ x ∈ A, x ∉ B) :
    ∀ es, countFromEdges (A ++ B) v es = countFromEdges A v es + countFromEdges B v es := by
  intro es
  induction es with
  | nil => simp [countFromEdges]
  | cons e es ih =>
      by_cases ht : e.target = v
      · by_cases hA : e.source ∈ A
        · have hB : e.source ∉ B := hdisj _ hA
          simp [countFromEdges, ht, hA, hB, List.mem_append, ih]
          omega
        · by_cases hB : e.source ∈ B <;>
            simp [countFromEdges, ht, hA, hB, List.mem_append, ih] <;> omega
      · have h1 : ¬(e.target = v ∧ e.source ∈ A ++ B) := fun hc => ht hc.1
        have h2 : ¬(e.target = v ∧ e.source ∈ A) := fun hc => ht hc.1
        have h3 : ¬(e.target = v ∧ e.source ∈ B) := fun hc => ht hc.1
        simp only [countFromEdges, if_neg h1, if_neg h2, if_neg h3, ih]
        omega

lemma countFrom_append (w : Workflow) (A B : List String) (v : String)
    (hdisj : ∀ x ∈ A, x ∉ B) :
    countFrom w (A ++ B) v = countFrom w A v + countFrom w B v :=
  countFromEdges_append A B v hdisj w.edges

lemma countFromEdges_nil_left (v : String) :
    ∀ es, countFromEdges [] v es = 0 := by
  intro es
  induction es with
  | nil => simp [countFromEdges]
  | cons x xs ihx => simp [countFromEdges, ihx]

lemma inDeg_zero_no_edges {w : Workflow} {v : String} (h : inDeg w v = 0) :
    ∀ e ∈ w.edges, e.target ≠ v := by
  rw [inDeg_eq_countTo] at h
  revert h
  induction w.edges with
  | nil => intro _ e he; cases he
  | cons e0 es ih =>
      intro h e he htv
      have hnn : 0 ≤ countToEdges v es := by
        have := countFromEdges_le_countTo [] v es
        rw [countFromEdges_nil_left] at this
        exact this
      rcases List.mem_cons.mp he with rfl | hmem
      · simp [countToEdges, htv] at h
        omega
      · refine ih ?_ e hmem htv
        by_cases ht0 : e0.target = v
        · simp [countToEdges, ht0] at h
          omega
        · simpa [countToEdges, ht0] using h

lemma adjacencyList_count (u v : String) :
    ∀ es : List WEdge,
      (((es.filter (fun e => e.source = u)).map (fun e => e.target)).count v : Int)
        = countFromEdges [u] v es := by
  intro es
  induction es with
  | nil => simp [countFromEdges]
  | cons e es ih =>
      by_cases hs : e.source = u
      · by_cases ht : e.target = v
        · simp [List.filter_cons, hs, ht, List.count_cons, countFromEdges, ← ih]
          push_cast
          omega
        · have hne : ¬(e.target = v ∧ e.source ∈ [u]) := fun hc => ht hc.1
          simp [List.filter_cons, hs, ht, List.count_cons, countFromEdges, hne, ← ih]
      · have hne : ¬(e.target = v ∧ e.source ∈ [u]) := by
          rintro ⟨-, hc⟩
          simp at hc
          exact hs hc
        simp [List.filter_cons, hs, countFromEdges, hne, ← ih]

lemma adjacency_count (w : Workflow) (u v : String) :
    ((adjacency w u).count v : Int) = countFrom w [u] v :=
  adjacencyList_count u v w.edges

lemma flatMap_adjacency_count (w : Workflow) (v : String) :
    ∀ level : List String, level.Nodup →
      ((level.flatMap (adjacency w)).count v : Int) = countFrom w level v := by
  intro level
  induction level with
  | nil => intro _; simp [countFrom, countFromEdges_nil_left]
  | cons u rest ih =>
      intro hnd
      have hu : u ∉ rest := (List.nodup_cons.mp hnd).1
      have hsplit : countFrom w (u :: rest) v = countFrom w [u] v + countFrom w rest v := by
        have := countFrom_append w [u] rest v (by simpa using hu)
        simpa using this
      rw [List.flatMap_cons, List.count_append, hsplit, ← adjacency_count,
        ← ih (List.nodup_cons.mp hnd).2]
      push_cast
      omega

lemma adjacency_length_le (w : Workflow) (u : String) :
    (adjacency w u).length ≤ w.edges.length := by
  simp only [adjacency, List.length_map]
  exact List.length_filter_le _ _

lemma adjacency_mem {w : Workflow} {u t : String} :
    t ∈ adjacency w u ↔ ∃ e ∈ w.edges, e.source = u ∧ e.target = t := by
  simp only [adjacency, List.mem_map, List.mem_filter, decide_eq_true_eq]
  constructor
  · rintro ⟨e, ⟨he, hs⟩, ht⟩
    exact ⟨e, he, hs, ht⟩
  · rintro ⟨e, he, hs, ht⟩
    exact ⟨e, ⟨he, hs⟩, ht⟩

lemma findNode_mem {w : Workflow} {v : String} {n : WNode}
    (h : findNode w v = some n) : n ∈ w.nodes ∧ n.id = v := by
  refine ⟨List.mem_of_find?_eq_some h, ?_⟩
  have := List.find?_some h
  simpa using this

lemma findNode_isSome {w : Workflow} {v : String} (h : v ∈ w.ids) :
    ∃ n, findNode w v = some n ∧ n.id = v := by
  simp only [Workflow.ids, List.mem_map] at h
  obtain ⟨n, hn, rfl⟩ := h
  have : (findNode w n.id).isSome := by
    rw [findNode, List.find?_isSome]
    exact ⟨n, hn, by simp⟩
  cases hf : findNode w n.id with
  | none => rw [hf] at this; cases this
  | some m => exact ⟨m, rfl, (findNode_mem hf).2⟩

lemma findNode_eq_of_mem {w : Workflow} (hWF : WF w) {n : WNode} (hn : n ∈ w.nodes) :
    findNode w n.id = some n := by
  obtain ⟨m, hm, hid⟩ := findNode_isSome (w := w) (v := n.id)
    (by simp only [Workflow.ids, List.mem_map]; exact ⟨n, hn, rfl⟩)
  obtain ⟨hmmem, -⟩ := findNode_mem hm
  have heq : m = n := List.inj_on_of_nodup_map hWF.1 hmmem hn hid
  rw [hm, heq]

lemma getKey_setKey_self {α : Type} (l : List (String × α)) (k : String) (v : α) :
    getKey (setKey l k v) k = some v := by
  induction l with
  | nil => simp [setKey, getKey]
  | cons p l ih =>
      rcases p with ⟨k0, v0⟩
      by_cases h : k0 = k
      · simp [setKey, getKey, h]
      · simp only [setKey, if_neg h, getKey]
        exact ih

lemma getKey_setKey_ne {α : Type} (l : List (String × α)) (k k' : String) (v : α)
    (h : k' ≠ k) : getKey (setKey l k v) k' = getKey l k' := by
  induction l with
  | nil =>
      have h' : ¬(k = k') := fun he => h he.symm
      simp [setKey, getKey, h']
  | cons p l ih =>
      rcases p with ⟨k0, v0⟩
      by_cases h0 : k0 = k
      · subst h0
        have h' : ¬(k0 = k') := fun he => h he.symm
        simp only [setKey, if_pos rfl, getKey, if_neg h']
      · simp only [setKey, if_neg h0, getKey]
        by_cases h1 : k0 = k'
        · rw [if_pos h1, if_pos h1]
        · rw [if_neg h1, if_neg h1]
          exact ih

lemma getKey_isSome_setKey {α : Type} (l : List (String × α)) (k k' : String) (v : α) :
    (getKey (setKey l k v) k').isSome ↔ k' = k ∨ (getKey l k').isSome := by
  by_cases h : k' = k
  · subst h
    simp [getKey_setKey_self]
  · rw [getKey_setKey_ne _ _ _ _ h]
    simp [h]

lemma indexOf_append_left {l l' : List String} {a : String} (h : a ∈ l) :
    (l ++ l').indexOf a = l.indexOf a := by
  induction l with
  | nil => cases h
  | cons b l ih =>
      by_cases hb : b = a
      · simp [List.indexOf_cons, hb]
      · have : a ∈ l := by
          rcases List.mem_cons.mp h with h1 | h1
          · exact absurd h1.symm hb
          · exact h1
        simp [List.indexOf_cons, hb, ih this]

lemma indexOf_append_self {l : List String} {a : String} (h : a ∉ l) :
    (l ++ [a]).indexOf a = l.length := by
  induction l with
  | nil => simp
  | cons b l ih =>
      have hb : b ≠ a := by
        intro hba
        exact h (by simp [hba])
      have : a ∉ l := fun hm => h (List.mem_cons_of_mem _ hm)
      simp [List.indexOf_cons, hb, ih this]

lemma nodup_length_le_of_subset {l l' : List String} (hnd : l.Nodup)
    (hsub : ∀ x ∈ l, x ∈ l') : l.length ≤ l'.length := by
  classical
  calc l.length = l.toFinset.card := (List.toFinset_card_of_nodup hnd).symm
    _ ≤ l'.toFinset.card := Finset.card_le_card (fun x hx => by
        rw [List.mem_toFinset] at hx ⊢
        exact hsub x hx)
    _ ≤ l'.length := l'.toFinset_card_le

/-! ## BFS closure (`getDownstreamNodes`) -/

lemma addAll_mem (ts : List String) :
    ∀ (d : List String) (x : String),
      (x ∈ ts.foldl (fun d t => if t ∈ d then d else d ++ [t]) d ↔ x ∈ d ∨ x ∈ ts) := by
  induction ts with
  | nil => intro d x; simp
  | cons t ts ih =>
      intro d x
      by_cases h : t ∈ d
      · rw [List.foldl_cons, if_pos h, ih]
        simp only [List.mem_cons]
        constructor
        · rintro (hx | hx)
          · exact Or.inl hx
          · exact Or.inr (Or.inr hx)
        · rintro (hx | (rfl | hx))
          · exact Or.inl hx
          · exact Or.inl h
          · exact Or.inr hx
      · rw [List.foldl_cons, if_neg h, ih]
        simp only [List.mem_append, List.mem_cons, List.not_mem_nil, or_false]
        tauto

lemma adjacency_sub_cands (w : Workflow) (c u : String) :
    ∀ t ∈ adjacency w u, t ∈ bfsCands w c := by
  intro t ht
  rcases adjacency_mem.mp ht with ⟨e, he, -, hteq⟩
  subst hteq
  exact List.mem_cons_of_mem _ (List.mem_map_of_mem _ he)

lemma reach_target {w : Workflow} {c current x : String}
    (hcur : current = c ∨ Reach w c current) (hx : x ∈ adjacency w current) :
    Reach w c x := by
  rcases adjacency_mem.mp hx with ⟨e, he, hs, hteq⟩
  subst hteq
  rcases hcur with rfl | hr
  · exact Reach.base he hs
  · exact Reach.snoc hr he hs

lemma filter_notmem_cons_of_mem {p : String} {vis2 : List String} (h : p ∈ vis2)
    (l : List String) :
    (p :: l).filter (fun x => x ∉ vis2) = l.filter (fun x => x ∉ vis2) := by
  rw [List.filter_cons, if_neg]
  simp [h]

lemma filter_notmem_cons_of_not_mem {p : String} {vis2 : List String} (h : p ∉ vis2)
    (l : List String) :
    (p :: l).filter (fun x => x ∉ vis2) = p :: l.filter (fun x => x ∉ vis2) := by
  rw [List.filter_cons, if_pos]
  exact decide_eq_true h

lemma filter_out_cons_le (a : String) (vis : List String) :
    ∀ l : List String,
      (l.filter (fun x => x ∉ a :: vis)).length ≤ (l.filter (fun x => x ∉ vis)).length := by
  intro l
  induction l with
  | nil => simp
  | cons b l ih =>
      by_cases hv : b ∈ vis
      · rw [filter_notmem_cons_of_mem (List.mem_cons_of_mem a hv),
          filter_notmem_cons_of_mem hv]
        exact ih
      · by_cases hb : b = a
        · subst hb
          rw [filter_notmem_cons_of_mem (List.mem_cons_self b vis),
            filter_notmem_cons_of_not_mem hv, List.length_cons]
          exact Nat.le_succ_of_le ih
        · have h1 : b ∉ a :: vis := by
            intro hc
            rcases List.mem_cons.mp hc with h | h
            · exact hb h
            · exact hv h
          rw [filter_notmem_cons_of_not_mem h1, filter_notmem_cons_of_not_mem hv,
            List.length_cons, List.length_cons]
          exact Nat.succ_le_succ ih

lemma filter_out_cons_lt {a : String} {vis : List String} (hav : a ∉ vis) :
    ∀ l : List String, a ∈ l →
      (l.filter (fun x => x ∉ a :: vis)).length < (l.filter (fun x => x ∉ vis)).length := by
  intro l
  induction l with
  | nil => intro h; cases h
  | cons b l ih =>
      intro hal
      by_cases hb : b = a
      · subst hb
        rw [filter_notmem_cons_of_mem (List.mem_cons_self b vis),
          filter_notmem_cons_of_not_mem hav, List.length_cons]
        exact Nat.lt_succ_of_le (filter_out_cons_le b vis l)
      · have hal' : a ∈ l := by
          rcases List.mem_cons.mp hal with h | h
          · exact absurd h.symm hb
          · exact h
        by_cases hv : b ∈ vis
        · rw [filter_notmem_cons_of_mem (List.mem_cons_of_mem a hv),
            filter_notmem_cons_of_mem hv]
          exact ih hal'
        · have h1 : b ∉ a :: vis := by
            intro hc
            rcases List.mem_cons.mp hc with h | h
            · exact hb h
            · exact hv h
          rw [filter_notmem_cons_of_not_mem h1, filter_notmem_cons_of_not_mem hv,
            List.length_cons, List.length_cons]
          exact Nat.succ_lt_succ (ih hal')

lemma downstreamGo_sound (w : Workflow) (c : String) :
    ∀ fuel queue visited ds,
      (∀ x ∈ queue, x = c ∨ Reach w c x) →
      (∀ x ∈ ds, Reach w c x) →
      ∀ t ∈ downstreamGo w fuel queue visited ds, Reach w c t := by
  intro fuel
  induction fuel with
  | zero => intro queue visited ds _ hd t ht; exact hd t ht
  | succ fuel ih =>
      intro queue visited ds hq hd t ht
      match queue, hq with
      | [], _ => exact hd t ht
      | current :: queue', hq =>
          by_cases hv : current ∈ visited
          · simp only [downstreamGo, if_pos hv] at ht
            exact ih queue' visited ds (fun x hx => hq x (List.mem_cons_of_mem _ hx)) hd t ht
          · simp only [downstreamGo, if_neg hv] at ht
            refine ih _ _ _ ?_ ?_ t ht
            · intro x hx
              rcases List.mem_append.mp hx with hx | hx
              · exact hq x (List.mem_cons_of_mem _ hx)
              · exact Or.inr (reach_target (hq current (List.mem_cons_self _ _)) hx)
            · intro x hx
              rcases (addAll_mem _ _ _).mp hx with hx | hx
              · exact hd x hx
              · exact reach_target (hq current (List.mem_cons_self _ _)) hx

lemma downstreamGo_post (w : Workflow) (c : String) :
    ∀ fuel queue visited ds,
      (∀ x ∈ queue, x ∈ bfsCands w c) →
      bfsMeasure w c queue visited ≤ fuel →
      (∀ u ∈ visited, ∀ t ∈ adjacency w u, t ∈ ds) →
      (∀ t ∈ ds, t ∈ visited ∨ t ∈ queue) →
      (∀ x ∈ ds, x ∈ downstreamGo w fuel queue visited ds) ∧
      (∀ x ∈ queue, ∀ t ∈ adjacency w x, t ∈ downstreamGo w fuel queue visited ds) ∧
      (∀ t ∈ downstreamGo w fuel queue visited ds, ∀ s ∈ adjacency w t,
        s ∈ downstreamGo w fuel queue visited ds) := by
  intro fuel
  induction fuel with
  | zero =>
      intro queue visited ds _ hmeas hinv1 hinv2
      have hq : queue = [] := by
        simp only [bfsMeasure, Nat.le_zero, Nat.add_eq_zero] at hmeas
        exact List.length_eq_zero.mp hmeas.1
      subst hq
      refine ⟨fun x hx => hx, fun x hx => absurd hx (List.not_mem_nil x), ?_⟩
      intro t ht s hs
      rcases hinv2 t ht with htv | htq
      · exact hinv1 t htv s hs
      · exact absurd htq (List.not_mem_nil t)
  | succ fuel ih =>
      intro queue visited ds hcands hmeas hinv1 hinv2
      match queue with
      | [] =>
          refine ⟨fun x hx => hx, fun x hx => absurd hx (List.not_mem_nil x), ?_⟩
          intro t ht s hs
          rcases hinv2 t ht with htv | htq
          · exact hinv1 t htv s hs
          · exact absurd htq (List.not_mem_nil t)
      | current :: queue' =>
          by_cases hv : current ∈ visited
          · have hmeas' : bfsMeasure w c queue' visited ≤ fuel := by
              simp only [bfsMeasure, List.length_cons] at hmeas ⊢
              omega
            have hinv2' : ∀ t ∈ ds, t ∈ visited ∨ t ∈ queue' := by
              intro t ht
              rcases hinv2 t ht with h | h
              · exact Or.inl h
              · rcases List.mem_cons.mp h with rfl | h
                · exact Or.inl hv
                · exact Or.inr h
            obtain ⟨hA, hB, hC⟩ := ih queue' visited ds
              (fun x hx => hcands x (List.mem_cons_of_mem _ hx)) hmeas' hinv1 hinv2'
            simp only [downstreamGo, if_pos hv]
            refine ⟨hA, ?_, hC⟩
            intro x hx t ht
            rcases List.mem_cons.mp hx with rfl | hx
            · exact hA t (hinv1 x hv t ht)
            · exact hB x hx t ht
          · have hcur : current ∈ bfsCands w c := hcands current (List.mem_cons_self _ _)
            have hF : ((bfsCands w c).filter (fun x => x ∉ current :: visited)).length
                < ((bfsCands w c).filter (fun x => x ∉ visited)).length :=
              filter_out_cons_lt hv (bfsCands w c) hcur
            have htl : (adjacency w current).length ≤ w.edges.length :=
              adjacency_length_le w current
            have hmul : (((bfsCands w c).filter (fun x => x ∉ current :: visited)).length + 1)
                  * (w.edges.length + 1)
                ≤ ((bfsCands w c).filter (fun x => x ∉ visited)).length
                  * (w.edges.length + 1) :=
              Nat.mul_le_mul_right _ hF
            rw [Nat.add_mul, one_mul] at hmul
            have hmeas' : bfsMeasure w c (queue' ++ adjacency w current)
                (current :: visited) ≤ fuel := by
              simp only [bfsMeasure, List.length_cons, List.length_append] at hmeas ⊢
              omega
            have hinv1' : ∀ u ∈ current :: visited, ∀ t ∈ adjacency w u,
                t ∈ (adjacency w current).foldl
                  (fun d t => if t ∈ d then d else d ++ [t]) ds := by
              intro u hu t ht
              rcases List.mem_cons.mp hu with rfl | hu
              · exact (addAll_mem _ _ _).mpr (Or.inr ht)
              · exact (addAll_mem _ _ _).mpr (Or.inl (hinv1 u hu t ht))
            have hinv2' : ∀ t ∈ (adjacency w current).foldl
                  (fun d t => if t ∈ d then d else d ++ [t]) ds,
                t ∈ current :: visited ∨ t ∈ queue' ++ adjacency w current := by
              intro t ht
              rcases (addAll_mem _ _ _).mp ht with ht | ht
              · rcases hinv2 t ht with h | h
                · exact Or.inl (List.mem_cons_of_mem _ h)
                · rcases List.mem_cons.mp h with rfl | h
                  · exact Or.inl (List.mem_cons_self _ _)
                  · exact Or.inr (List.mem_append.mpr (Or.inl h))
              · exact Or.inr (List.mem_append.mpr (Or.inr ht))
            have hcands' : ∀ x ∈ queue' ++ adjacency w current, x ∈ bfsCands w c := by
              intro x hx
              rcases List.mem_append.mp hx with hx | hx
              · exact hcands x (List.mem_cons_of_mem _ hx)
              · exact adjacency_sub_cands w c current x hx
            obtain ⟨hA, hB, hC⟩ := ih (queue' ++ adjacency w current) (current :: visited)
              ((adjacency w current).foldl (fun d t => if t ∈ d then d else d ++ [t]) ds)
              hcands' hmeas' hinv1' hinv2'
            simp only [downstreamGo, if_neg hv]
            refine ⟨?_, ?_, hC⟩
            · intro x hx
              exact hA x ((addAll_mem _ _ _).mpr (Or.inl hx))
            · intro x hx t ht
              rcases List.mem_cons.mp hx with rfl | hx
              · exact hA t ((addAll_mem _ _ _).mpr (Or.inr ht))
              · exact hB x (List.mem_append.mpr (Or.inl hx)) t ht

lemma filter_out_nil_length (l : List String) :
    (l.filter (fun x => x ∉ ([] : List String))).length = l.length := by
  induction l with
  | nil => rfl
  | cons b l ih =>
      rw [filter_notmem_cons_of_not_mem (List.not_mem_nil b), List.length_cons, ih,
        List.length_cons]

lemma getDownstreamNodes_closure (w : Workflow) (c : String) :
    (∀ t ∈ adjacency w c, t ∈ getDownstreamNodes w c) ∧
    (∀ t ∈ getDownstreamNodes w c, ∀ s ∈ adjacency w t, s ∈ getDownstreamNodes w c) := by
  have hmeas : bfsMeasure w c [c] [] ≤ downstreamFuel w := by
    have h1 : ((bfsCands w c).filter (fun x => x ∉ ([] : List String))).length
        = w.edges.length + 1 := by
      rw [filter_out_nil_length]
      simp [bfsCands]
    simp only [bfsMeasure, List.length_singleton, h1, downstreamFuel]
    omega
  obtain ⟨-, hB, hC⟩ := downstreamGo_post w c (downstreamFuel w) [c] [] []
    (by intro x hx; rcases List.mem_singleton.mp hx with rfl; exact List.mem_cons_self _ _)
    hmeas
    (by intro u hu; exact absurd hu (List.not_mem_nil u))
    (by intro t ht; exact absurd ht (List.not_mem_nil t))
  exact ⟨fun t ht => hB c (List.mem_singleton.mpr rfl) t ht, hC⟩

/-- `getDownstreamNodes` computes exactly the reachability closure. -/
lemma mem_getDownstreamNodes_iff (w : Workflow) (c v : String) :
    v ∈ getDownstreamNodes w c ↔ Reach w c v := by
  constructor
  · intro hv
    exact downstreamGo_sound w c (downstreamFuel w) [c] [] []
      (by intro x hx; exact Or.inl (List.mem_singleton.mp hx))
      (by intro x hx; exact absurd hx (List.not_mem_nil x)) v hv
  · intro hr
    obtain ⟨hbase, hclose⟩ := getDownstreamNodes_closure w c
    induction hr with
    | base he hs => exact hbase _ (adjacency_mem.mpr ⟨_, he, hs, rfl⟩)
    | snoc hr he hs ih => exact hclose _ ih _ (adjacency_mem.mpr ⟨_, he, hs, rfl⟩)

/-! ## Kahn reduction (`detectCycles`) -/

lemma countToEdges_nonneg (v : String) : ∀ es, 0 ≤ countToEdges v es := by
  intro es
  induction es with
  | nil => simp [countToEdges]
  | cons e es ih =>
      by_cases ht : e.target = v <;> simp [countToEdges, ht] <;> omega

lemma countToEdges_filter_source (u v : String) :
    ∀ es : List WEdge,
      countToEdges v (es.filter (fun e => e.source = u)) = countFromEdges [u] v es := by
  intro es
  induction es with
  | nil => simp [countToEdges, countFromEdges]
  | cons e es ih =>
      by_cases hs : e.source = u
      · rw [List.filter_cons, if_pos (decide_eq_true hs)]
        by_cases ht : e.target = v
        · have hc : e.target = v ∧ e.source ∈ [u] := ⟨ht, by simp [hs]⟩
          simp only [countToEdges, if_pos ht, countFromEdges, if_pos hc, ih]
        · have hc : ¬(e.target = v ∧ e.source ∈ [u]) := fun h => ht h.1
          simp only [countToEdges, if_neg ht, countFromEdges, if_neg hc, ih]
      · have hc : ¬(e.target = v ∧ e.source ∈ [u]) := by
          rintro ⟨-, h⟩
          simp only [List.mem_singleton] at h
          exact hs h
        rw [List.filter_cons, if_neg (by simp [hs])]
        simp only [countFromEdges, if_neg hc, ih]
        omega

lemma indexOf_lt_length_of_mem {l : List String} {a : String} (h : a ∈ l) :
    l.indexOf a < l.length := by
  induction l with
  | nil => cases h
  | cons b l ih =>
      by_cases hb : b = a
      · simp [List.indexOf_cons, hb]
      · have hmem : a ∈ l := by
          rcases List.mem_cons.mp h with h1 | h1
          · exact absurd h1.symm hb
          · exact h1
        have := ih hmem
        simp [List.indexOf_cons, hb]
        omega

lemma inDeg_pos_edge {w : Workflow} {v : String} (h : 0 < inDeg w v) :
    ∃ e ∈ w.edges, e.target = v := by
  by_contra hno
  push_neg at hno
  have : w.edges.filter (fun e => e.target = v) = [] := by
    rw [List.filter_eq_nil]
    intro e he
    simpa using hno e he
  rw [inDeg, this] at h
  simp at h

lemma kahnStep_fold :
    ∀ (L : List WEdge) (deg0 : String → Int) (q0 : List String),
      ∃ new : List String,
        (L.foldl kahnStep (deg0, q0)).2 = q0 ++ new ∧
        new.Nodup ∧
        (∀ v, (L.foldl kahnStep (deg0, q0)).1 v = deg0 v - countToEdges v L) ∧
        (∀ t, t ∈ new ↔ 1 ≤ deg0 t ∧ deg0 t ≤ countToEdges t L) ∧
        new.length ≤ L.length := by
  intro L
  induction L with
  | nil =>
      intro deg0 q0
      refine ⟨[], by simp, List.nodup_nil, fun v => by simp [countToEdges], fun t => ?_,
        le_refl _⟩
      simp only [List.not_mem_nil, countToEdges, false_iff]
      omega
  | cons e L ih =>
      intro deg0 q0
      by_cases hd : deg0 e.target - 1 = 0
      · have hstep : kahnStep (deg0, q0) e
            = (fun x => if x = e.target then deg0 e.target - 1 else deg0 x,
                q0 ++ [e.target]) := by
          simp only [kahnStep, if_pos hd]
        obtain ⟨new, hq, hnd, hdeg, hmem, hlen⟩ :=
          ih (fun x => if x = e.target then deg0 e.target - 1 else deg0 x) (q0 ++ [e.target])
        have hif : (if e.target = e.target then deg0 e.target - 1 else deg0 e.target)
            = deg0 e.target - 1 := if_pos rfl
        have hcnt : countToEdges e.target (e :: L) = 1 + countToEdges e.target L := by
          simp [countToEdges]
        refine ⟨e.target :: new, ?_, ?_, ?_, ?_, by simpa using Nat.succ_le_succ hlen⟩
        · rw [List.foldl_cons, hstep, hq, List.append_assoc]
          rfl
        · refine List.nodup_cons.mpr ⟨?_, hnd⟩
          intro hmem2
          have h2 := (hmem e.target).mp hmem2
          rw [hif] at h2
          omega
        · intro v
          rw [List.foldl_cons, hstep, hdeg v]
          by_cases hv : v = e.target
          · subst hv
            rw [hif, hcnt]
            omega
          · have hv2 : ¬(e.target = v) := fun h => hv h.symm
            have hcnt2 : countToEdges v (e :: L) = countToEdges v L := by
              simp [countToEdges, hv2]
            rw [if_neg hv, hcnt2]
        · intro t
          by_cases ht : t = e.target
          · subst ht
            have hc := countToEdges_nonneg e.target L
            rw [hcnt]
            constructor
            · intro _
              omega
            · intro _
              exact List.mem_cons_self _ _
          · have ht2 : ¬(e.target = t) := fun h => ht h.symm
            have hcnt2 : countToEdges t (e :: L) = countToEdges t L := by
              simp [countToEdges, ht2]
            have h3 := hmem t
            simp only [if_neg ht] at h3
            rw [hcnt2]
            constructor
            · intro hmem2
              rcases List.mem_cons.mp hmem2 with h4 | h4
              · exact absurd h4 ht
              · exact h3.mp h4
            · intro h4
              exact List.mem_cons_of_mem _ (h3.mpr h4)
      · have hstep : kahnStep (deg0, q0) e
            = (fun x => if x = e.target then deg0 e.target - 1 else deg0 x, q0) := by
          simp only [kahnStep, if_neg hd]
        obtain ⟨new, hq, hnd, hdeg, hmem, hlen⟩ :=
          ih (fun x => if x = e.target then deg0 e.target - 1 else deg0 x) q0
        have hif : (if e.target = e.target then deg0 e.target - 1 else deg0 e.target)
            = deg0 e.target - 1 := if_pos rfl
        have hcnt : countToEdges e.target (e :: L) = 1 + countToEdges e.target L := by
          simp [countToEdges]
        refine ⟨new, ?_, hnd, ?_, ?_, Nat.le_succ_of_le hlen⟩
        · rw [List.foldl_cons, hstep, hq]
        · intro v
          rw [List.foldl_cons, hstep, hdeg v]
          by_cases hv : v = e.target
          · subst hv
            rw [hif, hcnt]
            omega
          · have hv2 : ¬(e.target = v) := fun h => hv h.symm
            have hcnt2 : countToEdges v (e :: L) = countToEdges v L := by
              simp [countToEdges, hv2]
            rw [if_neg hv, hcnt2]
        · intro t
          by_cases ht : t = e.target
          · subst ht
            have h3 := hmem e.target
            rw [hif] at h3
            rw [hcnt]
            constructor
            · intro h4
              have := h3.mp h4
              omega
            · intro h4
              refine h3.mpr ?_
              omega
          · have ht2 : ¬(e.target = t) := fun h => ht h.symm
            have hcnt2 : countToEdges t (e :: L) = countToEdges t L := by
              simp [countToEdges, ht2]
            have h3 := hmem t
            simp only [if_neg ht] at h3
            rw [hcnt2]
            exact h3

lemma filter_source_split (nid : String) (P : List String) (hnid : nid ∉ P) :
    ∀ es : List WEdge,
      (es.filter (fun e => e.source ∉ P)).length
        = (es.filter (fun e => e.source ∉ P ++ [nid])).length
          + (es.filter (fun e => e.source = nid)).length := by
  intro es
  induction es with
  | nil => rfl
  | cons e es ih =>
      by_cases hs : e.source = nid
      · have h1 : e.source ∉ P := by rw [hs]; exact hnid
        have h2 : e.source ∈ P ++ [nid] := List.mem_append.mpr (Or.inr (by simp [hs]))
        rw [List.filter_cons, List.filter_cons, List.filter_cons,
          if_pos (decide_eq_true h1), if_neg (by simp [h2]), if_pos (decide_eq_true hs),
          List.length_cons, List.length_cons, ih]
        omega
      · by_cases hp : e.source ∈ P
        · have h2 : e.source ∈ P ++ [nid] := List.mem_append.mpr (Or.inl hp)
          rw [List.filter_cons, List.filter_cons, List.filter_cons,
            if_neg (by simp [hp]), if_neg (by simp [h2]), if_neg (by simp [hs]), ih]
        · have h2 : e.source ∉ P ++ [nid] := by
            intro h
            rcases List.mem_append.mp h with h | h
            · exact hp h
            · rw [List.mem_singleton] at h
              exact hs h
          rw [List.filter_cons, List.filter_cons, List.filter_cons,
            if_pos (decide_eq_true hp), if_pos (decide_eq_true h2), if_neg (by simp [hs]),
            List.length_cons, List.length_cons, ih]
          omega

lemma edges_filter_src_nil : ∀ es : List WEdge,
    es.filter (fun e => e.source ∉ ([] : List String)) = es := by
  intro es
  induction es with
  | nil => rfl
  | cons e es ih =>
      rw [List.filter_cons, if_pos (decide_eq_true (List.not_mem_nil e.source)), ih]

lemma countFromEdges_eq_of_sources {S : List String} {v : String} :
    ∀ es : List WEdge, (∀ e ∈ es, e.target = v → e.source ∈ S) →
      countFromEdges S v es = countToEdges v es := by
  intro es
  induction es with
  | nil => intro _; rfl
  | cons e es ih =>
      intro h
      have hrest := ih (fun e2 he2 ht2 => h e2 (List.mem_cons_of_mem _ he2) ht2)
      by_cases ht : e.target = v
      · have hs : e.source ∈ S := h e (List.mem_cons_self _ _) ht
        have hc : e.target = v ∧ e.source ∈ S := ⟨ht, hs⟩
        simp only [countFromEdges, countToEdges, if_pos hc, if_pos ht, hrest]
      · have hc : ¬(e.target = v ∧ e.source ∈ S) := fun hh => ht hh.1
        simp only [countFromEdges, countToEdges, if_neg hc, if_neg ht, hrest]

lemma kahnLoop_inv (w : Workflow) (hWF : WF w) :
    ∀ fuel deg queue processed, KInv w deg queue processed →
      queue.length + (w.edges.filter (fun e => e.source ∉ processed)).length < fuel →
      ∃ deg2, KInv w deg2 [] (kahnLoop w fuel deg queue processed) := by
  intro fuel
  induction fuel with
  | zero =>
      intro deg queue processed _ hb
      exact absurd hb (by omega)
  | succ fuel ih =>
      intro deg queue processed hinv hb
      match queue, hb with
      | [], _ => exact ⟨deg, hinv⟩
      | nid :: queue', hb =>
          have hnid_ids : nid ∈ w.ids :=
            hinv.mem_ids nid (List.mem_append.mpr (Or.inr (List.mem_cons_self _ _)))
          obtain ⟨node, hfn, -⟩ := findNode_isSome hnid_ids
          have heq : kahnLoop w (fuel + 1) deg (nid :: queue') processed
              = kahnLoop w fuel
                  ((w.edges.filter (fun e => e.source = nid)).foldl kahnStep (deg, queue')).1
                  ((w.edges.filter (fun e => e.source = nid)).foldl kahnStep (deg, queue')).2
                  (processed ++ [nid]) := by
            simp only [kahnLoop, hfn]
          rw [heq]
          obtain ⟨new, hq2, hnew_nd, hdeg1, hmem_new, hlen_new⟩ :=
            kahnStep_fold (w.edges.filter (fun e => e.source = nid)) deg queue'
          have hnd0 := hinv.nodup
          have hl : processed ++ [nid] ++ queue' = processed ++ nid :: queue' := by simp
          have hnid_notin : nid ∉ processed := by
            rcases List.nodup_append.mp hnd0 with ⟨-, -, hdisj⟩
            intro hmem
            exact hdisj hmem (List.mem_cons_self _ _)
          have hdisj_single : ∀ x ∈ processed, x ∉ [nid] := by
            intro x hx hmem
            rw [List.mem_singleton] at hmem
            subst hmem
            exact hnid_notin hx
          have hcnt : ∀ t, countToEdges t (w.edges.filter (fun e => e.source = nid))
              = countFrom w [nid] t := by
            intro t
            rw [countFrom]
            exact countToEdges_filter_source nid t w.edges
          have hcf : ∀ v, countFrom w (processed ++ [nid]) v
              = countFrom w processed v + countFrom w [nid] v :=
            fun v => countFrom_append w processed [nid] v hdisj_single
          have hdeg_eq2 : ∀ v,
              ((w.edges.filter (fun e => e.source = nid)).foldl kahnStep (deg, queue')).1 v
                = inDeg w v - countFrom w (processed ++ [nid]) v := by
            intro v
            rw [hdeg1 v, hinv.deg_eq v, hcf v, hcnt v]
            omega
          have hnonneg : ∀ v, 0 ≤
              ((w.edges.filter (fun e => e.source = nid)).foldl kahnStep (deg, queue')).1 v := by
            intro v
            rw [hdeg_eq2 v]
            have := countFrom_le_inDeg w (processed ++ [nid]) v
            omega
          have hmem_tr : ∀ v, v ∈ processed ++ [nid] → v ∈ processed ++ nid :: queue' := by
            intro v hv
            rcases List.mem_append.mp hv with h | h
            · exact List.mem_append.mpr (Or.inl h)
            · rw [List.mem_singleton] at h
              subst h
              exact List.mem_append.mpr (Or.inr (List.mem_cons_self _ _))
          have hmem_tr2 : ∀ v, v ∈ queue' → v ∈ processed ++ nid :: queue' := fun v h =>
            List.mem_append.mpr (Or.inr (List.mem_cons_of_mem _ h))
          have hdeg_zero2 : ∀ v ∈ (processed ++ [nid]) ++ (queue' ++ new),
              ((w.edges.filter (fun e => e.source = nid)).foldl kahnStep (deg, queue')).1 v
                = 0 := by
            intro v hv
            have hle : ((w.edges.filter (fun e => e.source = nid)).foldl kahnStep
                (deg, queue')).1 v ≤ 0 := by
              rcases List.mem_append.mp hv with hv | hv2
              · have h0 : deg v = 0 := hinv.deg_zero v (hmem_tr v hv)
                rw [hdeg1 v, h0]
                have := countToEdges_nonneg v (w.edges.filter (fun e => e.source = nid))
                omega
              · rcases List.mem_append.mp hv2 with hv3 | hv3
                · have h0 : deg v = 0 := hinv.deg_zero v (hmem_tr2 v hv3)
                  rw [hdeg1 v, h0]
                  have := countToEdges_nonneg v (w.edges.filter (fun e => e.source = nid))
                  omega
                · have := (hmem_new v).mp hv3
                  rw [hdeg1 v]
                  omega
            have := hnonneg v
            omega
          have hnd2 : ((processed ++ [nid]) ++ (queue' ++ new)).Nodup := by
            have hshape : (processed ++ [nid]) ++ (queue' ++ new)
                = (processed ++ nid :: queue') ++ new := by simp
            rw [hshape]
            refine List.Nodup.append hnd0 hnew_nd ?_
            intro t ht htnew
            have h1 : deg t = 0 := hinv.deg_zero t ht
            have h2 := (hmem_new t).mp htnew
            omega
          have hids2 : ∀ v ∈ (processed ++ [nid]) ++ (queue' ++ new), v ∈ w.ids := by
            intro v hv
            rcases List.mem_append.mp hv with hv | hv2
            · exact hinv.mem_ids v (hmem_tr v hv)
            · rcases List.mem_append.mp hv2 with hv3 | hv3
              · exact hinv.mem_ids v (hmem_tr2 v hv3)
              · have h2 := (hmem_new v).mp hv3
                have h3 : 0 < inDeg w v := by
                  have h4 := hinv.deg_eq v
                  have h5 := countFrom_nonneg w processed v
                  omega
                obtain ⟨e, he, ht⟩ := inDeg_pos_edge h3
                have := (hWF.2 e he).2
                rwa [ht] at this
          have hdeg_nz2 : ∀ v ∈ w.ids, v ∉ processed ++ [nid] → v ∉ queue' ++ new →
              ((w.edges.filter (fun e => e.source = nid)).foldl kahnStep (deg, queue')).1 v
                ≠ 0 := by
            intro v hv hvp hvq
            have hvp0 : v ∉ processed := fun h => hvp (List.mem_append.mpr (Or.inl h))
            have hvnid : v ≠ nid := by
              intro h
              exact hvp (List.mem_append.mpr (Or.inr (by simp [h])))
            have hvq0 : v ∉ nid :: queue' := by
              intro h
              rcases List.mem_cons.mp h with h | h
              · exact hvnid h
              · exact hvq (List.mem_append.mpr (Or.inl h))
            have hold : deg v ≠ 0 := hinv.deg_nonzero v hv hvp0 hvq0
            have hnn : 0 ≤ deg v := by
              rw [hinv.deg_eq v]
              have := countFrom_le_inDeg w processed v
              omega
            have hvnew : v ∉ new := fun h => hvq (List.mem_append.mpr (Or.inr h))
            intro h0
            rw [hdeg1 v] at h0
            have hcross : 1 ≤ deg v ∧
                deg v ≤ countToEdges v (w.edges.filter (fun e => e.source = nid)) := by
              omega
            exact hvnew ((hmem_new v).mpr hcross)
          have hclosed2 : ∀ v ∈ processed ++ [nid], ∀ e ∈ w.edges, e.target = v →
              e.source ∈ processed ++ [nid] ∧
              (processed ++ [nid]).indexOf e.source
                < (processed ++ [nid]).indexOf v := by
            intro v hv e he ht
            rcases List.mem_append.mp hv with hv | hv
            · obtain ⟨hsrc, hidx⟩ := hinv.closed v hv e he ht
              refine ⟨List.mem_append.mpr (Or.inl hsrc), ?_⟩
              rw [indexOf_append_left hsrc, indexOf_append_left hv]
              exact hidx
            · rw [List.mem_singleton] at hv
              subst hv
              have h0 : deg v = 0 :=
                hinv.deg_zero v (List.mem_append.mpr (Or.inr (List.mem_cons_self _ _)))
              have h1 : countFrom w processed v = inDeg w v := by
                have := hinv.deg_eq v
                omega
              have hsrc : e.source ∈ processed := countFrom_eq_inDeg_sources h1 e he ht
              refine ⟨List.mem_append.mpr (Or.inl hsrc), ?_⟩
              rw [indexOf_append_left hsrc, indexOf_append_self hnid_notin]
              exact indexOf_lt_length_of_mem hsrc
          rw [hq2]
          refine ih _ _ _ ⟨hnd2, hdeg_eq2, hdeg_zero2, hids2, hclosed2, hdeg_nz2⟩ ?_
          have hsplit := filter_source_split nid processed hnid_notin w.edges
          simp only [List.length_cons] at hb
          rw [List.length_append]
          omega

lemma kahn_exit (w : Workflow) (hWF : WF w) :
    ∃ deg2, KInv w deg2 [] (kahnProcessed w) := by
  have hinit : KInv w (inDeg w) (initialLevel w) [] := by
    refine ⟨?_, ?_, ?_, ?_, ?_, ?_⟩
    · simpa [initialLevel] using hWF.1.filter (fun v => decide (inDeg w v = 0))
    · intro v
      rw [countFrom, countFromEdges_nil_left]
      omega
    · intro v hv
      simp only [List.nil_append, initialLevel, List.mem_filter, decide_eq_true_eq] at hv
      exact hv.2
    · intro v hv
      simp only [List.nil_append, initialLevel, List.mem_filter] at hv
      exact hv.1
    · intro v hv
      exact absurd hv (List.not_mem_nil v)
    · intro v hv _ hvq h0
      exact hvq (List.mem_filter.mpr ⟨hv, decide_eq_true h0⟩)
  have hbound : (initialLevel w).length
      + (w.edges.filter (fun e => e.source ∉ ([] : List String))).length < kahnFuel w := by
    rw [edges_filter_src_nil]
    have h1 : (initialLevel w).length ≤ w.nodes.length := by
      have := List.length_filter_le (fun v => decide (inDeg w v = 0)) (w.nodes.map (·.id))
      simpa [initialLevel] using this
    simp only [kahnFuel]
    omega
  exact kahnLoop_inv w hWF (kahnFuel w) (inDeg w) (initialLevel w) [] hinit hbound

lemma kahnProcessed_props (w : Workflow) (hWF : WF w) :
    (kahnProcessed w).Nodup ∧ (∀ v ∈ kahnProcessed w, v ∈ w.ids) ∧
    (∀ v ∈ kahnProcessed w, ∀ e ∈ w.edges, e.target = v →
      e.source ∈ kahnProcessed w ∧
      (kahnProcessed w).indexOf e.source < (kahnProcessed w).indexOf v) := by
  obtain ⟨deg2, hinv⟩ := kahn_exit w hWF
  refine ⟨?_, ?_, hinv.closed⟩
  · have := hinv.nodup
    simpa using this
  · intro v hv
    exact hinv.mem_ids v (by simpa using hv)

lemma kahnProcessed_pred (w : Workflow) (hWF : WF w) {v : String} (hv : v ∈ w.ids)
    (hnp : v ∉ kahnProcessed w) :
    ∃ p, p ∈ w.ids ∧ p ∉ kahnProcessed w ∧
      ∃ e ∈ w.edges, e.source = p ∧ e.target = v := by
  obtain ⟨deg2, hinv⟩ := kahn_exit w hWF
  have hnz : deg2 v ≠ 0 := hinv.deg_nonzero v hv hnp (List.not_mem_nil v)
  have hdeq := hinv.deg_eq v
  have hle := countFrom_le_inDeg w (kahnProcessed w) v
  have hlt : countFrom w (kahnProcessed w) v < inDeg w v := by omega
  have hex : ∃ e ∈ w.edges, e.target = v ∧ e.source ∉ kahnProcessed w := by
    by_contra hno
    push_neg at hno
    have hall := countFromEdges_eq_of_sources w.edges hno
    rw [countFrom, inDeg_eq_countTo] at hlt
    omega
  obtain ⟨e, he, ht, hs⟩ := hex
  exact ⟨e.source, (hWF.2 e he).1, hs, e, he, rfl, ht⟩

lemma accepted_mem_processed (w : Workflow) (hWF : WF w) (hacc : accepted w) :
    ∀ v ∈ w.ids, v ∈ kahnProcessed w := by
  classical
  obtain ⟨hnd, hsub, -⟩ := kahnProcessed_props w hWF
  have hids_nd : w.ids.Nodup := hWF.1
  have hfe : (kahnProcessed w).toFinset = w.ids.toFinset := by
    apply Finset.eq_of_subset_of_card_le
    · intro x hx
      rw [List.mem_toFinset] at hx ⊢
      exact hsub x hx
    · rw [List.toFinset_card_of_nodup hids_nd, List.toFinset_card_of_nodup hnd]
      have h1 : w.ids.length = w.nodes.length := by
        simp [Workflow.ids]
      rw [h1, ← hacc]
  intro v hv
  have : v ∈ (kahnProcessed w).toFinset := by
    rw [hfe, List.mem_toFinset]
    exact hv
  rwa [List.mem_toFinset] at this

lemma reach_processed_lt (w : Workflow) (hWF : WF w) {c v : String} (hr : Reach w c v) :
    v ∈ kahnProcessed w →
      c ∈ kahnProcessed w ∧
      (kahnProcessed w).indexOf c < (kahnProcessed w).indexOf v := by
  obtain ⟨-, -, hclosed⟩ := kahnProcessed_props w hWF
  induction hr with
  | base he hs =>
      intro hv
      have h1 := hclosed _ hv _ he rfl
      rwa [hs] at h1
  | snoc hy he hs ih =>
      intro hv
      have h1 := hclosed _ hv _ he rfl
      rw [hs] at h1
      obtain ⟨hc, hidx⟩ := ih h1.1
      exact ⟨hc, lt_trans hidx h1.2⟩

lemma reach_source_edge {w : Workflow} {c v : String} (hr : Reach w c v) :
    ∃ e ∈ w.edges, e.source = c := by
  induction hr with
  | base he hs => exact ⟨_, he, hs⟩
  | snoc _ _ _ ih => exact ih

lemma accepted_acyclic (w : Workflow) (hWF : WF w) (hacc : accepted w) :
    ∀ v, ¬Reach w v v := by
  intro v hr
  obtain ⟨e, he, hs⟩ := reach_source_edge hr
  have hv_ids : v ∈ w.ids := by
    have := (hWF.2 e he).1
    rwa [hs] at this
  have hv_proc : v ∈ kahnProcessed w := accepted_mem_processed w hWF hacc v hv_ids
  obtain ⟨-, hidx⟩ := reach_processed_lt w hWF hr hv_proc
  exact lt_irrefl _ hidx

lemma unprocessed_reach_cycle (w : Workflow) (hWF : WF w) {v : String} (hv : v ∈ w.ids)
    (hnp : v ∉ kahnProcessed w) :
    ∃ c, Reach w c c ∧ (c = v ∨ Reach w c v) := by
  classical
  have hstep : ∀ u : String, u ∈ w.ids → u ∉ kahnProcessed w →
      ∃ p, (p ∈ w.ids ∧ p ∉ kahnProcessed w) ∧
        ∃ e ∈ w.edges, e.source = p ∧ e.target = u := by
    intro u h1 h2
    obtain ⟨p, hp1, hp2, he⟩ := kahnProcessed_pred w hWF h1 h2
    exact ⟨p, ⟨hp1, hp2⟩, he⟩
  let T := {x : String // x ∈ w.ids ∧ x ∉ kahnProcessed w}
  let nxt : T → T := fun u =>
    ⟨(hstep u.1 u.2.1 u.2.2).choose, (hstep u.1 u.2.1 u.2.2).choose_spec.1⟩
  have hnxt_edge : ∀ u : T, ∃ e ∈ w.edges, e.source = (nxt u).1 ∧ e.target = u.1 :=
    fun u => (hstep u.1 u.2.1 u.2.2).choose_spec.2
  let g : Nat → T := fun n => nxt^[n] ⟨v, hv, hnp⟩
  have hedge : ∀ n, ∃ e ∈ w.edges, e.source = (g (n + 1)).1 ∧ e.target = (g n).1 := by
    intro n
    have h1 : g (n + 1) = nxt (g n) := Function.iterate_succ_apply' nxt n _
    rw [h1]
    exact hnxt_edge (g n)
  have hreach : ∀ d n, Reach w ((g (n + d + 1)).1) ((g n).1) := by
    intro d
    induction d with
    | zero =>
        intro n
        obtain ⟨e, he, hs, ht⟩ := hedge n
        have hb := Reach.base he hs
        rwa [ht] at hb
    | succ d ih =>
        intro n
        have h1 := ih (n + 1)
        obtain ⟨e, he, hs, ht⟩ := hedge n
        have h2 : Reach w ((g (n + 1 + d + 1)).1) e.target := Reach.snoc h1 he hs
        rw [ht] at h2
        have harith : n + 1 + d + 1 = n + (d + 1) + 1 := by omega
        rwa [harith] at h2
  have hmain : ∀ i j : Nat, i < j → (g i).1 = (g j).1 →
      ∃ c, Reach w c c ∧ (c = v ∨ Reach w c v) := by
    intro i j hlt hgeq
    obtain ⟨d, hd⟩ : ∃ d, j = i + d + 1 := ⟨j - i - 1, by omega⟩
    subst hd
    have hcyc : Reach w ((g (i + d + 1)).1) ((g (i + d + 1)).1) := by
      have h3 := hreach d i
      rwa [hgeq] at h3
    refine ⟨(g (i + d + 1)).1, hcyc, Or.inr ?_⟩
    have h0 := hreach (i + d) 0
    have harith2 : 0 + (i + d) + 1 = i + d + 1 := by omega
    rw [harith2] at h0
    exact h0
  have hmaps : ∀ n ∈ Finset.range (w.ids.length + 1), (g n).1 ∈ w.ids.toFinset := by
    intro n _
    rw [List.mem_toFinset]
    exact (g n).2.1
  have hcard : w.ids.toFinset.card < (Finset.range (w.ids.length + 1)).card := by
    rw [Finset.card_range]
    have := w.ids.toFinset_card_le
    omega
  obtain ⟨i, hi, j, hj, hij, heq⟩ :=
    Finset.exists_ne_map_eq_of_card_lt_of_maps_to hcard hmaps
  rcases lt_trichotomy i j with h | h | h
  · exact hmain i j h heq
  · exact absurd h hij
  · exact hmain j i h heq.symm

/-- C2: a workflow whose graph contains a cycle (a node reachable from
itself along edges) is rejected by the pre-execution Kahn reduction:
`detectCycles` fails with a cycle error naming exactly the declared node
ids not removed by the reduction, and those named ids are exactly the
declared nodes lying on a cycle or reachable from one; `executeWorkflow`
propagates this error before running the scheduler, so in the error
state no node has been executed and no capability has been invoked. -/
theorem C2_cycle_rejection (w : Workflow) (registered : List String)
    (oracle : String → Nat → Attempt) (opts : ExecutionOptions)
    (inputData : List (String × Value)) (hWF : WF w) (hcyc : ∃ v, Reach w v v) :
    detectCycles w = .error (.cycle
      ((w.nodes.filter (fun n => n.id ∉ kahnProcessed w)).map (fun n => n.id))) ∧
    (∀ v, v ∈ (w.nodes.filter (fun n => n.id ∉ kahnProcessed w)).map (fun n => n.id) ↔
      (v ∈ w.ids ∧ ∃ c, Reach w c c ∧ (c = v ∨ Reach w c v))) ∧
    executeWorkflow w registered oracle opts inputData
      = .error (.cycle
          ((w.nodes.filter (fun n => n.id ∉ kahnProcessed w)).map (fun n => n.id)),
        initialState w inputData) ∧
    (runState (executeWorkflow w registered oracle opts inputData)).executed = [] ∧
    (∀ x, (runState (executeWorkflow w registered oracle opts inputData)).calls x = 0) := by
  have hnacc : ¬ accepted w := by
    intro hacc
    obtain ⟨v, hr⟩ := hcyc
    exact accepted_acyclic w hWF hacc v hr
  have hne : (kahnProcessed w).length ≠ w.nodes.length := hnacc
  have h1 : detectCycles w = .error (.cycle
      ((w.nodes.filter (fun n => n.id ∉ kahnProcessed w)).map (fun n => n.id))) := by
    simp only [detectCycles]
    rw [if_pos hne]
  have h2 : executeWorkflow w registered oracle opts inputData
      = .error (.cycle
          ((w.nodes.filter (fun n => n.id ∉ kahnProcessed w)).map (fun n => n.id)),
        initialState w inputData) := by
    simp only [executeWorkflow, h1]
  refine ⟨h1, ?_, h2, by rw [h2]; rfl, fun x => by rw [h2]; rfl⟩
  intro v
  constructor
  · intro hv
    simp only [List.mem_map, List.mem_filter, decide_eq_true_eq] at hv
    obtain ⟨n, ⟨hn, hnp⟩, hnid⟩ := hv
    have hv_ids : v ∈ w.ids := by
      rw [← hnid]
      exact List.mem_map_of_mem _ hn
    have hnp2 : v ∉ kahnProcessed w := by
      rw [← hnid]
      exact hnp
    exact ⟨hv_ids, unprocessed_reach_cycle w hWF hv_ids hnp2⟩
  · rintro ⟨hv_ids, c, hcc, hcv⟩
    have hnp2 : v ∉ kahnProcessed w := by
      intro hmem
      have hc_proc : c ∈ kahnProcessed w := by
        rcases hcv with rfl | hr
        · exact hmem
        · exact (reach_processed_lt w hWF hr hmem).1
      obtain ⟨-, hidx⟩ := reach_processed_lt w hWF hcc hc_proc
      exact lt_irrefl _ hidx
    simp only [Workflow.ids, List.mem_map] at hv_ids
    obtain ⟨n, hn, hnid⟩ := hv_ids
    have hnf : n ∈ w.nodes.filter (fun n => n.id ∉ kahnProcessed w) := by
      refine List.mem_filter.mpr ⟨hn, ?_⟩
      rw [hnid]
      exact decide_eq_true hnp2
    rw [← hnid]
    exact List.mem_map_of_mem _ hnf

/-- Witness for C2: the concrete cycle workflow A → X → Y → Z → X is
rejected naming X, Y, Z, with no node executed. -/
theorem C2_cycle_rejection_witness :
    detectCycles cycleWorkflow = .error (.cycle
      ((cycleWorkflow.nodes.filter
        (fun n => n.id ∉ kahnProcessed cycleWorkflow)).map (fun n => n.id))) ∧
    (runState (executeWorkflow cycleWorkflow builtinTypes alwaysOk noOptions [])).executed
      = [] := by
  have hWF : WF cycleWorkflow := ⟨by decide, by decide⟩
  have he1 : (⟨"X", "Y"⟩ : WEdge) ∈ cycleWorkflow.edges := by decide
  have he2 : (⟨"Y", "Z"⟩ : WEdge) ∈ cycleWorkflow.edges := by decide
  have he3 : (⟨"Z", "X"⟩ : WEdge) ∈ cycleWorkflow.edges := by decide
  have h1 : Reach cycleWorkflow "X" "Y" := Reach.base he1 rfl
  have h2 : Reach cycleWorkflow "X" "Z" := Reach.snoc h1 he2 rfl
  have h3 : Reach cycleWorkflow "X" "X" := Reach.snoc h2 he3 rfl
  obtain ⟨hc1, -, -, hc4, -⟩ :=
    C2_cycle_rejection cycleWorkflow builtinTypes alwaysOk noOptions [] hWF ⟨"X", h3⟩
  exact ⟨hc1, hc4⟩

/-! ## Scheduler machinery: wrapper and fold lemmas -/

lemma attemptLoop_retries_le (att : Nat → Attempt) (backoff : Nat) :
    ∀ left attempt, (attemptLoop att backoff left attempt).2.1 ≤ attempt + left := by
  intro left
  induction left with
  | zero => intro attempt; cases h : att attempt <;> simp [attemptLoop, h]
  | succ left ih =>
      intro attempt
      cases h : att attempt with
      | succ v => simp [attemptLoop, h]
      | fail m =>
          have hle := ih (attempt + 1)
          simp only [attemptLoop, h]
          omega

lemma executeNodeWithRetry_attempts_le (registered : List String)
    (oracle : String → Nat → Attempt) (opts : ExecutionOptions) (node : WNode) (t0 : Nat) :
    (executeNodeWithRetry registered oracle opts node t0).attemptsMade
      ≤ effMaxRetries opts + 1 := by
  have hle := attemptLoop_retries_le (nodeAttempt registered oracle node) (effBackoff opts)
    (effMaxRetries opts) 0
  rcases hr : attemptLoop (nodeAttempt registered oracle node) (effBackoff opts)
      (effMaxRetries opts) 0 with ⟨res, retries, delays⟩
  rw [hr] at hle
  simp only at hle
  cases res with
  | ok v =>
      simp only [executeNodeWithRetry, hr]
      omega
  | error m =>
      cases hc : opts.continueOnError <;> simp only [executeNodeWithRetry, hr, hc] <;>
        simp <;> omega

lemma executeNodeWithRetry_ok_stored {registered : List String}
    {oracle : String → Nat → Attempt} {opts : ExecutionOptions} {node : WNode} {t0 : Nat}
    {val : Value}
    (h : (executeNodeWithRetry registered oracle opts node t0).outcome = .ok val) :
    ∃ s, (executeNodeWithRetry registered oracle opts node t0).stored = some s := by
  rcases hr : attemptLoop (nodeAttempt registered oracle node) (effBackoff opts)
      (effMaxRetries opts) 0 with ⟨res, retries, delays⟩
  cases res with
  | ok v => exact ⟨safeSerialize v, by simp [executeNodeWithRetry, hr]⟩
  | error m =>
      cases hc : opts.continueOnError with
      | true => exact ⟨sentinelValue m, by simp [executeNodeWithRetry, hr, hc]⟩
      | false =>
          rw [executeNodeWithRetry, hr] at h
          simp [hc] at h

lemma executeNodeWithRetry_ok_of_continue (registered : List String)
    (oracle : String → Nat → Attempt) {opts : ExecutionOptions} (node : WNode) (t0 : Nat)
    (hcont : opts.continueOnError = true) :
    ∃ v, (executeNodeWithRetry registered oracle opts node t0).outcome = .ok v := by
  rcases hr : attemptLoop (nodeAttempt registered oracle node) (effBackoff opts)
      (effMaxRetries opts) 0 with ⟨res, retries, delays⟩
  cases res with
  | ok v => exact ⟨v, by simp [executeNodeWithRetry, hr]⟩
  | error m => exact ⟨sentinelValue m, by simp [executeNodeWithRetry, hr, hcont]⟩

lemma reach_into_closed {w : Workflow} {E : List String}
    (hclosed : ∀ v ∈ E, ∀ e ∈ w.edges, e.target = v → e.source ∈ E) :
    ∀ {c y : String}, Reach w c y → y ∈ E → c ∈ E := by
  intro c y hr
  induction hr with
  | base he hs =>
      intro hy
      have h1 := hclosed _ hy _ he rfl
      rwa [hs] at h1
  | snoc hy2 he hs ih =>
      intro hy
      have h1 := hclosed _ hy _ he rfl
      rw [hs] at h1
      exact ih h1

lemma reach_last_edge {w : Workflow} {c v : String} (hr : Reach w c v) :
    ∃ e ∈ w.edges, e.target = v := by
  cases hr with
  | base he hs => exact ⟨_, he, rfl⟩
  | snoc hy he hs => exact ⟨_, he, rfl⟩

lemma reach_not_ready_source {w : Workflow} {E : List String} {c v : String}
    (hclosed : ∀ x ∈ E, ∀ e ∈ w.edges, e.target = x → e.source ∈ E)
    (hready : ∀ e ∈ w.edges, e.target = v → e.source ∈ E)
    (hr : Reach w c v) : c ∈ E := by
  cases hr with
  | base he hs =>
      have h1 := hready _ he rfl
      rwa [hs] at h1
  | snoc hy he hs =>
      have h1 := hready _ he rfl
      rw [hs] at h1
      exact reach_into_closed hclosed hy h1

lemma countFromEdges_pos_edge {S : List String} {v : String} :
    ∀ es : List WEdge, 0 < countFromEdges S v es →
      ∃ e ∈ es, e.target = v ∧ e.source ∈ S := by
  intro es
  induction es with
  | nil => intro h; simp [countFromEdges] at h
  | cons e es ih =>
      intro h
      by_cases hc : e.target = v ∧ e.source ∈ S
      · exact ⟨e, List.mem_cons_self _ _, hc⟩
      · rw [countFromEdges, if_neg hc] at h
        obtain ⟨e2, he2, hp⟩ := ih (by omega)
        exact ⟨e2, List.mem_cons_of_mem _ he2, hp⟩

lemma countFrom_pos_edge {w : Workflow} {S : List String} {v : String}
    (h : 0 < countFrom w S v) : ∃ e ∈ w.edges, e.target = v ∧ e.source ∈ S :=
  countFromEdges_pos_edge w.edges h

lemma chain_reach_cycle (w : Workflow) {P : String → Prop}
    (hstep : ∀ u, P u → ∃ p, P p ∧ ∃ e ∈ w.edges, e.source = p ∧ e.target = u)
    (hids : ∀ u, P u → u ∈ w.ids) {v : String} (hv : P v) :
    ∃ c, Reach w c c ∧ (c = v ∨ Reach w c v) := by
  classical
  let T := {x : String // P x}
  let nxt : T → T := fun u => ⟨(hstep u.1 u.2).choose, (hstep u.1 u.2).choose_spec.1⟩
  have hnxt_edge : ∀ u : T, ∃ e ∈ w.edges, e.source = (nxt u).1 ∧ e.target = u.1 :=
    fun u => (hstep u.1 u.2).choose_spec.2
  let g : Nat → T := fun n => nxt^[n] ⟨v, hv⟩
  have hedge : ∀ n, ∃ e ∈ w.edges, e.source = (g (n + 1)).1 ∧ e.target = (g n).1 := by
    intro n
    have h1 : g (n + 1) = nxt (g n) := Function.iterate_succ_apply' nxt n _
    rw [h1]
    exact hnxt_edge (g n)
  have hreach : ∀ d n, Reach w ((g (n + d + 1)).1) ((g n).1) := by
    intro d
    induction d with
    | zero =>
        intro n
        obtain ⟨e, he, hs, ht⟩ := hedge n
        have hb := Reach.base he hs
        rwa [ht] at hb
    | succ d ih =>
        intro n
        have h1 := ih (n + 1)
        obtain ⟨e, he, hs, ht⟩ := hedge n
        have h2 : Reach w ((g (n + 1 + d + 1)).1) e.target := Reach.snoc h1 he hs
        rw [ht] at h2
        have harith : n + 1 + d + 1 = n + (d + 1) + 1 := by omega
        rwa [harith] at h2
  have hmain : ∀ i j : Nat, i < j → (g i).1 = (g j).1 →
      ∃ c, Reach w c c ∧ (c = v ∨ Reach w c v) := by
    intro i j hlt hgeq
    obtain ⟨d, hd⟩ : ∃ d, j = i + d + 1 := ⟨j - i - 1, by omega⟩
    subst hd
    have hcyc : Reach w ((g (i + d + 1)).1) ((g (i + d + 1)).1) := by
      have h3 := hreach d i
      rwa [hgeq] at h3
    refine ⟨(g (i + d + 1)).1, hcyc, Or.inr ?_⟩
    have h0 := hreach (i + d) 0
    have harith2 : 0 + (i + d) + 1 = i + d + 1 := by omega
    rw [harith2] at h0
    exact h0
  have hmaps : ∀ n ∈ Finset.range (w.ids.length + 1), (g n).1 ∈ w.ids.toFinset := by
    intro n _
    rw [List.mem_toFinset]
    exact hids _ (g n).2
  have hcard : w.ids.toFinset.card < (Finset.range (w.ids.length + 1)).card := by
    rw [Finset.card_range]
    have := w.ids.toFinset_card_le
    omega
  obtain ⟨i, hi, j, hj, hij, heq⟩ :=
    Finset.exists_ne_map_eq_of_card_lt_of_maps_to hcard hmaps
  rcases lt_trichotomy i j with h | h | h
  · exact hmain i j h heq
  · exact absurd h hij
  · exact hmain j i h heq.symm

lemma nextLevelPhase_eq_foldl (w : Workflow) (ex sk : List String) :
    ∀ (level : List String) (deg : String → Int) (acc : List String),
      nextLevelPhase w ex sk level deg acc
        = (level.flatMap (adjacency w)).foldl (levelStep ex sk) (deg, acc) := by
  intro level
  induction level with
  | nil => intro deg acc; rfl
  | cons nid rest ih =>
      intro deg acc
      rw [List.flatMap_cons, List.foldl_append]
      simp only [nextLevelPhase]
      rw [ih]

lemma applySkips_char : ∀ (ds : List String) (st : SchedState),
    (∀ v, v ∈ (applySkips st ds).skipped ↔ v ∈ st.skipped ∨ v ∈ ds) ∧
    (st.skipped.Nodup → (applySkips st ds).skipped.Nodup) ∧
    (∀ v, getKey (applySkips st ds).metrics v
      = if v ∈ ds then some ⟨st.clock, st.clock, 0, 0, MStatus.skipped⟩
        else getKey st.metrics v) := by
  intro ds
  induction ds with
  | nil =>
      intro st
      refine ⟨fun v => by simp [applySkips], fun h => h, fun v => by simp [applySkips]⟩
  | cons d ds ih =>
      intro st
      have happ : applySkips st (d :: ds)
          = applySkips { st with
              skipped := if d ∈ st.skipped then st.skipped else st.skipped ++ [d],
              metrics := setKey st.metrics d ⟨st.clock, st.clock, 0, 0, .skipped⟩ } ds := rfl
      obtain ⟨hmem, hnd, hmet⟩ := ih { st with
          skipped := if d ∈ st.skipped then st.skipped else st.skipped ++ [d],
          metrics := setKey st.metrics d ⟨st.clock, st.clock, 0, 0, .skipped⟩ }
      rw [happ]
      refine ⟨?_, ?_, ?_⟩
      · intro v
        rw [hmem v]
        show v ∈ (if d ∈ st.skipped then st.skipped else st.skipped ++ [d]) ∨ v ∈ ds ↔
          v ∈ st.skipped ∨ v ∈ d :: ds
        by_cases hd : d ∈ st.skipped
        · rw [if_pos hd]
          simp only [List.mem_cons]
          constructor
          · rintro (h | h)
            · exact Or.inl h
            · exact Or.inr (Or.inr h)
          · rintro (h | (rfl | h))
            · exact Or.inl h
            · exact Or.inl hd
            · exact Or.inr h
        · rw [if_neg hd]
          simp only [List.mem_append, List.mem_cons, List.not_mem_nil, or_false]
          tauto
      · intro hnd0
        refine hnd ?_
        show (if d ∈ st.skipped then st.skipped else st.skipped ++ [d]).Nodup
        by_cases hd : d ∈ st.skipped
        · rwa [if_pos hd]
        · rw [if_neg hd]
          refine List.Nodup.append hnd0 (List.nodup_singleton d) ?_
          intro x hx hxd
          rw [List.mem_singleton] at hxd
          subst hxd
          exact hd hx
      · intro v
        rw [hmet v]
        show (if v ∈ ds then some (⟨st.clock, st.clock, 0, 0, MStatus.skipped⟩ : Metric)
            else getKey (setKey st.metrics d ⟨st.clock, st.clock, 0, 0, .skipped⟩) v)
          = if v ∈ d :: ds then some ⟨st.clock, st.clock, 0, 0, MStatus.skipped⟩
            else getKey st.metrics v
        by_cases hvds : v ∈ ds
        · rw [if_pos hvds, if_pos (List.mem_cons_of_mem _ hvds)]
        · rw [if_neg hvds]
          by_cases hvd : v = d
          · subst hvd
            rw [getKey_setKey_self, if_pos (List.mem_cons_self _ _)]
          · rw [getKey_setKey_ne _ _ _ _ hvd, if_neg ?_]
            intro h
            rcases List.mem_cons.mp h with h | h
            · exact hvd h
            · exact hvds h

lemma levelStep_fold (ex sk : List String) :
    ∀ (L : List String) (deg0 : String → Int) (acc0 : List String),
      (∀ t, (L.foldl (levelStep ex sk) (deg0, acc0)).1 t
        = if t ∈ ex ∨ t ∈ sk then deg0 t else deg0 t - (L.count t : Int)) ∧
      (acc0.Nodup → (L.foldl (levelStep ex sk) (deg0, acc0)).2.Nodup) ∧
      (∀ t, t ∈ (L.foldl (levelStep ex sk) (deg0, acc0)).2 ↔
        t ∈ acc0 ∨ (t ∉ ex ∧ t ∉ sk ∧ 1 ≤ deg0 t ∧ deg0 t ≤ (L.count t : Int))) := by
  intro L
  induction L with
  | nil =>
      intro deg0 acc0
      refine ⟨fun t => by simp, fun h => h, fun t => ?_⟩
      simp only [List.foldl_nil, List.count_nil, Nat.cast_zero]
      constructor
      · exact Or.inl
      · rintro (h | ⟨-, -, h1, h2⟩)
        · exact h
        · omega
  | cons t0 L ih =>
      intro deg0 acc0
      by_cases hset : t0 ∈ ex ∨ t0 ∈ sk
      · have hstep : levelStep ex sk (deg0, acc0) t0 = (deg0, acc0) := by
          simp only [levelStep, if_pos hset]
        obtain ⟨hdeg, hnd, hmem⟩ := ih deg0 acc0
        rw [List.foldl_cons, hstep]
        refine ⟨?_, hnd, ?_⟩
        · intro t
          rw [hdeg t]
          by_cases htset : t ∈ ex ∨ t ∈ sk
          · rw [if_pos htset, if_pos htset]
          · rw [if_neg htset, if_neg htset]
            have hne : t ≠ t0 := by
              intro h
              subst h
              exact htset hset
            rw [List.count_cons_of_ne hne]
        · intro t
          rw [hmem t]
          by_cases hte : t = t0
          · subst hte
            have hns : ¬(t ∉ ex ∧ t ∉ sk ∧ 1 ≤ deg0 t ∧ deg0 t ≤ ((t :: L).count t : Int)) := by
              rintro ⟨h1, h2, -⟩
              rcases hset with h | h
              · exact h1 h
              · exact h2 h
            have hns2 : ¬(t ∉ ex ∧ t ∉ sk ∧ 1 ≤ deg0 t ∧ deg0 t ≤ (L.count t : Int)) := by
              rintro ⟨h1, h2, -⟩
              rcases hset with h | h
              · exact h1 h
              · exact h2 h
            simp only [hns, hns2, or_false]
          · rw [List.count_cons_of_ne hte]
      · have hne_set : t0 ∉ ex ∧ t0 ∉ sk := by
          constructor
          · intro h; exact hset (Or.inl h)
          · intro h; exact hset (Or.inr h)
        by_cases henq : deg0 t0 - 1 = 0 ∧ t0 ∉ acc0
        · have hstep : levelStep ex sk (deg0, acc0) t0
              = (fun x => if x = t0 then deg0 t0 - 1 else deg0 x, acc0 ++ [t0]) := by
            simp only [levelStep, if_neg hset, if_pos henq]
          obtain ⟨hdeg, hnd, hmem⟩ :=
            ih (fun x => if x = t0 then deg0 t0 - 1 else deg0 x) (acc0 ++ [t0])
          have hif : (if t0 = t0 then deg0 t0 - 1 else deg0 t0) = deg0 t0 - 1 := if_pos rfl
          rw [List.foldl_cons, hstep]
          refine ⟨?_, ?_, ?_⟩
          · intro t
            rw [hdeg t]
            by_cases htset : t ∈ ex ∨ t ∈ sk
            · rw [if_pos htset, if_pos htset]
              have hne : t ≠ t0 := by
                intro h
                subst h
                exact hset htset
              rw [if_neg hne]
            · rw [if_neg htset, if_neg htset]
              by_cases hte : t = t0
              · subst hte
                rw [hif, List.count_cons_self]
                push_cast
                omega
              · rw [if_neg hte, List.count_cons_of_ne hte]
          · intro hnd0
            refine hnd ?_
            refine List.Nodup.append hnd0 (List.nodup_singleton t0) ?_
            intro x hx hxt
            rw [List.mem_singleton] at hxt
            subst hxt
            exact henq.2 hx
          · intro t
            rw [hmem t]
            by_cases hte : t = t0
            · subst hte
              have hmemself : t ∈ acc0 ++ [t] := List.mem_append.mpr (Or.inr (by simp))
              have hc := List.count_cons_self t L
              constructor
              · intro _
                refine Or.inr ⟨hne_set.1, hne_set.2, ?_, ?_⟩
                · omega
                · rw [hc]
                  push_cast
                  omega
              · intro _
                exact Or.inl hmemself
            · rw [if_neg hte, List.count_cons_of_ne hte]
              have hmemiff : t ∈ acc0 ++ [t0] ↔ t ∈ acc0 := by
                simp only [List.mem_append, List.mem_singleton, hte, or_false]
              rw [hmemiff]
        · have hstep : levelStep ex sk (deg0, acc0) t0
              = (fun x => if x = t0 then deg0 t0 - 1 else deg0 x, acc0) := by
            simp only [levelStep, if_neg hset, if_neg henq]
          obtain ⟨hdeg, hnd, hmem⟩ :=
            ih (fun x => if x = t0 then deg0 t0 - 1 else deg0 x) acc0
          have hif : (if t0 = t0 then deg0 t0 - 1 else deg0 t0) = deg0 t0 - 1 := if_pos rfl
          rw [List.foldl_cons, hstep]
          refine ⟨?_, hnd, ?_⟩
          · intro t
            rw [hdeg t]
            by_cases htset : t ∈ ex ∨ t ∈ sk
            · rw [if_pos htset, if_pos htset]
              have hne : t ≠ t0 := by
                intro h
                subst h
                exact hset htset
              rw [if_neg hne]
            · rw [if_neg htset, if_neg htset]
              by_cases hte : t = t0
              · subst hte
                rw [hif, List.count_cons_self]
                push_cast
                omega
              · rw [if_neg hte, List.count_cons_of_ne hte]
          · intro t
            rw [hmem t]
            by_cases hte : t = t0
            · subst hte
              rw [hif, List.count_cons_self]
              by_cases hacc : t ∈ acc0
              · simp only [hacc, true_or]
              · have hd0 : ¬(deg0 t - 1 = 0) := by
                  intro h
                  exact henq ⟨h, hacc⟩
                simp only [hacc, false_or]
                constructor
                · rintro ⟨h1, h2, h3, h4⟩
                  refine ⟨h1, h2, ?_, ?_⟩ <;> push_cast <;> omega
                · rintro ⟨h1, h2, h3, h4⟩
                  push_cast at h4
                  refine ⟨h1, h2, by omega, by push_cast; omega⟩
            · rw [if_neg hte, List.count_cons_of_ne hte]

lemma runLevelNodes_ok_of_continue {w : Workflow} {registered : List String}
    {oracle : String → Nat → Attempt} {opts : ExecutionOptions}
    (hcont : opts.continueOnError = true) :
    ∀ (rest : List String) (st : SchedState),
      ∃ st2, runLevelNodes w registered oracle opts rest st = .ok st2 := by
  intro rest
  induction rest with
  | nil => intro st; exact ⟨st, rfl⟩
  | cons nid rest ih =>
      intro st
      rw [runLevelNodes]
      cases hfind : findNode w nid with
      | none => exact ih st
      | some node =>
          obtain ⟨v, hv⟩ :=
            executeNodeWithRetry_ok_of_continue registered oracle node st.clock hcont
          simp only
          rw [hv]
          exact ih _

lemma runLevelNodes_inv {w : Workflow} {registered : List String}
    {oracle : String → Nat → Attempt} {opts : ExecutionOptions}
    (hWF : WF w) (hacyc : ∀ v, ¬Reach w v v) :
    ∀ (rest : List String) (st st' : SchedState),
      StInv w registered oracle opts st →
      rest.Nodup →
      (∀ v ∈ rest, v ∈ w.ids) →
      (∀ v ∈ rest, v ∉ st.executed ∧ v ∉ st.skipped) →
      (∀ v ∈ rest, ∀ e ∈ w.edges, e.target = v → e.source ∈ st.executed) →
      runLevelNodes w registered oracle opts rest st = .ok st' →
      StInv w registered oracle opts st' ∧
      st'.executed = st.executed ++ rest ∧
      st'.deg = st.deg ∧
      (∀ v ∈ st.skipped, v ∈ st'.skipped) := by
  intro rest
  induction rest with
  | nil =>
      intro st st' hst hnd hids hfresh hready hok
      simp only [runLevelNodes] at hok
      cases hok
      exact ⟨hst, by simp, rfl, fun v hv => hv⟩
  | cons nid rest ih =>
      intro st st' hst hnd hids hfresh hready hok
      have hnid_ids : nid ∈ w.ids := hids nid (List.mem_cons_self _ _)
      obtain ⟨hnid_ex, hnid_sk⟩ := hfresh nid (List.mem_cons_self _ _)
      obtain ⟨node, hfn, hnodeid⟩ := findNode_isSome hnid_ids
      have hnid_rest : nid ∉ rest := (List.nodup_cons.mp hnd).1
      have hrest_nd : rest.Nodup := (List.nodup_cons.mp hnd).2
      rw [runLevelNodes, hfn] at hok
      simp only at hok
      cases houtcome : (executeNodeWithRetry registered oracle opts node st.clock).outcome with
      | error msg => rw [houtcome] at hok; cases hok
      | ok val =>
          rw [houtcome] at hok
          obtain ⟨s, hs⟩ := executeNodeWithRetry_ok_stored houtcome
          rw [hs] at hok
          simp only at hok
          have hout0 : nodeOutcome registered oracle opts node = .ok val := by
            rw [← (executeNodeWithRetry_clock_free registered oracle opts node st.clock).1]
            exact houtcome
          have hstored0 : (executeNodeWithRetry registered oracle opts node st.clock).stored
              = nodeStored registered oracle opts node :=
            (executeNodeWithRetry_clock_free registered oracle opts node st.clock).2.1
          have hstatus0 : (executeNodeWithRetry registered oracle opts node st.clock).metric.status
              = nodeStatus registered oracle opts node :=
            (executeNodeWithRetry_clock_free registered oracle opts node st.clock).2.2.1
          have hretr0 : (executeNodeWithRetry registered oracle opts node st.clock).metric.retries
              = nodeRetries registered oracle opts node :=
            (executeNodeWithRetry_clock_free registered oracle opts node st.clock).2.2.2.1
          have hstored_s : nodeStored registered oracle opts node = some s := by
            rw [← hstored0]
            exact hs
          have hcondFalse_iff : condFalse w registered oracle opts nid ↔
              (node.ntype = "condition" ∧ shouldContinueExecution val = false) := by
            constructor
            · rintro ⟨node2, hfn2, hnt, val2, hout2, hsc⟩
              rw [hfn] at hfn2
              cases hfn2
              rw [hout0] at hout2
              cases hout2
              exact ⟨hnt, hsc⟩
            · rintro ⟨hnt, hsc⟩
              exact ⟨node, hfn, hnt, val, hout0, hsc⟩
          set stA : SchedState :=
            { st with
                executed := st.executed ++ [nid],
                data := setKey st.data nid s,
                metrics := setKey st.metrics nid
                  (executeNodeWithRetry registered oracle opts node st.clock).metric,
                calls := fun x =>
                  if x = nid then
                    st.calls x + (if node.ntype ∈ registered then
                      (executeNodeWithRetry registered oracle opts node st.clock).attemptsMade
                      else 0)
                  else st.calls x,
                wraps := fun x => if x = nid then st.wraps x + 1 else st.wraps x,
                clock := (executeNodeWithRetry registered oracle opts node st.clock).endClock }
            with hstA
          have hmemexA : ∀ v, v ∈ stA.executed ↔ v ∈ st.executed ∨ v = nid := by
            intro v
            rw [hstA]
            simp [List.mem_append]
          have hexec_nodupA : stA.executed.Nodup := by
            rw [hstA]
            refine List.Nodup.append hst.exec_nodup (List.nodup_singleton nid) ?_
            intro x hx hxn
            rw [List.mem_singleton] at hxn
            subst hxn
            exact hnid_ex hx
          have hexec_idsA : ∀ v ∈ stA.executed, v ∈ w.ids := by
            intro v hv
            rcases (hmemexA v).mp hv with h | rfl
            · exact hst.exec_ids v h
            · exact hnid_ids
          have hexec_closedA : ∀ v ∈ stA.executed, ∀ e ∈ w.edges, e.target = v →
              e.source ∈ stA.executed := by
            intro v hv e he ht
            rcases (hmemexA v).mp hv with h | rfl
            · exact (hmemexA _).mpr (Or.inl (hst.exec_closed v h e he ht))
            · exact (hmemexA _).mpr (Or.inl (hready v (List.mem_cons_self _ _) e he ht))
          have hdataA : ∀ v, getKey stA.data v
              = if v = nid then some s else getKey st.data v := by
            intro v
            rw [hstA]
            by_cases hv : v = nid
            · subst hv
              simp only [if_pos rfl]
              exact getKey_setKey_self st.data v s
            · rw [if_neg hv]
              exact getKey_setKey_ne st.data nid v s hv
          have hmetA : ∀ v, getKey stA.metrics v
              = if v = nid then
                  some (executeNodeWithRetry registered oracle opts node st.clock).metric
                else getKey st.metrics v := by
            intro v
            rw [hstA]
            by_cases hv : v = nid
            · subst hv
              simp only [if_pos rfl]
              exact getKey_setKey_self st.metrics v _
            · rw [if_neg hv]
              exact getKey_setKey_ne st.metrics nid v _ hv
          have hexec_recordsA : ∀ v ∈ stA.executed, ∃ n, findNode w v = some n ∧
              (∃ vl, nodeOutcome registered oracle opts n = .ok vl) ∧
              getKey stA.data v = nodeStored registered oracle opts n ∧
              (∃ m, getKey stA.metrics v = some m ∧
                m.status = nodeStatus registered oracle opts n ∧
                m.retries = nodeRetries registered oracle opts n) := by
            intro v hv
            rcases (hmemexA v).mp hv with h | rfl
            · obtain ⟨n, hn1, hn2, hn3, hn4⟩ := hst.exec_records v h
              have hvne : v ≠ nid := by
                intro he
                subst he
                exact hnid_ex h
              refine ⟨n, hn1, hn2, ?_, ?_⟩
              · rw [hdataA v, if_neg hvne]
                exact hn3
              · rw [hmetA v, if_neg hvne]
                exact hn4
            · refine ⟨node, hfn, ⟨val, hout0⟩, ?_, ?_⟩
              · rw [hdataA v, if_pos rfl, hstored_s]
              · refine ⟨(executeNodeWithRetry registered oracle opts node st.clock).metric,
                  ?_, hstatus0, hretr0⟩
                rw [hmetA v, if_pos rfl]
          have hwrapsA : ∀ v, stA.wraps v = if v ∈ stA.executed then 1 else 0 := by
            intro v
            have hws := hst.wraps_spec v
            have hw : stA.wraps v = if v = nid then st.wraps v + 1 else st.wraps v := rfl
            rw [hw]
            by_cases hv : v = nid
            · rw [if_pos hv, if_pos ((hmemexA v).mpr (Or.inr hv))]
              rw [if_neg (by rw [hv]; exact hnid_ex)] at hws
              rw [hws]
            · rw [if_neg hv, hws]
              by_cases hvm : v ∈ st.executed
              · rw [if_pos hvm, if_pos ((hmemexA v).mpr (Or.inl hvm))]
              · rw [if_neg hvm, if_neg ?_]
                intro hc
                rcases (hmemexA v).mp hc with h | h
                · exact hvm h
                · exact hv h
          have hcallsA_exec : ∀ v, v ∉ stA.executed → stA.calls v = 0 := by
            intro v hv
            have hvne : v ≠ nid := by
              intro he
              exact hv ((hmemexA v).mpr (Or.inr he))
            have hvm : v ∉ st.executed := by
              intro h
              exact hv ((hmemexA v).mpr (Or.inl h))
            have hw : stA.calls v = if v = nid then
                st.calls v + (if node.ntype ∈ registered then
                  (executeNodeWithRetry registered oracle opts node st.clock).attemptsMade
                  else 0)
              else st.calls v := rfl
            rw [hw, if_neg hvne]
            exact hst.calls_exec v hvm
          have hcallsA_bound : ∀ v, stA.calls v ≤ effMaxRetries opts + 1 := by
            intro v
            have hw : stA.calls v = if v = nid then
                st.calls v + (if node.ntype ∈ registered then
                  (executeNodeWithRetry registered oracle opts node st.clock).attemptsMade
                  else 0)
              else st.calls v := rfl
            rw [hw]
            by_cases hv : v = nid
            · rw [if_pos hv]
              rw [show st.calls v = 0 from by rw [hv]; exact hst.calls_exec nid hnid_ex]
              have hat := executeNodeWithRetry_attempts_le registered oracle opts node st.clock
              by_cases hreg : node.ntype ∈ registered
              · rw [if_pos hreg]
                omega
              · rw [if_neg hreg]
                omega
            · rw [if_neg hv]
              exact hst.calls_bound v
          have hrest_freshA : ∀ v ∈ rest, v ∉ stA.executed := by
            intro v hv hc
            rcases (hmemexA v).mp hc with h | rfl
            · exact (hfresh v (List.mem_cons_of_mem _ hv)).1 h
            · exact hnid_rest hv
          have hrest_readyA : ∀ v ∈ rest, ∀ e ∈ w.edges, e.target = v →
              e.source ∈ stA.executed := by
            intro v hv e he ht
            exact (hmemexA _).mpr
              (Or.inl (hready v (List.mem_cons_of_mem _ hv) e he ht))
          by_cases hcond : node.ntype = "condition" ∧ shouldContinueExecution val = false
          · rw [if_pos hcond] at hok
            obtain ⟨hskmem, hsknd, hskmet⟩ := applySkips_char (getDownstreamNodes w nid) stA
            have hds : ∀ x, x ∈ getDownstreamNodes w nid ↔ Reach w nid x :=
              fun x => mem_getDownstreamNodes_iff w nid x
            have hds_fresh : ∀ x ∈ getDownstreamNodes w nid, x ∉ stA.executed := by
              intro x hx hc
              have hrx : Reach w nid x := (hds x).mp hx
              rcases (hmemexA x).mp hc with h | rfl
              · exact hnid_ex (reach_into_closed hst.exec_closed hrx h)
              · exact hacyc x hrx
            have hcondFalse_nid : condFalse w registered oracle opts nid :=
              hcondFalse_iff.mpr hcond
            have hstB : StInv w registered oracle opts
                (applySkips stA (getDownstreamNodes w nid)) := by
              refine ⟨?_, ?_, ?_, ?_, ?_, ?_, ?_, ?_, ?_, ?_, ?_, ?_, ?_, ?_⟩
              · rw [(applySkips_frame _ _).1]
                exact hexec_nodupA
              · intro v hv
                rw [(applySkips_frame _ _).1] at hv
                exact hexec_idsA v hv
              · intro v hv
                rcases (hskmem v).mp hv with h | h
                · exact hst.skip_ids v h
                · obtain ⟨e, he, ht⟩ := reach_last_edge ((hds v).mp h)
                  have := (hWF.2 e he).2
                  rwa [ht] at this
              · intro v hv hc
                rw [(applySkips_frame _ _).1] at hv
                rcases (hskmem v).mp hc with h | h
                · rcases (hmemexA v).mp hv with h2 | rfl
                  · exact hst.disj v h2 h
                  · exact hnid_sk h
                · exact hds_fresh v h hv
              · intro v hv e he ht
                rw [(applySkips_frame _ _).1] at hv ⊢
                exact hexec_closedA v hv e he ht
              · intro u hu e he hsrc
                rcases (hskmem u).mp hu with h | h
                · exact (hskmem _).mpr (Or.inl (hst.skip_closed u h e he hsrc))
                · refine (hskmem _).mpr (Or.inr ((hds _).mpr ?_))
                  exact Reach.snoc ((hds u).mp h) he hsrc
              · intro v hv
                rcases (hskmem v).mp hv with h | h
                · obtain ⟨c, hc1, hc2, hc3⟩ := hst.skip_origin v h
                  refine ⟨c, ?_, hc2, hc3⟩
                  rw [(applySkips_frame _ _).1]
                  exact (hmemexA c).mpr (Or.inl hc1)
                · refine ⟨nid, ?_, hcondFalse_nid, (hds v).mp h⟩
                  rw [(applySkips_frame _ _).1]
                  exact (hmemexA nid).mpr (Or.inr rfl)
              · intro c hc hcf v hrv
                rw [(applySkips_frame _ _).1] at hc
                rcases (hmemexA c).mp hc with h | rfl
                · exact (hskmem v).mpr (Or.inl (hst.pruned c h hcf v hrv))
                · exact (hskmem v).mpr (Or.inr ((hds v).mpr hrv))
              · intro v hv
                rw [(applySkips_frame _ _).1] at hv
                obtain ⟨n, hn1, hn2, hn3, m, hm1, hm2, hm3⟩ := hexec_recordsA v hv
                refine ⟨n, hn1, hn2, ?_, m, ?_, hm2, hm3⟩
                · rw [(applySkips_frame _ _).2.2.1]
                  exact hn3
                · rw [hskmet v, if_neg (fun h => hds_fresh v h hv)]
                  exact hm1
              · intro v hv
                rcases (hskmem v).mp hv with h | h
                · by_cases hvds : v ∈ getDownstreamNodes w nid
                  · refine ⟨⟨stA.clock, stA.clock, 0, 0, .skipped⟩, ?_, rfl, rfl, rfl⟩
                    rw [hskmet v, if_pos hvds]
                  · obtain ⟨m, hm1, hm2, hm3, hm4⟩ := hst.skip_records v h
                    have hvne : v ≠ nid := by
                      intro he
                      subst he
                      exact hnid_sk h
                    refine ⟨m, ?_, hm2, hm3, hm4⟩
                    rw [hskmet v, if_neg hvds, hmetA v, if_neg hvne]
                    exact hm1
                · refine ⟨⟨stA.clock, stA.clock, 0, 0, .skipped⟩, ?_, rfl, rfl, rfl⟩
                  rw [hskmet v, if_pos ((hds v).mpr ((hds v).mp h))]
              · intro v hv
                rw [hskmet v] at hv
                by_cases hvds : v ∈ getDownstreamNodes w nid
                · exact Or.inr ((hskmem v).mpr (Or.inr hvds))
                · rw [if_neg hvds, hmetA v] at hv
                  by_cases hvn : v = nid
                  · subst hvn
                    left
                    rw [(applySkips_frame _ _).1]
                    exact (hmemexA v).mpr (Or.inr rfl)
                  · rw [if_neg hvn] at hv
                    rcases hst.metrics_dom v hv with h | h
                    · left
                      rw [(applySkips_frame _ _).1]
                      exact (hmemexA v).mpr (Or.inl h)
                    · exact Or.inr ((hskmem v).mpr (Or.inl h))
              · intro v
                rw [(applySkips_frame _ _).2.2.2.2.1, (applySkips_frame _ _).1]
                exact hwrapsA v
              · intro v hv
                rw [(applySkips_frame _ _).1] at hv
                rw [(applySkips_frame _ _).2.2.2.1]
                exact hcallsA_exec v hv
              · intro v
                rw [(applySkips_frame _ _).2.2.2.1]
                exact hcallsA_bound v
            have hrest_freshB : ∀ v ∈ rest,
                v ∉ (applySkips stA (getDownstreamNodes w nid)).executed ∧
                v ∉ (applySkips stA (getDownstreamNodes w nid)).skipped := by
              intro v hv
              constructor
              · rw [(applySkips_frame _ _).1]
                exact hrest_freshA v hv
              · intro hc
                rcases (hskmem v).mp hc with h | h
                · exact (hfresh v (List.mem_cons_of_mem _ hv)).2 h
                · have hrv : Reach w nid v := (hds v).mp h
                  exact hnid_ex (reach_not_ready_source hst.exec_closed
                    (hready v (List.mem_cons_of_mem _ hv)) hrv)
            have hrest_readyB : ∀ v ∈ rest, ∀ e ∈ w.edges, e.target = v →
                e.source ∈ (applySkips stA (getDownstreamNodes w nid)).executed := by
              intro v hv e he ht
              rw [(applySkips_frame _ _).1]
              exact hrest_readyA v hv e he ht
            obtain ⟨h1, h2, h3, h4⟩ := ih _ st' hstB hrest_nd
              (fun v hv => hids v (List.mem_cons_of_mem _ hv)) hrest_freshB hrest_readyB hok
            refine ⟨h1, ?_, ?_, ?_⟩
            · rw [h2, (applySkips_frame _ _).1, hstA]
              simp
            · rw [h3, (applySkips_frame _ _).2.1, hstA]
            · intro v hv
              exact h4 v ((hskmem v).mpr (Or.inl hv))
          · rw [if_neg hcond] at hok
            have hstB : StInv w registered oracle opts stA := by
              refine ⟨hexec_nodupA, hexec_idsA, hst.skip_ids, ?_, hexec_closedA,
                hst.skip_closed, ?_, ?_, hexec_recordsA, ?_, ?_, hwrapsA,
                hcallsA_exec, hcallsA_bound⟩
              · intro v hv hc
                rcases (hmemexA v).mp hv with h | rfl
                · exact hst.disj v h hc
                · exact hnid_sk hc
              · intro v hv
                obtain ⟨c, hc1, hc2, hc3⟩ := hst.skip_origin v hv
                exact ⟨c, (hmemexA c).mpr (Or.inl hc1), hc2, hc3⟩
              · intro c hc hcf v hrv
                rcases (hmemexA c).mp hc with h | rfl
                · exact hst.pruned c h hcf v hrv
                · exact absurd (hcondFalse_iff.mp hcf) hcond
              · intro v hv
                obtain ⟨m, hm1, hm2, hm3, hm4⟩ := hst.skip_records v hv
                have hvne : v ≠ nid := by
                  intro he
                  subst he
                  exact hnid_sk hv
                refine ⟨m, ?_, hm2, hm3, hm4⟩
                rw [hmetA v, if_neg hvne]
                exact hm1
              · intro v hv
                rw [hmetA v] at hv
                by_cases hvn : v = nid
                · subst hvn
                  exact Or.inl ((hmemexA v).mpr (Or.inr rfl))
                · rw [if_neg hvn] at hv
                  rcases hst.metrics_dom v hv with h | h
                  · exact Or.inl ((hmemexA v).mpr (Or.inl h))
                  · exact Or.inr h
            have hrest_freshB : ∀ v ∈ rest, v ∉ stA.executed ∧ v ∉ stA.skipped := by
              intro v hv
              exact ⟨hrest_freshA v hv, (hfresh v (List.mem_cons_of_mem _ hv)).2⟩
            obtain ⟨h1, h2, h3, h4⟩ := ih _ st' hstB hrest_nd
              (fun v hv => hids v (List.mem_cons_of_mem _ hv)) hrest_freshB hrest_readyA hok
            refine ⟨h1, ?_, ?_, ?_⟩
            · rw [h2, hstA]
              simp
            · rw [h3, hstA]
            · intro v hv
              exact h4 v hv

lemma sched_step {w : Workflow} {registered : List String}
    {oracle : String → Nat → Attempt} {opts : ExecutionOptions}
    (hWF : WF w) (hacyc : ∀ v, ¬Reach w v v) {level : List String} {st stm : SchedState}
    (hinv : SchedInv w registered oracle opts st level)
    (hrun : runLevelNodes w registered oracle opts level st = .ok stm) :
    SchedInv w registered oracle opts
      { stm with deg := (nextLevelPhase w stm.executed stm.skipped level stm.deg []).1 }
      (nextLevelPhase w stm.executed stm.skipped level stm.deg []).2 ∧
    stm.executed = st.executed ++ level := by
  obtain ⟨hstm, hexec, hdeg, hskmono⟩ := runLevelNodes_inv hWF hacyc level st stm
    hinv.stInv hinv.level_nodup hinv.level_ids hinv.level_fresh hinv.level_ready hrun
  have hphase := nextLevelPhase_eq_foldl w stm.executed stm.skipped level stm.deg []
  obtain ⟨hfdeg, hfnd, hfmem⟩ := levelStep_fold stm.executed stm.skipped
    (level.flatMap (adjacency w)) stm.deg []
  have hcount : ∀ v, (((level.flatMap (adjacency w)).count v : Nat) : Int)
      = countFrom w level v :=
    fun v => flatMap_adjacency_count w v level hinv.level_nodup
  have hdeg_p : ∀ v, (nextLevelPhase w stm.executed stm.skipped level stm.deg []).1 v
      = if v ∈ stm.executed ∨ v ∈ stm.skipped then stm.deg v
        else stm.deg v - countFrom w level v := by
    intro v
    rw [hphase, hfdeg v, hcount v]
  have hmem_p : ∀ v, v ∈ (nextLevelPhase w stm.executed stm.skipped level stm.deg []).2 ↔
      v ∉ stm.executed ∧ v ∉ stm.skipped ∧
      1 ≤ stm.deg v ∧ stm.deg v ≤ countFrom w level v := by
    intro v
    rw [hphase, hfmem v, hcount v]
    simp only [List.not_mem_nil, false_or]
  have hnodup_p : (nextLevelPhase w stm.executed stm.skipped level stm.deg []).2.Nodup := by
    rw [hphase]
    exact hfnd List.nodup_nil
  have hids_p : ∀ v ∈ (nextLevelPhase w stm.executed stm.skipped level stm.deg []).2,
      v ∈ w.ids := by
    intro v hv
    obtain ⟨-, -, h1, h2⟩ := (hmem_p v).mp hv
    have hpos : 0 < countFrom w level v := by omega
    obtain ⟨e, he, ht, -⟩ := countFrom_pos_edge hpos
    have h3 := (hWF.2 e he).2
    rwa [ht] at h3
  have hold_acct : ∀ v, v ∈ w.ids → v ∉ stm.executed → v ∉ stm.skipped →
      st.deg v = inDeg w v - countFrom w st.executed v ∧ st.deg v ≠ 0 ∧
      v ∉ st.executed ∧ v ∉ st.skipped ∧ v ∉ level := by
    intro v hvids hvex hvsk
    have hvex0 : v ∉ st.executed := by
      intro h
      exact hvex (by rw [hexec]; exact List.mem_append.mpr (Or.inl h))
    have hvlvl : v ∉ level := by
      intro h
      exact hvex (by rw [hexec]; exact List.mem_append.mpr (Or.inr h))
    have hvsk0 : v ∉ st.skipped := fun h => hvsk (hskmono v h)
    obtain ⟨h1, h2⟩ := hinv.deg_acct v hvids hvex0 hvsk0 hvlvl
    exact ⟨h1, h2, hvex0, hvsk0, hvlvl⟩
  have hdisj_lvl : ∀ x ∈ st.executed, x ∉ level :=
    fun x hx hxl => (hinv.level_fresh x hxl).1 hx
  have hsum : ∀ v, countFrom w (st.executed ++ level) v
      = countFrom w st.executed v + countFrom w level v :=
    fun v => countFrom_append w st.executed level v hdisj_lvl
  refine ⟨⟨⟨hstm.exec_nodup, hstm.exec_ids, hstm.skip_ids, hstm.disj, hstm.exec_closed,
    hstm.skip_closed, hstm.skip_origin, hstm.pruned, hstm.exec_records, hstm.skip_records,
    hstm.metrics_dom, hstm.wraps_spec, hstm.calls_exec, hstm.calls_bound⟩,
    hnodup_p, hids_p, ?_, ?_, ?_⟩, hexec⟩
  · intro v hv
    obtain ⟨h1, h2, -, -⟩ := (hmem_p v).mp hv
    exact ⟨h1, h2⟩
  · intro v hv
    obtain ⟨hvex, hvsk, h1, h2⟩ := (hmem_p v).mp hv
    have hvids := hids_p v hv
    obtain ⟨hacct, hnz, hvex0, hvsk0, hvlvl⟩ := hold_acct v hvids hvex hvsk
    rw [hdeg] at h1 h2
    have hle := countFrom_le_inDeg w (st.executed ++ level) v
    have heq : countFrom w (st.executed ++ level) v = inDeg w v := by
      have := hsum v
      omega
    intro e he ht
    have hsrc := countFrom_eq_inDeg_sources heq e he ht
    rw [hexec]
    exact hsrc
  · intro v hvids hvex hvsk hvp2
    obtain ⟨hacct, hnz, hvex0, hvsk0, hvlvl⟩ := hold_acct v hvids hvex hvsk
    have hset : ¬(v ∈ stm.executed ∨ v ∈ stm.skipped) := by
      rintro (h | h)
      · exact hvex h
      · exact hvsk h
    have hshow : ({ stm with
        deg := (nextLevelPhase w stm.executed stm.skipped level stm.deg []).1 } :
          SchedState).deg v
        = (nextLevelPhase w stm.executed stm.skipped level stm.deg []).1 v := rfl
    have hdegv : (nextLevelPhase w stm.executed stm.skipped level stm.deg []).1 v
        = st.deg v - countFrom w level v := by
      rw [hdeg_p v, if_neg hset, hdeg]
    have hnn : 0 ≤ st.deg v := by
      have := countFrom_le_inDeg w st.executed v
      omega
    constructor
    · rw [hshow, hdegv, hexec, hsum v]
      omega
    · rw [hshow, hdegv]
      intro h0
      refine hvp2 ((hmem_p v).mpr ⟨hvex, hvsk, ?_, ?_⟩) <;> rw [hdeg] <;> omega

lemma schedLoop_inv {w : Workflow} {registered : List String}
    {oracle : String → Nat → Attempt} {opts : ExecutionOptions}
    (hWF : WF w) (hacyc : ∀ v, ¬Reach w v v) :
    ∀ (fuel : Nat) (level : List String) (st st' : SchedState),
      SchedInv w registered oracle opts st level →
      schedLoop w registered oracle opts fuel level st = .ok st' →
      SchedInv w registered oracle opts st' [] := by
  intro fuel
  induction fuel with
  | zero =>
      intro level st st' hinv hok
      simp only [schedLoop] at hok
      by_cases hl : level = []
      · rw [if_pos hl] at hok
        cases hok
        subst hl
        exact hinv
      · rw [if_neg hl] at hok
        cases hok
  | succ fuel ih =>
      intro level st st' hinv hok
      rw [schedLoop] at hok
      by_cases hl : level = []
      · rw [if_pos hl] at hok
        cases hok
        subst hl
        exact hinv
      · rw [if_neg hl] at hok
        simp only at hok
        have hfilter : level.filter
            (fun nid => nid ∉ st.executed ∧ nid ∉ st.skipped) = level := by
          rw [List.filter_eq_self]
          intro a ha
          have h := hinv.level_fresh a ha
          simp [h.1, h.2]
        rw [hfilter] at hok
        cases hrun : runLevelNodes w registered oracle opts level st with
        | error e => rw [hrun] at hok; cases hok
        | ok stm =>
            rw [hrun] at hok
            obtain ⟨hinv2, -⟩ := sched_step hWF hacyc hinv hrun
            exact ih _ _ _ hinv2 hok

lemma schedLoop_ok {w : Workflow} {registered : List String}
    {oracle : String → Nat → Attempt} {opts : ExecutionOptions}
    (hWF : WF w) (hacyc : ∀ v, ¬Reach w v v) (hcont : opts.continueOnError = true) :
    ∀ (fuel : Nat) (level : List String) (st : SchedState),
      SchedInv w registered oracle opts st level →
      w.nodes.length < fuel + st.executed.length →
      ∃ st', schedLoop w registered oracle opts fuel level st = .ok st' := by
  intro fuel
  induction fuel with
  | zero =>
      intro level st hinv hb
      have h1 := nodup_length_le_of_subset hinv.stInv.exec_nodup hinv.stInv.exec_ids
      have h2 : w.ids.length = w.nodes.length := by simp [Workflow.ids]
      exact absurd hb (by omega)
  | succ fuel ih =>
      intro level st hinv hb
      by_cases hl : level = []
      · exact ⟨st, by rw [schedLoop, if_pos hl]⟩
      · have hfilter : level.filter
            (fun nid => nid ∉ st.executed ∧ nid ∉ st.skipped) = level := by
          rw [List.filter_eq_self]
          intro a ha
          have h := hinv.level_fresh a ha
          simp [h.1, h.2]
        obtain ⟨stm, hrun⟩ := runLevelNodes_ok_of_continue hcont level st
        obtain ⟨hinv2, hexec⟩ := sched_step hWF hacyc hinv hrun
        have hlvl_pos : 0 < level.length := by
          cases level with
          | nil => exact absurd rfl hl
          | cons a l => simp
        have hb2 : w.nodes.length < fuel
            + ({ stm with deg := (nextLevelPhase w stm.executed stm.skipped level
                stm.deg []).1 } : SchedState).executed.length := by
          have hlen : stm.executed.length = st.executed.length + level.length := by
            rw [hexec, List.length_append]
          have hsame : ({ stm with deg := (nextLevelPhase w stm.executed stm.skipped level
              stm.deg []).1 } : SchedState).executed.length = stm.executed.length := rfl
          omega
        obtain ⟨st', hok'⟩ := ih _ _ hinv2 hb2
        refine ⟨st', ?_⟩
        rw [schedLoop, if_neg hl]
        simp only
        rw [hfilter, hrun]
        exact hok'

lemma initial_schedInv (w : Workflow) (registered : List String)
    (oracle : String → Nat → Attempt) (opts : ExecutionOptions)
    (inputData : List (String × Value)) (hWF : WF w) :
    SchedInv w registered oracle opts (initialState w inputData) (initialLevel w) := by
  refine ⟨⟨List.nodup_nil, ?_, ?_, ?_, ?_, ?_, ?_, ?_, ?_, ?_, ?_, ?_, ?_, ?_⟩,
    ?_, ?_, ?_, ?_, ?_⟩
  · intro v hv
    exact absurd hv (List.not_mem_nil v)
  · intro v hv
    exact absurd hv (List.not_mem_nil v)
  · intro v hv
    exact absurd hv (List.not_mem_nil v)
  · intro v hv
    exact absurd hv (List.not_mem_nil v)
  · intro v hv
    exact absurd hv (List.not_mem_nil v)
  · intro v hv
    exact absurd hv (List.not_mem_nil v)
  · intro v hv
    exact absurd hv (List.not_mem_nil v)
  · intro v hv
    exact absurd hv (List.not_mem_nil v)
  · intro v hv
    exact absurd hv (List.not_mem_nil v)
  · intro v hv
    simp [initialState, getKey] at hv
  · intro v
    simp [initialState]
  · intro v _
    rfl
  · intro v
    exact Nat.zero_le _
  · simpa [initialLevel] using hWF.1.filter (fun v => decide (inDeg w v = 0))
  · intro v hv
    simp only [initialLevel, List.mem_filter] at hv
    exact hv.1
  · intro v hv
    exact ⟨List.not_mem_nil v, List.not_mem_nil v⟩
  · intro v hv e he ht
    have hv2 : inDeg w v = 0 := by
      simp only [initialLevel, List.mem_filter, decide_eq_true_eq] at hv
      exact hv.2
    exact absurd ht (inDeg_zero_no_edges hv2 e he)
  · intro v hvids hvex hvsk hvl
    constructor
    · show inDeg w v = inDeg w v - countFrom w ([] : List String) v
      rw [countFrom, countFromEdges_nil_left]
      omega
    · show inDeg w v ≠ 0
      intro h0
      exact hvl (List.mem_filter.mpr ⟨hvids, decide_eq_true h0⟩)

lemma executeWorkflow_eq_sched (w : Workflow) (registered : List String)
    (oracle : String → Nat → Attempt) (opts : ExecutionOptions)
    (inputData : List (String × Value)) (hacc : accepted w) :
    executeWorkflow w registered oracle opts inputData
      = schedLoop w registered oracle opts (schedFuel w) (initialLevel w)
          (initialState w inputData) := by
  have hdc : detectCycles w = .ok () := by
    simp only [detectCycles]
    rw [if_neg (fun hne => hne hacc)]
  simp only [executeWorkflow, hdc]

lemma schedInv_complete {w : Workflow} {registered : List String}
    {oracle : String → Nat → Attempt} {opts : ExecutionOptions} {st : SchedState}
    (hWF : WF w) (hacyc : ∀ v, ¬Reach w v v)
    (hinv : SchedInv w registered oracle opts st []) :
    ∀ v ∈ w.ids, v ∈ st.executed ∨ v ∈ st.skipped := by
  intro v hv
  by_contra hno
  push_neg at hno
  obtain ⟨hex, hsk⟩ := hno
  have hstep : ∀ u, (u ∈ w.ids ∧ u ∉ st.executed ∧ u ∉ st.skipped) →
      ∃ p, (p ∈ w.ids ∧ p ∉ st.executed ∧ p ∉ st.skipped) ∧
        ∃ e ∈ w.edges, e.source = p ∧ e.target = u := by
    rintro u ⟨hu1, hu2, hu3⟩
    obtain ⟨hacct, hnz⟩ := hinv.deg_acct u hu1 hu2 hu3 (List.not_mem_nil u)
    have hle := countFrom_le_inDeg w st.executed u
    have hlt : countFrom w st.executed u < inDeg w u := by omega
    have hex2 : ∃ e ∈ w.edges, e.target = u ∧ e.source ∉ st.executed := by
      by_contra hno2
      push_neg at hno2
      have hall := countFromEdges_eq_of_sources w.edges hno2
      rw [countFrom, inDeg_eq_countTo] at hlt
      omega
    obtain ⟨e, he, ht, hsrc⟩ := hex2
    refine ⟨e.source, ⟨(hWF.2 e he).1, hsrc, ?_⟩, e, he, rfl, ht⟩
    intro hsk2
    have h3 := hinv.stInv.skip_closed e.source hsk2 e he rfl
    rw [ht] at h3
    exact hu3 h3
  obtain ⟨c, hcc, -⟩ := chain_reach_cycle w hstep (fun u hu => hu.1) ⟨hv, hex, hsk⟩
  exact hacyc c hcc

lemma executeWorkflow_final {w : Workflow} {registered : List String}
    {oracle : String → Nat → Attempt} {opts : ExecutionOptions}
    {inputData : List (String × Value)} {st' : SchedState}
    (hWF : WF w) (hacc : accepted w)
    (hok : executeWorkflow w registered oracle opts inputData = .ok st') :
    StInv w registered oracle opts st' ∧
    (∀ v ∈ w.ids, v ∈ st'.executed ∨ v ∈ st'.skipped) := by
  have hacyc := accepted_acyclic w hWF hacc
  rw [executeWorkflow_eq_sched w registered oracle opts inputData hacc] at hok
  have hinv := schedLoop_inv hWF hacyc (schedFuel w) (initialLevel w)
    (initialState w inputData) st' (initial_schedInv w registered oracle opts inputData hWF)
    hok
  exact ⟨hinv.stInv, schedInv_complete hWF hacyc hinv⟩

lemma executeWorkflow_ok_of_continue {w : Workflow} {registered : List String}
    {oracle : String → Nat → Attempt} {opts : ExecutionOptions}
    {inputData : List (String × Value)}
    (hWF : WF w) (hacc : accepted w) (hcont : opts.continueOnError = true) :
    ∃ st', executeWorkflow w registered oracle opts inputData = .ok st' := by
  have hacyc := accepted_acyclic w hWF hacc
  rw [executeWorkflow_eq_sched w registered oracle opts inputData hacc]
  refine schedLoop_ok hWF hacyc hcont (schedFuel w) (initialLevel w)
    (initialState w inputData) (initial_schedInv w registered oracle opts inputData hWF) ?_
  show w.nodes.length < schedFuel w + ([] : List String).length
  simp [schedFuel]

/-! ## Claims C1, C3, C4 -/

/-- C1: for an accepted well-formed workflow whose run completes normally,
the level scheduler settles every node exactly once: each declared node
ends in exactly one of executed or skipped, the executed list is
duplicate-free, every declared node has a metrics entry whose final status
is exactly one of success, failed or skipped (skipped precisely for the
skipped nodes), no node passes through the retry wrapper more than once,
and no node's capability is invoked more than maxRetries + 1 times; in the
diamond graph A→B, A→C, B→D, C→D the completion order is A, B, C, D, so D
executes exactly once, strictly after both B and C have settled. -/
theorem C1_exactly_once (w : Workflow) (registered : List String)
    (oracle : String → Nat → Attempt) (opts : ExecutionOptions)
    (inputData : List (String × Value)) (st' : SchedState)
    (hWF : WF w) (hacc : accepted w)
    (hok : executeWorkflow w registered oracle opts inputData = .ok st') :
    (∀ v ∈ w.ids, (v ∈ st'.executed ∧ v ∉ st'.skipped) ∨
      (v ∈ st'.skipped ∧ v ∉ st'.executed)) ∧
    st'.executed.Nodup ∧
    (∀ v ∈ w.ids, ∃ m, getKey st'.metrics v = some m ∧
      (m.status = .success ∨ m.status = .failed ∨ m.status = .skipped) ∧
      (m.status = .skipped ↔ v ∈ st'.skipped)) ∧
    (∀ v, st'.wraps v ≤ 1) ∧
    (∀ v, st'.calls v ≤ effMaxRetries opts + 1) ∧
    (runState (executeWorkflow diamondWorkflow builtinTypes alwaysOk noOptions
      [])).executed = ["A", "B", "C", "D"] ∧
    (runState (executeWorkflow diamondWorkflow builtinTypes alwaysOk noOptions
      [])).executed.count "D" = 1 ∧
    (runState (executeWorkflow diamondWorkflow builtinTypes alwaysOk noOptions
      [])).executed.indexOf "B"
      < (runState (executeWorkflow diamondWorkflow builtinTypes alwaysOk noOptions
        [])).executed.indexOf "D" ∧
    (runState (executeWorkflow diamondWorkflow builtinTypes alwaysOk noOptions
      [])).executed.indexOf "C"
      < (runState (executeWorkflow diamondWorkflow builtinTypes alwaysOk noOptions
        [])).executed.indexOf "D" := by
  obtain ⟨hst, hcomp⟩ := executeWorkflow_final hWF hacc hok
  refine ⟨?_, hst.exec_nodup, ?_, ?_, hst.calls_bound, rfl, by decide, by decide, by decide⟩
  · intro v hv
    rcases hcomp v hv with h | h
    · exact Or.inl ⟨h, hst.disj v h⟩
    · refine Or.inr ⟨h, ?_⟩
      intro hc
      exact hst.disj v hc h
  · intro v hv
    rcases hcomp v hv with h | h
    · obtain ⟨n, -, -, -, m, hm1, hm2, -⟩ := hst.exec_records v h
      have hmf := (executeNodeWithRetry_metric_frame registered oracle opts n 0).2.2.2
      have hns : nodeStatus registered oracle opts n
          = (executeNodeWithRetry registered oracle opts n 0).metric.status := rfl
      refine ⟨m, hm1, ?_, ?_, ?_⟩
      · rcases hmf with h2 | h2
        · left
          rw [hm2, hns]
          exact h2
        · right
          left
          rw [hm2, hns]
          exact h2
      · intro hsk
        rw [hm2, hns] at hsk
        rcases hmf with h2 | h2
        · rw [hsk] at h2
          cases h2
        · rw [hsk] at h2
          cases h2
      · intro hsk
        exact absurd hsk (hst.disj v h)
    · obtain ⟨m, hm1, hm2, -, -⟩ := hst.skip_records v h
      exact ⟨m, hm1, Or.inr (Or.inr hm2), fun _ => h, fun _ => hm2⟩
  · intro v
    rw [hst.wraps_spec v]
    by_cases h : v ∈ st'.executed
    · rw [if_pos h]
    · rw [if_neg h]
      omega

/-- Witness for C1 at the diamond workflow, instantiated at node D. -/
theorem C1_exactly_once_witness :
    ("D" ∈ (runState (executeWorkflow diamondWorkflow builtinTypes alwaysOk noOptions
        [])).executed ∧
     "D" ∉ (runState (executeWorkflow diamondWorkflow builtinTypes alwaysOk noOptions
        [])).skipped) ∨
    ("D" ∈ (runState (executeWorkflow diamondWorkflow builtinTypes alwaysOk noOptions
        [])).skipped ∧
     "D" ∉ (runState (executeWorkflow diamondWorkflow builtinTypes alwaysOk noOptions
        [])).executed) :=
  (C1_exactly_once diamondWorkflow builtinTypes alwaysOk noOptions []
    (runState (executeWorkflow diamondWorkflow builtinTypes alwaysOk noOptions []))
    ⟨by decide, by decide⟩
    (by show (kahnProcessed diamondWorkflow).length = diamondWorkflow.nodes.length
        decide)
    rfl).1 "D" (by decide)

/-- C3: for an accepted well-formed workflow whose run completes normally,
every node reachable from an executed false condition is skipped with a
zero-duration skipped metrics entry and is never executed — even when it
is also reachable along another, non-pruned path — and every skipped node
arises this way; a declared node that is not skipped executes normally.
In the merge workflow T→C, T→X, C→X with a false condition C, the merge
point X is skipped although it is also a direct successor of T. -/
theorem C3_branch_pruning (w : Workflow) (registered : List String)
    (oracle : String → Nat → Attempt) (opts : ExecutionOptions)
    (inputData : List (String × Value)) (st' : SchedState)
    (hWF : WF w) (hacc : accepted w)
    (hok : executeWorkflow w registered oracle opts inputData = .ok st') :
    (∀ c ∈ st'.executed, condFalse w registered oracle opts c →
      ∀ v, Reach w c v → v ∈ st'.skipped ∧ v ∉ st'.executed ∧
        ∃ m, getKey st'.metrics v = some m ∧ m.status = .skipped ∧ m.duration = 0) ∧
    (∀ v ∈ st'.skipped, ∃ c, c ∈ st'.executed ∧
      condFalse w registered oracle opts c ∧ Reach w c v) ∧
    (∀ v ∈ w.ids, v ∉ st'.skipped → v ∈ st'.executed) ∧
    (runState (executeWorkflow mergeWorkflow builtinTypes condFalseOracle noOptions
      [])).skipped = ["X"] ∧
    (runState (executeWorkflow mergeWorkflow builtinTypes condFalseOracle noOptions
      [])).executed = ["T", "C"] := by
  obtain ⟨hst, hcomp⟩ := executeWorkflow_final hWF hacc hok
  refine ⟨?_, hst.skip_origin, ?_, rfl, rfl⟩
  · intro c hc hcf v hrv
    have hv_sk := hst.pruned c hc hcf v hrv
    obtain ⟨m, hm1, hm2, hm3, -⟩ := hst.skip_records v hv_sk
    refine ⟨hv_sk, ?_, m, hm1, hm2, hm3⟩
    intro hc2
    exact hst.disj v hc2 hv_sk
  · intro v hv hns
    rcases hcomp v hv with h | h
    · exact h
    · exact absurd h hns

/-- Witness for C3 at the merge workflow, instantiated at the skipped
merge point X. -/
theorem C3_branch_pruning_witness :
    ∃ c, c ∈ (runState (executeWorkflow mergeWorkflow builtinTypes condFalseOracle
        noOptions [])).executed ∧
      condFalse mergeWorkflow builtinTypes condFalseOracle noOptions c ∧
      Reach mergeWorkflow c "X" :=
  (C3_branch_pruning mergeWorkflow builtinTypes condFalseOracle noOptions []
    (runState (executeWorkflow mergeWorkflow builtinTypes condFalseOracle noOptions []))
    ⟨by decide, by decide⟩
    (by show (kahnProcessed mergeWorkflow).length = mergeWorkflow.nodes.length
        decide)
    rfl).2.1 "X" (by decide)

/-- C4: for a registered node whose capability fails on every attempt, an
accepted well-formed workflow run with continueOnError completes normally
and, when that node executes, stores the sentinel \x7b error, skipped: true \x7d
in the run data with a failed metrics entry; without continueOnError no
normally-completed run ever executed that node (the failure aborts the
run). The concrete line workflow A→B→D with B failing shows the abort
(error nodeFailure B boom) without continueOnError and, with it, a normal
completion in which all three nodes execute, B's stored value is the
sentinel, and downstream variable resolution sees the sentinel's fields. -/
theorem C4_continue_on_error (w : Workflow) (registered : List String)
    (oracle : String → Nat → Attempt) (opts : ExecutionOptions)
    (inputData : List (String × Value)) (n : WNode) (msg : Nat → String)
    (hWF : WF w) (hacc : accepted w) (hn : n ∈ w.nodes) (hreg : n.ntype ∈ registered)
    (hfail : ∀ i, oracle n.id i = .fail (msg i)) :
    (opts.continueOnError = true →
      ∃ st', executeWorkflow w registered oracle opts inputData = .ok st' ∧
        (n.id ∈ st'.executed →
          getKey st'.data n.id = some (sentinelValue (msg (effMaxRetries opts))) ∧
          ∃ m, getKey st'.metrics n.id = some m ∧ m.status = .failed)) ∧
    (opts.continueOnError = false →
      ∀ st', executeWorkflow w registered oracle opts inputData = .ok st' →
        n.id ∉ st'.executed) ∧
    runErr (executeWorkflow lineWorkflow builtinTypes failBOracle
      ⟨false, none, none⟩ []) = some (.nodeFailure "B" "boom") ∧
    runErr (executeWorkflow lineWorkflow builtinTypes failBOracle
      ⟨true, none, none⟩ []) = none ∧
    (runState (executeWorkflow lineWorkflow builtinTypes failBOracle
      ⟨true, none, none⟩ [])).executed = ["A", "B", "D"] ∧
    getKey (runState (executeWorkflow lineWorkflow builtinTypes failBOracle
      ⟨true, none, none⟩ [])).data "B" = some (sentinelValue "boom") ∧
    replaceVariables "status: ${B.error}"
      (.vObj (runState (executeWorkflow lineWorkflow builtinTypes failBOracle
        ⟨true, none, none⟩ [])).data) = "status: boom" := by
  refine ⟨?_, ?_, rfl, rfl, rfl, rfl, rfl⟩
  · intro hcont
    obtain ⟨st', hok⟩ := executeWorkflow_ok_of_continue hWF hacc hcont
    obtain ⟨hst, -⟩ := executeWorkflow_final hWF hacc hok
    refine ⟨st', hok, ?_⟩
    intro hex
    obtain ⟨n2, hn2, ⟨val, hval⟩, hdata, m, hm1, hm2, hm3⟩ := hst.exec_records n.id hex
    have hn2e : n2 = n := by
      have hfe := findNode_eq_of_mem hWF hn
      rw [hfe] at hn2
      cases hn2
      rfl
    rw [hn2e] at hdata hm2
    have hall := @executeNodeWithRetry_allFail_continue registered oracle opts n 0
      msg hreg hcont hfail
    constructor
    · rw [hdata]
      exact hall.2.1
    · refine ⟨m, hm1, ?_⟩
      rw [hm2]
      exact hall.2.2.1
  · intro hcont st' hok hex
    obtain ⟨hst, -⟩ := executeWorkflow_final hWF hacc hok
    obtain ⟨n2, hn2, ⟨val, hval⟩, -⟩ := hst.exec_records n.id hex
    have hn2e : n2 = n := by
      have hfe := findNode_eq_of_mem hWF hn
      rw [hfe] at hn2
      cases hn2
      rfl
    rw [hn2e] at hval
    have habort := @executeNodeWithRetry_allFail_abort registered oracle opts n 0
      msg hreg hcont hfail
    have herr : nodeOutcome registered oracle opts n
        = .error (msg (effMaxRetries opts)) := habort.1
    rw [herr] at hval
    cases hval

/-- Witness for C4 at the line workflow with a permanently failing B under
continueOnError. -/
theorem C4_continue_on_error_witness :
    ∃ st', executeWorkflow lineWorkflow builtinTypes failBOracle
        (⟨true, none, none⟩ : ExecutionOptions) [] = .ok st' ∧
      ("B" ∈ st'.executed →
        getKey st'.data "B" = some (sentinelValue "boom") ∧
        ∃ m, getKey st'.metrics "B" = some m ∧ m.status = .failed) :=
  (C4_continue_on_error lineWorkflow builtinTypes failBOracle ⟨true, none, none⟩ []
    ⟨"B", "action"⟩ (fun _ => "boom") ⟨by decide, by decide⟩
    (by show (kahnProcessed lineWorkflow).length = lineWorkflow.nodes.length
        decide)
    (by decide) (by decide) (fun i => rfl)).1 rfl

end FlowForge
